import Mathlib

/-!
# Verification of the connect-dots puzzle generator

Shallow embedding of the repository's puzzle-generation engine
(`src/Grid.js`, `src/Random.js`, `src/Generator.js`), of the level-code
round trip (`src/main.js`) and of the verification endpoint's reference
derivation (`server.js`), together with theorems settling the frozen
claims about it.

Conventions of the embedding:
* JS numbers holding grid coordinates are embedded as `Int` (neighbour
  arithmetic produces `-1`, which the bounds check must reject).
* All 32-bit wrapping arithmetic of the Mulberry32 generator is embedded
  as `Nat` arithmetic modulo `2^32`.  The JS floating-point expressions
  involved (`t / 4294967296`, `next() * (max - min) + min`,
  `next() * (i + 1)`) are exact in binary64 for the operand ranges that
  occur (numerators below `2^53`, power-of-two denominators), so the
  integer formulas used here are equal to the JS results.
* Mutation of `this.grid` / `this.random` is embedded as explicit state
  passing: each method takes and returns the `Generator` state.
* The unbounded `while` loops of the source (`tightenPaths`,
  `mergeCollinearPaths`, the BFS queue loop) are embedded with an explicit
  fuel argument initialised to a value the loop can never consume
  (each merging step removes a path, each tightening pass shortens the
  total point count, each BFS step dequeues a cell and every in-bounds
  cell is enqueued at most once), so the embedded function agrees with
  the source loop.
-/

namespace ConnectDots

/-- A grid coordinate, `(row, column)`. -/
abbrev Pt := Int × Int

/-- Wrap to an unsigned 32-bit value (`x >>> 0` / `ToInt32` bit pattern). -/
def u32 (n : Nat) : Nat := n % 4294967296

/-! ## Random.js -/

namespace Random

/-- `Random.next`, the Mulberry32 step (`src/Random.js`), acting on the stored
seed.  Returns the 32-bit output numerator `r` (the JS call returns
`r / 2^32`) together with the advanced seed. -/
def next (seed : Int) : Nat × Int :=
  let s : Int := seed + 1831565813
  let t0 : Nat := (s.emod 4294967296).toNat
  let t1 : Nat := u32 ((Nat.xor t0 (t0 >>> 15)) * (t0 ||| 1))
  let t2 : Nat := Nat.xor t1 (u32 (t1 + u32 ((Nat.xor t1 (t1 >>> 7)) * (t1 ||| 61))))
  ((Nat.xor t2 (t2 >>> 14)), s)

/-- `Random.range(min, max)`: integer in `[min, max)`;
`Math.floor(next() * (max - min) + min)` is exactly
`min + r * (max - min) / 2^32` for the natural-number ranges used. -/
def range (seed : Int) (lo hi : Nat) : Nat × Int :=
  let rs := next seed
  (lo + rs.1 * (hi - lo) / 4294967296, rs.2)

/-- Swap two positions of a list (the JS destructuring swap
`[a[i], a[j]] = [a[j], a[i]]`; both indices are always in range at the
call sites). -/
def listSwap {α : Type} (l : List α) (i j : Nat) : List α :=
  match l.get? i, l.get? j with
  | some a, some b => (l.set i b).set j a
  | _, _ => l

/-- The Fisher–Yates loop of `Random.shuffle`, iterating `i` from
`array.length - 1` down to `1`; `j = Math.floor(next() * (i + 1))`. -/
def shuffleGo {α : Type} (seed : Int) (l : List α) : Nat → List α × Int
  | 0 => (l, seed)
  | i + 1 =>
    let rs := next seed
    let j := rs.1 * (i + 2) / 4294967296
    shuffleGo rs.2 (listSwap l (i + 1) j) i

/-- `Random.shuffle(array)`: in-place Fisher–Yates shuffle. -/
def shuffle {α : Type} (seed : Int) (l : List α) : List α × Int :=
  match l.length with
  | 0 => (l, seed)
  | n + 1 => shuffleGo seed l n

/-- `Random.hashString`: rolling hash `hash = (hash << 5) - hash + code`
wrapped to 32 bits each step (`hash |= 0`), i.e. `hash * 31 + code`
modulo `2^32`; the final `hash >>> 0` is the unsigned value. -/
def hashString (codes : List Nat) : Nat :=
  codes.foldl (fun h c => u32 (h * 31 + c)) 0

/-- The JS argument of the `Random` constructor: a string (list of UTF-16
code units), a number, or absent. -/
inductive Seed
  | str (codes : List Nat)
  | num (n : Int)
  | undef
deriving DecidableEq, Repr

/-- The `Random` constructor.  A string seed is hashed; a numeric seed is
used directly unless it is falsy (`0`), in which case — as for an absent
seed — the non-deterministic fallback `Math.floor(Math.random() * 2147483647)`
is used; `entropy` stands for that ambient random draw. -/
def make (seed : Seed) (entropy : Nat) : Int :=
  match seed with
  | .str codes => (hashString codes : Int)
  | .num n => if n = 0 then (entropy : Int) else n
  | .undef => (entropy : Int)

end Random

/-! ## Grid.js -/

/-- A path record as produced by the generator
(`{ id, points, pointTypes, color, isFiller }`).  `color` is the hue of
the `hsl(hue, 85%, 60%)` string doubled (the golden-angle step `137.5`
is `275/2`, so twice the hue is integral); `isFiller` is `false` when the
JS object lacks the property (`undefined` is falsy everywhere it is
read). -/
structure Path where
  id : Int
  points : List Pt
  pointTypes : List Nat
  color : Int
  isFiller : Bool := false
deriving DecidableEq, Repr

/-- The mutable board state of `Grid.js`: cell matrix (as a total function
on coordinates; the constructor fills every cell with `0`) and path
list. -/
structure Grid where
  size : Nat
  cells : Pt → Int
  paths : List Path

namespace Grid

/-- The `Grid` constructor: every cell `0`, no paths. -/
def new (size : Nat) : Grid :=
  { size := size, cells := fun _ => 0, paths := [] }

/-- `Grid.isValid(r, c)`: bounds check. -/
def isValid (g : Grid) (r c : Int) : Bool :=
  0 ≤ r && r < (g.size : Int) && 0 ≤ c && c < (g.size : Int)

/-- `Grid.isEmpty(r, c)`: valid and unclaimed. -/
def isEmpty (g : Grid) (r c : Int) : Bool :=
  g.isValid r c && g.cells (r, c) == 0

/-- `Grid.setCell(r, c, value)`: no-op when out of bounds. -/
def setCell (g : Grid) (r c : Int) (value : Int) : Grid :=
  if g.isValid r c then
    { g with cells := fun p => if p = (r, c) then value else g.cells p }
  else g

/-- `Grid.reset()`: clear all cells, discard the path list. -/
def reset (g : Grid) : Grid :=
  { g with cells := fun _ => 0, paths := [] }

end Grid

/-! ## Generator.js — state and simple helpers -/

/-- The `Generator` bound to a grid, with its hard-mode flag and seeded
random source (the stored Mulberry32 seed). -/
structure Generator where
  grid : Grid
  hardMode : Bool
  random : Int

namespace Generator

/-- `Generator.areNeighbors`: Manhattan distance exactly 1. -/
def areNeighbors (r1 c1 r2 c2 : Int) : Bool :=
  (r1 - r2).natAbs + (c1 - c2).natAbs == 1

/-- `Generator.getDistinctColor`: hue `((index-1) * 137.5) % 360`, stored
doubled to stay integral: `((index-1) * 275) % 720`. -/
def getDistinctColor (index : Int) : Int :=
  ((index - 1) * 275).emod 720

/-- `Generator.getNeighbors(r, c)`: in-bounds 4-neighbours, in the fixed
source order right, left, down, up. -/
def getNeighbors (g : Generator) (r c : Int) : List Pt :=
  ([(0, 1), (0, -1), (1, 0), (-1, 0)] : List Pt).filterMap fun d =>
    let nr := r + d.1
    let nc := c + d.2
    if g.grid.isValid nr nc then some (nr, nc) else none

/-- `Generator.getAllEmpty()`: all empty cells in row-major order. -/
def getAllEmpty (g : Generator) : List Pt :=
  (List.range g.grid.size).flatMap fun r =>
    (List.range g.grid.size).filterMap fun c =>
      if g.grid.isEmpty (r : Int) (c : Int) then some ((r : Int), (c : Int)) else none

/-- `Generator.measureStraightSegment(path, index, tipDir)`: length of the
straight run at the given endpoint in direction `tipDir`.  Both sweeps of
the source compare an element with its successor toward the path middle
(`curr - next` from the start, `curr - prev` from the end), so the end
sweep is the start sweep on the reversed point list. -/
def measureStraightSegment (path : Path) (index : Nat) (tipDir : Pt) : Nat :=
  if index == 0 then go path.points else go path.points.reverse
where
  /-- Counts initial consecutive steps of the list matching `tipDir`. -/
  go : List Pt → Nat
  | a :: b :: rest =>
    if a.1 - b.1 == tipDir.1 && a.2 - b.2 == tipDir.2 then
      1 + go (b :: rest)
    else 0
  | _ => 0

/-! ### findShortestPath (breadth-first search) -/

/-- The `parents` map of the BFS (`Map` keyed by `"r,c"`, which is in
bijection with the coordinate pair): an insertion-ordered association
list; the stored value is the predecessor, `none` for the start. -/
abbrev Parents := List (Pt × Option Pt)

/-- The path-reconstruction loop of `findShortestPath`:
`while (curr) { path.push(curr); curr = parents.get(key) }` followed by
`reverse`, built here directly in reversed (start-first) order.  The fuel
(`parents.length + 1` at the call site) is never exhausted: each parent
chain step moves to a strictly earlier insertion. -/
def reconstructGo (parents : Parents) : Nat → Pt → List Pt → List Pt
  | 0, cur, acc => cur :: acc
  | fuel + 1, cur, acc =>
    match parents.lookup cur with
    | some (some prev) => reconstructGo parents fuel prev (cur :: acc)
    | _ => cur :: acc

/-- One dequeued cell's neighbour scan in `findShortestPath`: for each of
the four directions, an unseen, in-bounds cell that is empty or equal to
the destination is recorded with its parent and appended to the queue. -/
def bfsEnqueue (g : Generator) (endP : Pt) (p : Pt) (q : List Pt)
    (parents : Parents) : List Pt × Parents :=
  ([(0, 1), (0, -1), (1, 0), (-1, 0)] : List Pt).foldl
    (fun (st : List Pt × Parents) d =>
      let np : Pt := (p.1 + d.1, p.2 + d.2)
      if (st.2.lookup np).isNone then
        if g.grid.isValid np.1 np.2 then
          if g.grid.cells np == 0 || np == endP then
            (st.1 ++ [np], (np, some p) :: st.2)
          else st
        else st
      else st)
    (q, parents)

/-- The BFS queue loop of `findShortestPath`.  The fuel
(`size² + 2` at the call site) is never exhausted: every iteration
dequeues one cell and each in-bounds cell is enqueued at most once. -/
def bfsLoop (g : Generator) (endP : Pt) :
    Nat → List Pt → Parents → Option (List Pt)
  | 0, _, _ => none
  | _ + 1, [], _ => none
  | fuel + 1, p :: q, parents =>
    if p == endP then
      some (reconstructGo parents (parents.length + 1) endP [])
    else
      let st := bfsEnqueue g endP p q parents
      bfsLoop g endP fuel st.1 st.2

/-- `Generator.findShortestPath(start, end)`: BFS over cells that are
empty or equal to the destination; `null` when the queue empties without
reaching the destination. -/
def findShortestPath (g : Generator) (start endP : Pt) : Option (List Pt) :=
  bfsLoop g endP (g.grid.size * g.grid.size + 2) [start] [(start, none)]

/-! ### addPair and fillGreedy -/

/-- The candidate list built inside `Generator.addPair` for a drawn start
cell `start`: the remaining empties, restricted in hard mode to cells
sharing neither row nor column (with the opposite-quadrant preference
while fewer than 3 paths exist), then — for the very first pair —
restricted to Manhattan distance at least `⌊2·size/3⌋` (no fallback). -/
def addPairCandidates (gen : Generator) (start : Pt) (empties2 : List Pt) :
    List Pt :=
  let candidateList :=
    if gen.hardMode then
      let base := empties2.filter fun p => p.1 != start.1 && p.2 != start.2
      if gen.grid.paths.length < 3 then
        let half : Int := (gen.grid.size / 2 : Nat)
        let targetR : Int := 1 - (if start.1 < half then 0 else 1)
        let targetC : Int := 1 - (if start.2 < half then 0 else 1)
        let spread := base.filter fun p =>
          (if p.1 < half then (0 : Int) else 1) == targetR &&
          (if p.2 < half then (0 : Int) else 1) == targetC
        if spread.length > 0 then spread else base
      else base
    else empties2
  if gen.grid.paths.length == 0 then
    let minDistance : Nat := gen.grid.size * 2 / 3
    candidateList.filter fun p =>
      minDistance ≤ (p.1 - start.1).natAbs + (p.2 - start.2).natAbs
  else candidateList

/-- `Generator.addPair()`: draw a random empty start, build the candidate
list, draw a random end, route with BFS, and commit the route as a new
path when it has at least 3 points. -/
def addPair (gen : Generator) : Generator × Bool :=
  let empties := getAllEmpty gen
  if empties.length < 2 then (gen, false) else
  let rrA := Random.range gen.random 0 empties.length
  let idxA := rrA.1
  let start := empties.getD idxA (0, 0)
  let empties2 := empties.eraseIdx idxA
  let gen1 := { gen with random := rrA.2 }
  let candidateList := addPairCandidates gen start empties2
  if candidateList.length == 0 then (gen1, false) else
  let rrB := Random.range rrA.2 0 candidateList.length
  let endP := candidateList.getD rrB.1 (0, 0)
  let gen2 := { gen1 with random := rrB.2 }
  match findShortestPath gen2 start endP with
  | some pathPoints =>
    if 3 ≤ pathPoints.length then
      let pathId : Int := gen.grid.paths.length + 1
      let grid' := pathPoints.foldl (fun gr p => gr.setCell p.1 p.2 pathId) gen2.grid
      let newPath : Path :=
        { id := pathId, points := pathPoints,
          pointTypes := List.replicate pathPoints.length 0,
          color := getDistinctColor pathId }
      ({ gen2 with grid := { grid' with paths := grid'.paths ++ [newPath] } }, true)
    else (gen2, false)
  | none => (gen2, false)

/-- The `while (failures < 50 && attempts < 1000)` loop of
`Generator.fillGreedy`; the fuel counts the remaining attempts out of
1000. -/
def fillGreedyGo : Nat → Nat → Generator → Generator
  | 0, _, gen => gen
  | fuel + 1, failures, gen =>
    if failures < 50 then
      let ap := addPair gen
      if ap.2 then fillGreedyGo fuel 0 ap.1
      else fillGreedyGo fuel (failures + 1) ap.1
    else gen

/-- `Generator.fillGreedy()`: repeatedly `addPair` until 50 consecutive
failures or 1000 attempts; succeeds when more than one path exists. -/
def fillGreedy (gen : Generator) : Generator × Bool :=
  let gen' := fillGreedyGo 1000 0 gen
  (gen', decide (1 < gen'.grid.paths.length))

/-! ### Random expansion -/

/-- The U-turn rejection of `expandEndpointRandom` (Constraint 2): when
the straight run at the tip is shorter than 2 and the path has at least 3
points, a candidate direction exactly reversing the direction two
segments back is skipped. -/
def uShapeBlocked (path : Path) (r c nr nc : Int) (prevDir : Option Pt)
    (prevSegmentLength : Nat) (isStart : Bool) : Bool :=
  prevDir.isSome && decide (prevSegmentLength < 2) &&
    decide (3 ≤ path.points.length) &&
    (let newDir : Pt := (nr - r, nc - c)
     let dirBeforePrev : Pt :=
       if isStart then
         let p1 := path.points.getD 1 (0, 0)
         let p2 := path.points.getD 2 (0, 0)
         (p1.1 - p2.1, p1.2 - p2.2)
       else
         let pN1 := path.points.getD (path.points.length - 2) (0, 0)
         let pN2 := path.points.getD (path.points.length - 3) (0, 0)
         (pN1.1 - pN2.1, pN1.2 - pN2.2)
     newDir.1 == -dirBeforePrev.1 && newDir.2 == -dirBeforePrev.2)

/-- The random-selection loop of `expandEndpointRandom`: the first
shuffled empty neighbour passing all four constraints is taken (cell
marked, point and point type prepended or appended); the sequential
`continue`s of the source are the disjunction of the skip conditions. -/
def expandTry (gen : Generator) (pi : Nat) (path : Path) (r c otherR otherC : Int)
    (prevDir : Option Pt) (prevSegmentLength : Nat) (isStart isExtension : Bool) :
    List Pt → Generator × Bool
  | [] => (gen, false)
  | (nr, nc) :: rest =>
    let skip : Bool :=
      (!isExtension && areNeighbors nr nc otherR otherC) ||
      (gen.hardMode && (nr == otherR || nc == otherC)) ||
      uShapeBlocked path r c nr nc prevDir prevSegmentLength isStart ||
      decide (1 < ((getNeighbors gen nr nc).filter fun p =>
        gen.grid.cells p == path.id).length)
    if skip then
      expandTry gen pi path r c otherR otherC prevDir prevSegmentLength
        isStart isExtension rest
    else
      let type : Nat := if isExtension then 1 else 0
      let grid1 := gen.grid.setCell nr nc path.id
      let path' :=
        if isStart then
          { path with points := (nr, nc) :: path.points,
                      pointTypes := type :: path.pointTypes }
        else
          { path with points := path.points ++ [(nr, nc)],
                      pointTypes := path.pointTypes ++ [type] }
      ({ gen with grid := { grid1 with paths := grid1.paths.set pi path' } }, true)

/-- `Generator.expandEndpointRandom(path, index, isExtension)`: try to
grow the endpoint at `index` of the path stored at list position `pi`
into one adjacent empty cell.  The source receives the path object by
reference; the embedding addresses it by its position in the path list,
which is stable during the caller's iteration. -/
def expandEndpointRandom (gen : Generator) (pi : Nat) (index : Nat)
    (isExtension : Bool) : Generator × Bool :=
  match gen.grid.paths.get? pi with
  | none => (gen, false)
  | some path =>
    let rc := path.points.getD index (0, 0)
    let isStart := index == 0
    let otherIdx := if isStart then path.points.length - 1 else 0
    let other := path.points.getD otherIdx (0, 0)
    let prevDir : Option Pt :=
      if 1 < path.points.length then
        let pp := if isStart then path.points.getD 1 (0, 0)
                  else path.points.getD (path.points.length - 2) (0, 0)
        some (rc.1 - pp.1, rc.2 - pp.2)
      else none
    let prevSegmentLength :=
      match prevDir with
      | some d => measureStraightSegment path index d
      | none => 0
    let neighbors := (getNeighbors gen rc.1 rc.2).filter fun p =>
      gen.grid.isEmpty p.1 p.2
    if neighbors.length == 0 then (gen, false) else
    let sh := Random.shuffle gen.random neighbors
    let gen1 := { gen with random := sh.2 }
    expandTry gen1 pi path rc.1 rc.2 other.1 other.2 prevDir prevSegmentLength
      isStart isExtension sh.1

/-- One iteration of the `expandPathsRandom` loop: shuffle the path
order, then for each path try to expand its start and (with the length
re-read after the first try) its end. -/
def expandPaths1 (gen : Generator) (isExtension : Bool) : Generator × Bool :=
  let sh := Random.shuffle gen.random gen.grid.paths
  let gen1 : Generator :=
    { gen with grid := { gen.grid with paths := sh.1 }, random := sh.2 }
  (List.range sh.1.length).foldl
    (fun (st : Generator × Bool) i =>
      let e1 := expandEndpointRandom st.1 i 0 isExtension
      let lastIdx := match e1.1.grid.paths.get? i with
        | some p => p.points.length - 1
        | none => 0
      let e2 := expandEndpointRandom e1.1 i lastIdx isExtension
      (e2.1, st.2 || e1.2 || e2.2))
    (gen1, false)

/-- The `while (changed && iterations < 1000)` loop of
`Generator.expandPathsRandom`. -/
def expandPathsGo (isExtension : Bool) : Nat → Generator → Generator
  | 0, gen => gen
  | fuel + 1, gen =>
    let step := expandPaths1 gen isExtension
    if step.2 then expandPathsGo isExtension fuel step.1 else step.1

/-- `Generator.expandPathsRandom(isExtension)`. -/
def expandPathsRandom (gen : Generator) (isExtension : Bool) : Generator :=
  expandPathsGo isExtension 1000 gen

/-! ### Tightening -/

/-- One path's step of the `tightenPaths` sweep: clear the path's cells,
recompute the shortest route between its endpoints, keep it when strictly
shorter (resetting all point types to core), and re-mark the grid either
way. -/
def tightenOne (gen : Generator) (i : Nat) : Generator × Bool :=
  match gen.grid.paths.get? i with
  | none => (gen, false)
  | some path =>
    let gr1 := path.points.foldl (fun g p => g.setCell p.1 p.2 0) gen.grid
    let gen1 := { gen with grid := gr1 }
    let start := path.points.getD 0 (0, 0)
    let endP := path.points.getD (path.points.length - 1) (0, 0)
    let pr :=
      match findShortestPath gen1 start endP with
      | some np =>
        if np.length < path.points.length then
          ({ path with points := np, pointTypes := List.replicate np.length 0 },
           true)
        else (path, false)
      | none => (path, false)
    let gr2 := pr.1.points.foldl (fun g p => g.setCell p.1 p.2 path.id) gr1
    ({ gen1 with grid := { gr2 with paths := gr2.paths.set i pr.1 } }, pr.2)

/-- One full sweep over all paths of the `tightenPaths` loop, returning
whether any path improved. -/
def tightenPass (gen : Generator) : Generator × Bool :=
  (List.range gen.grid.paths.length).foldl
    (fun (st : Generator × Bool) i =>
      let t := tightenOne st.1 i
      (t.1, st.2 || t.2))
    (gen, false)

/-- Total number of path points, the strictly decreasing measure of the
`while (improved)` loop of `tightenPaths`. -/
def sumPoints (gen : Generator) : Nat :=
  (gen.grid.paths.map (·.points.length)).sum

/-- The `while (improved)` loop of `tightenPaths`; each improving sweep
shortens at least one path, so the fuel chosen at entry is never
consumed. -/
def tightenGo : Nat → Generator → Generator
  | 0, gen => gen
  | fuel + 1, gen =>
    let step := tightenPass gen
    if step.2 then tightenGo fuel step.1 else step.1

/-- `Generator.tightenPaths()`. -/
def tightenPaths (gen : Generator) : Generator :=
  tightenGo (sumPoints gen + 1) gen

/-! ### Small-void filling -/

/-- The depth-bounded DFS of `findLongestPathFrom`: the best simple walk
found so far is updated at every node; growth stops at `maxDepth` and a
new cell may touch at most one already-visited cell.  The fuel
(`maxDepth + 1` at the call site) is never exhausted since the walk grows
by one cell per recursion level and stops at `maxDepth`. -/
def dfsLongest (gen : Generator) (maxDepth : Nat) :
    Nat → Pt → List Pt → List Pt → List Pt → List Pt
  | 0, _, _, path, best =>
    if best.length < path.length then path else best
  | fuel + 1, cur, visited, path, best =>
    let best1 := if best.length < path.length then path else best
    if maxDepth ≤ path.length then best1
    else
      (getNeighbors gen cur.1 cur.2).foldl
        (fun b n =>
          if gen.grid.isEmpty n.1 n.2 && !(visited.contains n) then
            if decide (((getNeighbors gen n.1 n.2).filter fun t =>
                visited.contains t).length ≤ 1) then
              dfsLongest gen maxDepth fuel n (n :: visited) (path ++ [n]) b
            else b
          else b)
        best1

/-- `Generator.findLongestPathFrom(r, c, maxDepth)`. -/
def findLongestPathFrom (gen : Generator) (r c : Int) (maxDepth : Nat) :
    List Pt :=
  dfsLongest gen maxDepth (maxDepth + 1) (r, c) [(r, c)] [(r, c)] []

/-- `Generator.addTargetedPath(points)`: commit a filler path when every
point is still empty. -/
def addTargetedPath (gen : Generator) (points : List Pt) : Generator × Bool :=
  if points.all (fun p => gen.grid.isEmpty p.1 p.2) then
    let pathId : Int := gen.grid.paths.length + 1
    let grid' := points.foldl (fun g p => g.setCell p.1 p.2 pathId) gen.grid
    let newPath : Path :=
      { id := pathId, points := points,
        pointTypes := List.replicate points.length 0,
        color := getDistinctColor pathId, isFiller := true }
    ({ gen with grid := { grid' with paths := grid'.paths ++ [newPath] } }, true)
  else (gen, false)

/-- The 2×2 "three empty cells form an L" fallback of `fillSmallVoids`
at one block position. -/
def lCheck (g : Generator) (r c : Int) : Generator :=
  if g.grid.isEmpty r c && g.grid.isEmpty r (c + 1) && g.grid.isEmpty (r + 1) c then
    (g.addTargetedPath [(r, c + 1), (r, c), (r + 1, c)]).1
  else if g.grid.isEmpty r c && g.grid.isEmpty r (c + 1) &&
      g.grid.isEmpty (r + 1) (c + 1) then
    (g.addTargetedPath [(r, c), (r, c + 1), (r + 1, c + 1)]).1
  else if g.grid.isEmpty r c && g.grid.isEmpty (r + 1) c &&
      g.grid.isEmpty (r + 1) (c + 1) then
    (g.addTargetedPath [(r, c), (r + 1, c), (r + 1, c + 1)]).1
  else if g.grid.isEmpty r (c + 1) && g.grid.isEmpty (r + 1) c &&
      g.grid.isEmpty (r + 1) (c + 1) then
    (g.addTargetedPath [(r, c + 1), (r + 1, c + 1), (r + 1, c)]).1
  else g

/-- `Generator.fillSmallVoids()`: greedy longest-path filling over every
empty cell (depth limit 6), then the 2×2 L-shape fallback scan. -/
def fillSmallVoids (gen : Generator) : Generator :=
  let size := gen.grid.size
  let gen1 := (List.range size).foldl
    (fun g r =>
      (List.range size).foldl
        (fun g c =>
          if g.grid.isEmpty (r : Int) (c : Int) then
            let path := g.findLongestPathFrom (r : Int) (c : Int) 6
            if 3 ≤ path.length then (g.addTargetedPath path).1 else g
          else g)
        g)
    gen
  (List.range (size - 1)).foldl
    (fun g r => (List.range (size - 1)).foldl
      (fun g c => lCheck g (r : Int) (c : Int)) g)
    gen1

/-! ### Collinear merging -/

/-- The direction helper `getDir(a, b)` of `mergeCollinearPaths`. -/
def getDir (a b : Pt) : Pt := (b.1 - a.1, b.2 - a.2)

/-- Apply a found merge: the surviving path at position `i` takes the
concatenated points and point types and becomes a filler, the absorbed
path's cells are re-marked with the survivor's id, and the absorbed path
is removed from position `j`. -/
def applyMerge (gen : Generator) (i j : Nat) (p1 p2 : Path)
    (pts : List Pt) (tys : List Nat) : Generator :=
  let p1' := { p1 with points := pts, pointTypes := tys, isFiller := true }
  let grid1 := p2.points.foldl (fun g p => g.setCell p.1 p.2 p1.id) gen.grid
  { gen with grid := { grid1 with paths := (grid1.paths.set i p1').eraseIdx j } }

/-- The two merge cases of `mergeCollinearPaths` for an ordered pair of
path positions: tail-to-head, or tail-to-tail with the second path
reversed; the collinearity test compares the approaching segment, the
connecting step and the departing segment.  Note the source attaches the
second case as `else if`, so an adjacent but non-collinear tail-to-head
pair blocks the tail-to-tail check. -/
def mergeApply (gen : Generator) (i j : Nat) : Option Generator :=
  match gen.grid.paths.get? i, gen.grid.paths.get? j with
  | some p1, some p2 =>
    let p1End := p1.points.getD (p1.points.length - 1) (0, 0)
    let p2Start := p2.points.getD 0 (0, 0)
    let p2End := p2.points.getD (p2.points.length - 1) (0, 0)
    if areNeighbors p1End.1 p1End.2 p2Start.1 p2Start.2 then
      let d1 := getDir (p1.points.getD (p1.points.length - 2) (0, 0)) p1End
      let dConnect := getDir p1End p2Start
      let d2 := getDir p2Start (p2.points.getD 1 (0, 0))
      if d1 == dConnect && dConnect == d2 then
        some (applyMerge gen i j p1 p2 (p1.points ++ p2.points)
          (p1.pointTypes ++ p2.pointTypes))
      else none
    else if areNeighbors p1End.1 p1End.2 p2End.1 p2End.2 then
      let d1 := getDir (p1.points.getD (p1.points.length - 2) (0, 0)) p1End
      let dConnect := getDir p1End p2End
      let d2 := getDir (p2.points.getD (p2.points.length - 1) (0, 0))
        (p2.points.getD (p2.points.length - 2) (0, 0))
      if d1 == dConnect && dConnect == d2 then
        some (applyMerge gen i j p1 p2 (p1.points ++ p2.points.reverse)
          (p1.pointTypes ++ p2.pointTypes.reverse))
      else none
    else none
  | _, _ => none

/-- The nested pair scan of `mergeCollinearPaths`: first applicable merge
in lexicographic `(i, j)` order wins (`break outerLoop`). -/
def mergeScanFrom (gen : Generator) : List (Nat × Nat) → Option Generator
  | [] => none
  | (i, j) :: rest =>
    if i == j then mergeScanFrom gen rest
    else
      match mergeApply gen i j with
      | some g => some g
      | none => mergeScanFrom gen rest

/-- One restart of the `while (changed)` loop of `mergeCollinearPaths`. -/
def mergeScan (gen : Generator) : Option Generator :=
  let n := gen.grid.paths.length
  mergeScanFrom gen
    ((List.range n).flatMap fun i => (List.range n).map fun j => (i, j))

/-- The `while (changed)` loop of `mergeCollinearPaths`; each merge
removes one path so the fuel chosen at entry is never consumed. -/
def mergeGo : Nat → Generator → Generator
  | 0, gen => gen
  | fuel + 1, gen =>
    match mergeScan gen with
    | some gen' => mergeGo fuel gen'
    | none => gen

/-- `Generator.mergeCollinearPaths()`. -/
def mergeCollinearPaths (gen : Generator) : Generator :=
  mergeGo gen.grid.paths.length gen

/-! ### Id reshuffle, validation, generate -/

/-- `Generator.shufflePathIds()`: shuffle the path list, zero the whole
matrix, then reassign ids `1..K` in the new order, recolour, and re-mark
every path's cells. -/
def shufflePathIds (gen : Generator) : Generator :=
  if gen.grid.paths.length == 0 then gen
  else
    let sh := Random.shuffle gen.random gen.grid.paths
    let grid1 := (List.range gen.grid.size).foldl
      (fun gr r => (List.range gen.grid.size).foldl
        (fun gr c => gr.setCell (r : Int) (c : Int) 0) gr)
      { gen.grid with paths := sh.1 }
    let grid2 := (List.range sh.1.length).foldl
      (fun gr idx =>
        match gr.paths.get? idx with
        | some path =>
          let newId : Int := (idx : Int) + 1
          let path' := { path with id := newId, color := getDistinctColor newId }
          let gr' := { gr with paths := gr.paths.set idx path' }
          path'.points.foldl (fun g p => g.setCell p.1 p.2 newId) gr'
        | none => gr)
      grid1
    { gen with grid := grid2, random := sh.2 }

/-- `Generator.validateGrid()`: every path has at least 3 points, hard
mode forbids non-filler paths whose endpoints share a row or column, and
no path's endpoints are orthogonally adjacent. -/
def validateGrid (gen : Generator) : Bool :=
  gen.grid.paths.all fun path =>
    decide (3 ≤ path.points.length) &&
    (let start := path.points.getD 0 (0, 0)
     let endP := path.points.getD (path.points.length - 1) (0, 0)
     (!(gen.hardMode && !path.isFiller) ||
       (start.1 != endP.1 && start.2 != endP.2)) &&
     !areNeighbors start.1 start.2 endP.1 endP.2)

/-- The grid reset starting every generation attempt. -/
def resetGen (gen : Generator) : Generator :=
  { gen with grid := gen.grid.reset }

/-- One attempt of `Generator.generate()`: reset, greedy fill, then (on
fill success) the fixed phase schedule and the final validation. -/
def generateAttempt (gen0 : Generator) : Generator × Bool :=
  let gen := resetGen gen0
  let fg := fillGreedy gen
  if fg.2 then
    let g := expandPathsRandom fg.1 false
    let g := tightenPaths g
    let g := expandPathsRandom g true
    let g := fillSmallVoids g
    let g := expandPathsRandom g true
    let g := tightenPaths g
    let g := expandPathsRandom g true
    let g := fillSmallVoids g
    let g := mergeCollinearPaths g
    let g := shufflePathIds g
    if validateGrid g then (g, true) else (g, false)
  else (fg.1, false)

/-- The 500-attempt outer retry loop of `Generator.generate()`. -/
def generateLoop : Nat → Generator → Generator × Bool
  | 0, gen => (gen, false)
  | fuel + 1, gen =>
    let a := generateAttempt gen
    if a.2 then a else generateLoop fuel a.1

/-- `Generator.generate()`. -/
def generate (gen : Generator) : Generator × Bool :=
  generateLoop 500 gen

/-- The `Generator` constructor (`new Generator(grid, { hardMode, random })`). -/
def new (grid : Grid) (hardMode : Bool) (random : Int) : Generator :=
  { grid := grid, hardMode := hardMode, random := random }

/-! ### The specification's version of the first-pair distance rule -/

/-- The candidate list as §4.3 of the specification describes it, for
comparison with the source's `addPairCandidates`: "First pair only (path
list empty): prefer B at Manhattan distance ≥ ⌊2·size/3⌋ from A; fall
back to the unfiltered set if none qualify."  The only difference from
the source is the fall-back when the distance filter empties the list. -/
def addPairSpecCandidates (gen : Generator) (start : Pt) (empties2 : List Pt) :
    List Pt :=
  let candidateList :=
    if gen.hardMode then
      let base := empties2.filter fun p => p.1 != start.1 && p.2 != start.2
      if gen.grid.paths.length < 3 then
        let half : Int := (gen.grid.size / 2 : Nat)
        let targetR : Int := 1 - (if start.1 < half then 0 else 1)
        let targetC : Int := 1 - (if start.2 < half then 0 else 1)
        let spread := base.filter fun p =>
          (if p.1 < half then (0 : Int) else 1) == targetR &&
          (if p.2 < half then (0 : Int) else 1) == targetC
        if spread.length > 0 then spread else base
      else base
    else empties2
  if gen.grid.paths.length == 0 then
    let minDistance : Nat := gen.grid.size * 2 / 3
    let far := candidateList.filter fun p =>
      minDistance ≤ (p.1 - start.1).natAbs + (p.2 - start.2).natAbs
    if far.length > 0 then far else candidateList
  else candidateList

/-- `addPair` as the specification describes it: the source's `addPair`
with `addPairSpecCandidates` in place of `addPairCandidates`. -/
def addPairSpec (gen : Generator) : Generator × Bool :=
  let empties := getAllEmpty gen
  if empties.length < 2 then (gen, false) else
  let rrA := Random.range gen.random 0 empties.length
  let idxA := rrA.1
  let start := empties.getD idxA (0, 0)
  let empties2 := empties.eraseIdx idxA
  let gen1 := { gen with random := rrA.2 }
  let candidateList := addPairSpecCandidates gen start empties2
  if candidateList.length == 0 then (gen1, false) else
  let rrB := Random.range rrA.2 0 candidateList.length
  let endP := candidateList.getD rrB.1 (0, 0)
  let gen2 := { gen1 with random := rrB.2 }
  match findShortestPath gen2 start endP with
  | some pathPoints =>
    if 3 ≤ pathPoints.length then
      let pathId : Int := gen.grid.paths.length + 1
      let grid' := pathPoints.foldl (fun gr p => gr.setCell p.1 p.2 pathId) gen2.grid
      let newPath : Path :=
        { id := pathId, points := pathPoints,
          pointTypes := List.replicate pathPoints.length 0,
          color := getDistinctColor pathId }
      ({ gen2 with grid := { grid' with paths := grid'.paths ++ [newPath] } }, true)
    else (gen2, false)
  | none => (gen2, false)

end Generator

/-! ## server.js -/

/-- The data of a `POST /api/validatePuzzle` request that is relevant to
the reference derivation: the submitted puzzle's size, the seed resolved
by the traceability middleware, and the hard-mode flag under which the
submitted puzzle was generated (the handler never reads a mode from the
request). -/
structure ValidateRequest where
  size : Nat
  seed : Random.Seed
  mode : Bool
deriving DecidableEq, Repr

/-- The reference generator built by the `/api/validatePuzzle` handler
(`server.js`): `new Grid(size)`, `new Random(seed)` and
`new Generator(gridRef, { hardMode: false, random: randomRef })` — the
hard-mode flag is the literal `false`. -/
def validatePuzzleReference (req : ValidateRequest) (entropy : Nat) : Generator :=
  Generator.new (Grid.new req.size) false (Random.make req.seed entropy)

/-! ## main.js — level codes -/

/-- Base-`b` digits of `n`, most significant first; the fuel is any bound
on the digit count (structural recursion keeps the function
kernel-reducible). -/
def digitsGo (b : Nat) : Nat → Nat → List Nat
  | 0, _ => []
  | fuel + 1, n => if n = 0 then [] else digitsGo b fuel (n / b) ++ [n % b]

/-- `n.toString(36)` as the list of base-36 digit values, most
significant first. -/
def toBase36 (n : Nat) : List Nat :=
  if n = 0 then [0] else digitsGo 36 (n + 1) n

/-- `parseInt(chunk, 2)` for a big-endian bit list. -/
def natOfBits (bits : List Bool) : Nat :=
  bits.foldl (fun a b => 2 * a + (if b then 1 else 0)) 0

/-- `d.toString(2).padStart(5, "0")` as a big-endian bit list (exactly 5
bits for the `d < 32` values the encoder produces). -/
def bitsOfNat5 (d : Nat) : List Bool :=
  let bs := if d = 0 then [false] else (digitsGo 2 (d + 1) d).map fun b => b = 1
  List.replicate (5 - bs.length) false ++ bs

/-- The stone cells of a grid: in-bounds cells holding the stone sentinel
`-1`, in row-major order. -/
def stoneCells (g : Grid) : List Pt :=
  (List.range g.size).flatMap fun r =>
    (List.range g.size).filterMap fun c =>
      if g.cells ((r : Int), (c : Int)) = -1 then some ((r : Int), (c : Int))
      else none

/-- `exportLevelCode()` (`src/main.js`): the part before the `-`
separator (size digit followed by each path's endpoint coordinates) and
the part after it (the stone bitmap packed 5 bits per base-36 digit),
both as base-36 digit-value lists. -/
def exportLevelCode (g : Grid) : List Nat × List Nat :=
  let code := toBase36 g.size ++ g.paths.flatMap (fun p =>
    let s := p.points.getD 0 (0, 0)
    let e := p.points.getD (p.points.length - 1) (0, 0)
    toBase36 s.1.toNat ++ toBase36 s.2.toNat ++ toBase36 e.1.toNat ++ toBase36 e.2.toNat)
  let bits := (List.range g.size).flatMap fun r =>
    (List.range g.size).map fun c => g.cells ((r : Int), (c : Int)) == -1
  let bits := bits ++ List.replicate ((5 - bits.length % 5) % 5) false
  let bitmask := (List.range (bits.length / 5)).flatMap fun i =>
    toBase36 (natOfBits ((bits.drop (5 * i)).take 5))
  (code, bitmask)

/-- The fixed 20-colour palette of `loadLevelCode`, as RGB values. -/
def importPalette : List Int :=
  [0xff0000, 0x00ff00, 0x0000ff, 0xffff00, 0x00ffff, 0xff00ff, 0xffa500,
   0x800080, 0x008000, 0x000080, 0xffc0cb, 0xa52a2a, 0x808080, 0xffffff,
   0xffd700, 0x4b0082, 0x40e0d0, 0xfa8072, 0xffe4e1, 0xd2b48c]

/-- The coordinate chunks of the path section of a level code: the
consecutive groups of 4 digits (`for (i = 0; i + 3 < length; i += 4)`). -/
def levelCodeChunks : List Nat → List (Nat × Nat × Nat × Nat)
  | r1 :: c1 :: r2 :: c2 :: rest => (r1, c1, r2, c2) :: levelCodeChunks rest
  | _ => []

/-- `loadLevelCode()` (`src/main.js`): reconstruct a grid from a level
code.  `none` models the thrown-and-alerted "Invalid Level Code" paths
(empty code, size outside `[5, 20]`, coordinate outside the grid).
Imported paths hold only the two endpoint dots, a palette colour, no
point types (the JS objects lack the field) and `isFiller: false`. -/
def loadLevelCode (code : List Nat) (bitmask : List Nat) : Option Grid :=
  match code with
  | [] => none
  | sizeDigit :: body =>
    let size := sizeDigit
    if size < 5 || 20 < size then none else
    let g0 := Grid.new size
    let bits := bitmask.flatMap bitsOfNat5
    let g1 :=
      if bitmask.isEmpty then g0 else
      (List.range size).foldl
        (fun g r => (List.range size).foldl
          (fun (g : Grid) c =>
            if bits.getD (r * size + c) false then
              { g with cells := fun p =>
                  if p = ((r : Int), (c : Int)) then -1 else g.cells p }
            else g)
          g)
        g0
    let chunks := levelCodeChunks body
    if chunks.any (fun t => size ≤ t.1 || size ≤ t.2.1 || size ≤ t.2.2.1 ||
        size ≤ t.2.2.2) then none
    else
      some ((List.range chunks.length).foldl
        (fun (g : Grid) idx =>
          match chunks.get? idx with
          | some (r1, c1, r2, c2) =>
            let pathId : Int := (idx : Int) + 1
            let color := importPalette.getD (idx % importPalette.length) 0
            let gm := (g.setCell (r1 : Int) (c1 : Int) pathId).setCell
              (r2 : Int) (c2 : Int) pathId
            { gm with paths := gm.paths ++
                [{ id := pathId, color := color,
                   points := [((r1 : Int), (c1 : Int)), ((r2 : Int), (c2 : Int))],
                   pointTypes := [], isFiller := false }] }
          | none => g)
        g1)

/-! ## Claim C3 — exhaustion on a 1×1 grid -/

/-- On a 1×1 grid at most one empty cell exists, so `addPair` fails at
the `empties.length < 2` check without consuming randomness or state. -/
theorem addPair_size_one (g : Generator) (h : g.grid.size = 1) :
    Generator.addPair g = (g, false) := by
  have hge : Generator.getAllEmpty g =
      if g.grid.isEmpty 0 0 then [((0 : Int), (0 : Int))] else [] := by
    have hr1 : List.range 1 = [0] := rfl
    simp only [Generator.getAllEmpty, h, hr1]
    cases hc : g.grid.isEmpty 0 0 <;>
      simp [hc, List.flatMap_cons, List.flatMap_nil, List.filterMap_cons]
  have hlen : (Generator.getAllEmpty g).length < 2 := by
    rw [hge]; cases hc : g.grid.isEmpty 0 0 <;> simp [hc]
  simp only [Generator.addPair, if_pos hlen]

/-- The greedy-fill loop leaves a 1×1 generator untouched. -/
theorem fillGreedyGo_size_one (fuel : Nat) :
    ∀ (failures : Nat) (g : Generator), g.grid.size = 1 →
      Generator.fillGreedyGo fuel failures g = g := by
  induction fuel with
  | zero => intro failures g _; rfl
  | succ n ih =>
    intro failures g h
    simp only [Generator.fillGreedyGo, addPair_size_one g h]
    by_cases hf : failures < 50
    · simp only [if_pos hf]
      exact ih _ _ h
    · simp only [if_neg hf]

/-- `fillGreedy` fails on a freshly reset 1×1 generator. -/
theorem fillGreedy_reset_size_one (gen : Generator) (h : gen.grid.size = 1) :
    Generator.fillGreedy (Generator.resetGen gen) =
      (Generator.resetGen gen, false) := by
  have h1 : (Generator.resetGen gen).grid.size = 1 := h
  simp only [Generator.fillGreedy, fillGreedyGo_size_one 1000 0 _ h1]
  rfl

/-- Every generation attempt on a 1×1 grid is exactly a grid reset
followed by a failing greedy fill. -/
theorem generateAttempt_size_one (gen : Generator) (h : gen.grid.size = 1) :
    Generator.generateAttempt gen = (Generator.resetGen gen, false) := by
  simp [Generator.generateAttempt, fillGreedy_reset_size_one gen h]

/-- No retry budget can make generation succeed on a 1×1 grid. -/
theorem generateLoop_size_one (fuel : Nat) :
    ∀ gen : Generator, gen.grid.size = 1 →
      (Generator.generateLoop fuel gen).2 = false := by
  induction fuel with
  | zero => intro gen _; rfl
  | succ n ih =>
    intro gen h
    simp only [Generator.generateLoop, generateAttempt_size_one gen h]
    exact ih _ h

/-- **C3.** `generate()` is embedded as a total function into `Bool` (the
runs below reduce fully, so no fault is raised); on a 1×1 grid every
attempt fails, hence the outer loop — `generate` is definitionally the
500-iteration `generateLoop` — exhausts its full budget of 500 attempts,
each attempt being exactly a grid reset followed by a failing greedy
fill, and `generate` returns `false`. -/
theorem generate_one_by_one_exhausts :
    (∀ (hard : Bool) (seed : Int),
      (Generator.generate (Generator.new (Grid.new 1) hard seed)).2 = false) ∧
    (Generator.generate = fun g => Generator.generateLoop 500 g) ∧
    (∀ (fuel : Nat) (hard : Bool) (seed : Int),
      (Generator.generateLoop fuel (Generator.new (Grid.new 1) hard seed)).2 = false) ∧
    (∀ gen : Generator, gen.grid.size = 1 →
      Generator.generateAttempt gen = (Generator.resetGen gen, false)) := by
  refine ⟨fun hard seed => generateLoop_size_one 500 _ rfl, rfl,
    fun fuel hard seed => generateLoop_size_one fuel _ rfl,
    fun gen h => generateAttempt_size_one gen h⟩

/-- Witness for C3: the last conjunct applied to a concrete generator. -/
theorem generate_one_by_one_exhausts_witness :
    Generator.generateAttempt (Generator.new (Grid.new 1) false 42) =
      (Generator.resetGen (Generator.new (Grid.new 1) false 42), false) :=
  generate_one_by_one_exhausts.2.2.2 _ rfl

/-! ## Claim C2 — determinism from the seed -/

/-- A run of `generate()` on a fresh grid of the given size with a
`Random` constructed from the given seed; `entropy` stands for the
ambient `Math.random()` draw the constructor performs only when it
treats the seed as absent. -/
def generateFromSeed (size : Nat) (hard : Bool) (seed : Random.Seed)
    (entropy : Nat) : Generator × Bool :=
  Generator.generate (Generator.new (Grid.new size) hard (Random.make seed entropy))

set_option maxRecDepth 200000
set_option maxHeartbeats 4000000

/-- **C2 counterexample.** Constructing `Random` from the numeric seed
`0` is treated by the constructor's `seed || fallback` as an absent seed,
so each run draws fresh entropy: two runs of `generate()` with the same
size, mode and seed `0` (but different ambient draws) produce different
path lists, refuting the claim for that seed. -/
theorem generate_seed_zero_nondeterministic :
    ¬ ((generateFromSeed 3 false (.num 0) 1).2 = (generateFromSeed 3 false (.num 0) 2).2 ∧
       (generateFromSeed 3 false (.num 0) 1).1.grid.paths =
         (generateFromSeed 3 false (.num 0) 2).1.grid.paths) := by
  intro hcl
  exact absurd hcl.2 (of_decide_eq_false (by rfl))

/-- **C2 (amended).** For every seed the constructor actually consumes —
any string seed, or any non-zero numeric seed (numeric `0` is falsy and
falls back to nondeterministic entropy) — two runs of `generate()` on
fresh grids of the same size with the same hard-mode flag produce
identical outcomes: the same boolean and the same final generator state
(cell matrix, path list and all). -/
theorem generate_deterministic_same_seed :
    ∀ (size : Nat) (hard : Bool) (seed : Random.Seed) (e1 e2 : Nat),
      seed ≠ .num 0 → seed ≠ .undef →
      generateFromSeed size hard seed e1 = generateFromSeed size hard seed e2 := by
  intro size hard seed e1 e2 h0 hu
  have hm : Random.make seed e1 = Random.make seed e2 := by
    cases seed with
    | str codes => rfl
    | num n =>
      have hn : n ≠ 0 := fun hh => h0 (by rw [hh])
      simp [Random.make, hn]
    | undef => exact absurd rfl hu
  unfold generateFromSeed
  rw [hm]

/-- Witness for C2 at a concrete string seed and two entropies. -/
theorem generate_deterministic_same_seed_witness :
    generateFromSeed 3 false (.str [65, 66]) 0 =
      generateFromSeed 3 false (.str [65, 66]) 1 :=
  generate_deterministic_same_seed 3 false (.str [65, 66]) 0 1
    (by decide) (by decide)

/-! ## Claim C8 — the verification endpoint's reference derivation -/

/-- A hard-mode submission to `/api/validatePuzzle`. -/
def c8req : ValidateRequest := { size := 5, seed := .num 12345, mode := true }

/-- **C8 counterexample.** The handler constructs its reference generator
with the literal `hardMode: false`, not with the submitted puzzle's
mode; for this hard-mode submission the re-derivation runs in normal
mode, and (at this seed) produces a different puzzle than the same-mode
re-derivation would. -/
theorem validatePuzzle_mode_counterexample :
    c8req.mode = true ∧
    (validatePuzzleReference c8req 0).hardMode = false ∧
    (Generator.generate (validatePuzzleReference c8req 0)).1.grid.paths ≠
      (Generator.generate
        { validatePuzzleReference c8req 0 with hardMode := c8req.mode }).1.grid.paths := by
  exact ⟨rfl, rfl, of_decide_eq_false (by rfl)⟩

/-- **C8 (amended).** For every request, the reference puzzle is
re-derived by running `generate()` with the submitted puzzle's seed and
size but always in normal mode (`hardMode = false`); consequently two
submissions agreeing on seed and size get identical re-derivations even
when their modes differ. -/
theorem validatePuzzle_reference_derivation :
    (∀ (req : ValidateRequest) (entropy : Nat),
      (validatePuzzleReference req entropy).grid = Grid.new req.size ∧
      (validatePuzzleReference req entropy).random = Random.make req.seed entropy ∧
      (validatePuzzleReference req entropy).hardMode = false) ∧
    (∀ (req1 req2 : ValidateRequest) (entropy : Nat),
      req1.size = req2.size → req1.seed = req2.seed →
      Generator.generate (validatePuzzleReference req1 entropy) =
        Generator.generate (validatePuzzleReference req2 entropy)) := by
  refine ⟨fun req e => ⟨rfl, rfl, rfl⟩, fun r1 r2 e h1 h2 => ?_⟩
  unfold validatePuzzleReference
  rw [h1, h2]

/-- Witness for C8: two concrete requests differing only in mode. -/
theorem validatePuzzle_reference_derivation_witness :
    Generator.generate
        (validatePuzzleReference { size := 7, seed := .str [90], mode := true } 3) =
      Generator.generate
        (validatePuzzleReference { size := 7, seed := .str [90], mode := false } 3) :=
  validatePuzzle_reference_derivation.2 _ _ 3 rfl rfl

/-! ## Claim C4 — the first-pair distance rule has no fallback -/

/-- The cell matrix of the C4 scenario: a 9×9 board with only the three
cells `(0,0)`, `(0,1)`, `(1,1)` free. -/
def c4cells (p : Pt) : Int :=
  if p = (0, 0) ∨ p = (0, 1) ∨ p = (1, 1) then 0 else 1

/-- A generator about to place its first pair on an almost-full board:
every pair of empty cells is closer than `⌊2·9/3⌋ = 6`. -/
def c4gen : Generator :=
  { grid := { size := 9, cells := c4cells, paths := [] },
    hardMode := false, random := 2 }

/-- **C4 counterexample.** With three empty cells left (so the unfiltered
candidate set after removing the drawn start is non-empty) but no
candidate at Manhattan distance `≥ ⌊2·size/3⌋`, the source's `addPair`
fails — there is no fall-back to the unfiltered set — while the
specification's fallback version (`addPairSpec`) succeeds on the same
state, committing a 3-point route. -/
theorem addPair_fallback_counterexample :
    (Generator.getAllEmpty c4gen).length = 3 ∧
    (Generator.addPair c4gen).2 = false ∧
    (Generator.addPairSpec c4gen).2 = true := by
  refine ⟨of_decide_eq_true (by rfl), of_decide_eq_true (by rfl),
    of_decide_eq_true (by rfl)⟩

/-- In normal mode, the first-pair candidate list is exactly the
distance-filtered set — no fallback is applied when the filter empties
it. -/
theorem addPairCandidates_first_pair (gen : Generator) (start : Pt)
    (empties2 : List Pt) (hp : gen.grid.paths = [])
    (hh : gen.hardMode = false) :
    Generator.addPairCandidates gen start empties2 =
      empties2.filter fun p =>
        gen.grid.size * 2 / 3 ≤ (p.1 - start.1).natAbs + (p.2 - start.2).natAbs := by
  simp [Generator.addPairCandidates, hh, hp]

/-- When the candidate list computed inside `addPair` is empty, the
attempt fails, regardless of how many unfiltered candidates existed. -/
theorem addPair_empty_candidates (gen : Generator)
    (h2 : ¬ (Generator.getAllEmpty gen).length < 2)
    (hc : Generator.addPairCandidates gen
      ((Generator.getAllEmpty gen).getD
        (Random.range gen.random 0 (Generator.getAllEmpty gen).length).1 (0, 0))
      ((Generator.getAllEmpty gen).eraseIdx
        (Random.range gen.random 0 (Generator.getAllEmpty gen).length).1) = []) :
    (Generator.addPair gen).2 = false := by
  simp only [Generator.addPair, if_neg h2, hc]
  simp

/-- **C4 (amended).** In `addPair`, when the path list is empty the
candidate endpoints are those at Manhattan distance `≥ ⌊2·size/3⌋` from
the drawn start — with **no** fall-back to the unfiltered candidate set —
and the attempt fails for lack of candidates exactly when that filtered
set is empty, even while unfiltered candidates remain. -/
theorem addPair_first_pair_no_fallback :
    (∀ (gen : Generator) (start : Pt) (empties2 : List Pt),
      gen.grid.paths = [] → gen.hardMode = false →
      Generator.addPairCandidates gen start empties2 =
        empties2.filter fun p =>
          gen.grid.size * 2 / 3 ≤ (p.1 - start.1).natAbs + (p.2 - start.2).natAbs) ∧
    (∀ gen : Generator,
      ¬ (Generator.getAllEmpty gen).length < 2 →
      Generator.addPairCandidates gen
        ((Generator.getAllEmpty gen).getD
          (Random.range gen.random 0 (Generator.getAllEmpty gen).length).1 (0, 0))
        ((Generator.getAllEmpty gen).eraseIdx
          (Random.range gen.random 0 (Generator.getAllEmpty gen).length).1) = [] →
      (Generator.addPair gen).2 = false) :=
  ⟨fun gen start e2 hp hh => addPairCandidates_first_pair gen start e2 hp hh,
   fun gen h2 hc => addPair_empty_candidates gen h2 hc⟩

/-- Witness for C4: the candidate characterisation applied at the C4
scenario's drawn start, and the failure of `addPair` there. -/
theorem addPair_first_pair_no_fallback_witness :
    Generator.addPairCandidates c4gen (0, 0) [(0, 1), (1, 1)] =
      [(0, 1), (1, 1)].filter (fun p =>
        c4gen.grid.size * 2 / 3 ≤ (p.1 - 0).natAbs + (p.2 - 0).natAbs) ∧
    (Generator.addPair c4gen).2 = false := by
  constructor
  · exact addPair_first_pair_no_fallback.1 c4gen (0, 0) [(0, 1), (1, 1)] rfl rfl
  · exact addPair_first_pair_no_fallback.2 c4gen (by decide) (by decide)

/-! ## Claim C6 — merge does not reassign ids (counterexample part) -/

/-- Three collinear-mergeable paths: the first two lie on row 2 and join
tail-to-head at `(2,4)`–`(2,5)`; the third is far away on row 0. -/
def c6gen : Generator :=
  { grid := { size := 8, cells := fun _ => 0, paths :=
      [{ id := 1, points := [(2, 2), (2, 3), (2, 4)], pointTypes := [0, 0, 0],
         color := Generator.getDistinctColor 1 },
       { id := 2, points := [(2, 5), (2, 6), (2, 7)], pointTypes := [0, 0, 0],
         color := Generator.getDistinctColor 2 },
       { id := 3, points := [(0, 0), (0, 1), (0, 2)], pointTypes := [0, 0, 0],
         color := Generator.getDistinctColor 3 }] },
    hardMode := false, random := 0 }

/-- **C6 counterexample.** `mergeCollinearPaths` merges path 2 into
path 1 and removes it, but does not reassign ids: the surviving list
holds ids `[1, 3]`, so the path at index 1 has id `3 ≠ 2` — ids do not
form a contiguous `1..K` sequence after a merge. -/
theorem merge_ids_counterexample :
    (Generator.mergeCollinearPaths c6gen).grid.paths.length = 2 ∧
    (Generator.mergeCollinearPaths c6gen).grid.paths.map Path.id = [1, 3] ∧
    ¬ (∀ i, i < (Generator.mergeCollinearPaths c6gen).grid.paths.length →
        ((Generator.mergeCollinearPaths c6gen).grid.paths.getD i
          { id := 0, points := [], pointTypes := [], color := 0 }).id =
          (i : Int) + 1) := by
  refine ⟨by decide, by decide, fun hall => absurd (hall 1 (by decide)) (by decide)⟩

/-! ## Claim C9 — level-code round trip (counterexample part) -/

/-- A 5×5 grid whose single path has its first endpoint on a cell that
also carries the stone sentinel `-1`. -/
def c9grid : Grid :=
  { size := 5,
    cells := fun p =>
      if p = (0, 0) then -1 else if p = (0, 1) ∨ p = (1, 1) then 1 else 0,
    paths := [{ id := 1, points := [(0, 0), (0, 1), (1, 1)],
                pointTypes := [0, 0, 0], color := 0 }] }

/-- **C9 counterexample.** `c9grid` satisfies the claim's hypotheses
(size in `[5, 20]`, stones marked `-1`, endpoints inside the grid), yet
loading its exported level code does not reconstruct the same stone set:
the path-endpoint write `grid.cells[r1][c1] = pathId` overwrites the
stone at `(0, 0)`, so the loaded grid has no stones at all. -/
theorem levelCode_stone_endpoint_counterexample :
    5 ≤ c9grid.size ∧ c9grid.size ≤ 20 ∧
    stoneCells c9grid = [(0, 0)] ∧
    (∀ path ∈ c9grid.paths, path.points ≠ [] ∧
      c9grid.isValid (path.points.getD 0 (0, 0)).1
        (path.points.getD 0 (0, 0)).2 = true ∧
      c9grid.isValid (path.points.getD (path.points.length - 1) (0, 0)).1
        (path.points.getD (path.points.length - 1) (0, 0)).2 = true) ∧
    (loadLevelCode (exportLevelCode c9grid).1 (exportLevelCode c9grid).2).map
      stoneCells = some [] := by
  refine ⟨by decide, by decide, by decide, by decide, by decide⟩

/-! ## Claim C1 — success implies the three validation conditions -/

/-- A successful attempt returns a state that passed `validateGrid`. -/
theorem generateAttempt_true_validate (gen0 : Generator)
    (h : (Generator.generateAttempt gen0).2 = true) :
    Generator.validateGrid (Generator.generateAttempt gen0).1 = true := by
  simp only [Generator.generateAttempt] at h ⊢
  by_cases hfg : (Generator.fillGreedy (Generator.resetGen gen0)).2
  · simp only [hfg, if_true] at h ⊢
    by_cases hv : Generator.validateGrid
        (Generator.shufflePathIds
          (Generator.mergeCollinearPaths
            (Generator.fillSmallVoids
              (Generator.expandPathsRandom
                (Generator.tightenPaths
                  (Generator.expandPathsRandom
                    (Generator.fillSmallVoids
                      (Generator.expandPathsRandom
                        (Generator.tightenPaths
                          (Generator.expandPathsRandom
                            (Generator.fillGreedy (Generator.resetGen gen0)).1
                            false))
                        true))
                    true))
                true))))
    · simp [hv]
    · simp [hv] at h
  · simp [hfg] at h

/-- A successful `generateLoop` run returns a state that passed
`validateGrid`. -/
theorem generateLoop_true_validate (fuel : Nat) :
    ∀ gen0 : Generator, (Generator.generateLoop fuel gen0).2 = true →
      Generator.validateGrid (Generator.generateLoop fuel gen0).1 = true := by
  induction fuel with
  | zero => intro gen0 h; exact absurd h (by simp [Generator.generateLoop])
  | succ n ih =>
    intro gen0 h
    simp only [Generator.generateLoop] at h ⊢
    by_cases ha : (Generator.generateAttempt gen0).2
    · simp only [ha, if_true] at h ⊢
      exact generateAttempt_true_validate gen0 ha
    · simp only [ha, if_false] at h ⊢
      exact ih _ h

/-- Unfolding of `validateGrid = true` into the three per-path
conditions. -/
theorem validateGrid_spec (gen : Generator)
    (h : Generator.validateGrid gen = true) :
    ∀ path ∈ gen.grid.paths,
      3 ≤ path.points.length ∧
      (gen.hardMode = true → path.isFiller = false →
        (path.points.getD 0 (0, 0)).1 ≠
          (path.points.getD (path.points.length - 1) (0, 0)).1 ∧
        (path.points.getD 0 (0, 0)).2 ≠
          (path.points.getD (path.points.length - 1) (0, 0)).2) ∧
      Generator.areNeighbors (path.points.getD 0 (0, 0)).1
        (path.points.getD 0 (0, 0)).2
        (path.points.getD (path.points.length - 1) (0, 0)).1
        (path.points.getD (path.points.length - 1) (0, 0)).2 = false := by
  intro path hp
  unfold Generator.validateGrid at h
  have hb := List.all_eq_true.mp h path hp
  simp only [Bool.and_eq_true, Bool.or_eq_true, decide_eq_true_eq,
    Bool.not_eq_true', bne_iff_ne, ne_eq] at hb
  obtain ⟨h3, hOr, hNb⟩ := hb
  refine ⟨h3, ?_, hNb⟩
  intro hh hf
  rcases hOr with hL | ⟨hr1, hr2⟩
  · rw [hh, hf] at hL
    simp at hL
  · exact ⟨hr1, hr2⟩

/-- **C1.** Whenever `generate()` returns `true`, every path in the bound
grid's path list simultaneously has at least 3 points, has (in hard mode,
unless it is a filler) endpoints differing in both row and column, and
has endpoints that are not orthogonally adjacent. -/
theorem generate_true_paths_valid :
    ∀ (gen0 : Generator) (path : Path),
      (Generator.generate gen0).2 = true →
      path ∈ (Generator.generate gen0).1.grid.paths →
      3 ≤ path.points.length ∧
      ((Generator.generate gen0).1.hardMode = true → path.isFiller = false →
        (path.points.getD 0 (0, 0)).1 ≠
          (path.points.getD (path.points.length - 1) (0, 0)).1 ∧
        (path.points.getD 0 (0, 0)).2 ≠
          (path.points.getD (path.points.length - 1) (0, 0)).2) ∧
      Generator.areNeighbors (path.points.getD 0 (0, 0)).1
        (path.points.getD 0 (0, 0)).2
        (path.points.getD (path.points.length - 1) (0, 0)).1
        (path.points.getD (path.points.length - 1) (0, 0)).2 = false :=
  fun gen0 path h hp =>
    validateGrid_spec _ (generateLoop_true_validate 500 gen0 h) path hp

/-- The generator of the concrete C1 witness run. -/
def c1gen : Generator := Generator.new (Grid.new 3) false 1

/-- The first path of the C1 witness run (`generate` succeeds on the 3×3
grid with seed 1 and produces this path first). -/
def c1path : Path :=
  { id := 1, points := [(0, 2), (1, 2), (1, 1), (1, 0), (0, 0)],
    pointTypes := [1, 0, 0, 0, 1], color := 0, isFiller := false }

/-- Witness for C1: the theorem applied to a concrete successful run and
a concrete member of its path list. -/
theorem generate_true_paths_valid_witness :
    3 ≤ c1path.points.length ∧
    ((Generator.generate c1gen).1.hardMode = true → c1path.isFiller = false →
      (c1path.points.getD 0 (0, 0)).1 ≠
        (c1path.points.getD (c1path.points.length - 1) (0, 0)).1 ∧
      (c1path.points.getD 0 (0, 0)).2 ≠
        (c1path.points.getD (c1path.points.length - 1) (0, 0)).2) ∧
    Generator.areNeighbors (c1path.points.getD 0 (0, 0)).1
      (c1path.points.getD 0 (0, 0)).2
      (c1path.points.getD (c1path.points.length - 1) (0, 0)).1
      (c1path.points.getD (c1path.points.length - 1) (0, 0)).2 = false :=
  generate_true_paths_valid c1gen c1path (of_decide_eq_true (by rfl))
    (of_decide_eq_true (by rfl))

/-! ## Shuffle permutation lemmas -/

/-- Pulling the element at position `k` to the front while writing `x`
into position `k` permutes `x :: xs`. -/
theorem cons_set_perm {α : Type} (x : α) :
    ∀ (xs : List α) (k : Nat) (b : α), xs.get? k = some b →
      (b :: xs.set k x).Perm (x :: xs) := by
  intro xs
  induction xs with
  | nil => intro k b hb; cases hb
  | cons y ys ih =>
    intro k b hb
    cases k with
    | zero =>
      cases hb
      exact List.Perm.swap x y ys
    | succ k =>
      have hb' : ys.get? k = some b := hb
      show (b :: y :: ys.set k x).Perm (x :: y :: ys)
      have h1 : (b :: y :: ys.set k x).Perm (y :: b :: ys.set k x) :=
        List.Perm.swap y b _
      have h2 : (y :: b :: ys.set k x).Perm (y :: x :: ys) := (ih k b hb').cons y
      have h3 : (y :: x :: ys).Perm (x :: y :: ys) := List.Perm.swap x y ys
      exact (h1.trans h2).trans h3

/-- Exchanging the elements at two positions permutes the list. -/
theorem set_set_swap_perm {α : Type} :
    ∀ (l : List α) (i j : Nat) (a b : α),
      l.get? i = some a → l.get? j = some b → ((l.set i b).set j a).Perm l := by
  intro l
  induction l with
  | nil => intro i j a b hi _; cases hi
  | cons x xs ih =>
    intro i j a b hi hj
    cases i with
    | zero =>
      cases hi
      cases j with
      | zero =>
        cases hj
        exact List.Perm.refl _
      | succ j =>
        have hj' : xs.get? j = some b := hj
        exact cons_set_perm x xs j b hj'
    | succ i =>
      have hi' : xs.get? i = some a := hi
      cases j with
      | zero =>
        cases hj
        exact cons_set_perm x xs i a hi'
      | succ j =>
        have hj' : xs.get? j = some b := hj
        exact (ih i j a b hi' hj').cons x

/-- A single Fisher–Yates swap permutes the list. -/
theorem listSwap_perm {α : Type} (l : List α) (i j : Nat) :
    (Random.listSwap l i j).Perm l := by
  unfold Random.listSwap
  cases hi : l.get? i with
  | none => exact List.Perm.refl l
  | some a =>
    cases hj : l.get? j with
    | none => exact List.Perm.refl l
    | some b => exact set_set_swap_perm l i j a b hi hj

/-- The Fisher–Yates loop permutes the list. -/
theorem shuffleGo_perm {α : Type} :
    ∀ (n : Nat) (seed : Int) (l : List α),
      ((Random.shuffleGo seed l n).1).Perm l := by
  intro n
  induction n with
  | zero => intro seed l; exact List.Perm.refl l
  | succ n ih =>
    intro seed l
    exact (ih _ _).trans (listSwap_perm l (n + 1) _)

/-- `Random.shuffle` permutes the list. -/
theorem shuffle_perm {α : Type} (seed : Int) (l : List α) :
    ((Random.shuffle seed l).1).Perm l := by
  unfold Random.shuffle
  cases hl : l.length with
  | zero => exact List.Perm.refl l
  | succ n => exact shuffleGo_perm n seed l

/-! ## Generic fold-preservation helpers -/

/-- A property of the generator component survives any fold whose step
preserves it. -/
theorem foldl_fst_preserve {β γ : Type} (P : Generator → Prop)
    (f : (Generator × γ) → β → (Generator × γ))
    (hf : ∀ st b, P st.1 → P (f st b).1) :
    ∀ (l : List β) (st : Generator × γ), P st.1 → P ((l.foldl f st).1) := by
  intro l
  induction l with
  | nil => intro st h; exact h
  | cons b rest ih =>
    intro st h
    rw [List.foldl_cons]
    exact ih _ (hf st b h)

/-- A property of a grid survives any fold whose step preserves it. -/
theorem foldl_grid_preserve {β : Type} (P : Grid → Prop) (f : Grid → β → Grid)
    (hf : ∀ g b, P g → P (f g b)) :
    ∀ (l : List β) (g : Grid), P g → P (l.foldl f g) := by
  intro l
  induction l with
  | nil => intro g h; exact h
  | cons b rest ih =>
    intro g h
    rw [List.foldl_cons]
    exact ih _ (hf g b h)

/-! ## Claim C10 — pointTypes stays parallel to points -/

/-- The C10 invariant: every path's `pointTypes` has exactly the length
of its `points`. -/
def pointTypesAligned (gen : Generator) : Prop :=
  ∀ path ∈ gen.grid.paths, path.pointTypes.length = path.points.length

instance (gen : Generator) : Decidable (pointTypesAligned gen) := by
  unfold pointTypesAligned
  infer_instance

/-- `setCell` never touches the path list. -/
theorem setCell_paths (g : Grid) (r c v : Int) :
    (g.setCell r c v).paths = g.paths := by
  unfold Grid.setCell
  split <;> rfl

/-- `setCell` never touches the size. -/
theorem setCell_size (g : Grid) (r c v : Int) :
    (g.setCell r c v).size = g.size := by
  unfold Grid.setCell
  split <;> rfl

/-- Cell-marking folds never touch the path list. -/
theorem foldl_setCell_paths (v : Int) :
    ∀ (pts : List Pt) (g : Grid),
      (pts.foldl (fun gr p => gr.setCell p.1 p.2 v) g).paths = g.paths := by
  intro pts
  induction pts with
  | nil => intro g; rfl
  | cons p rest ih => intro g; rw [List.foldl_cons, ih, setCell_paths]

/-- Cell-marking folds never touch the size. -/
theorem foldl_setCell_size (v : Int) :
    ∀ (pts : List Pt) (g : Grid),
      (pts.foldl (fun gr p => gr.setCell p.1 p.2 v) g).size = g.size := by
  intro pts
  induction pts with
  | nil => intro g; rfl
  | cons p rest ih => intro g; rw [List.foldl_cons, ih, setCell_size]

/-- `addPair` preserves the C10 invariant (the committed path gets
`pointTypes` of exactly the route's length). -/
theorem addPair_aligned (gen : Generator) (h : pointTypesAligned gen) :
    pointTypesAligned (Generator.addPair gen).1 := by
  simp only [Generator.addPair]
  split
  · exact h
  · split
    · exact h
    · split
      · split
        · intro path hp
          simp only [foldl_setCell_paths] at hp
          rcases List.mem_append.mp hp with hold | hnew
          · exact h path hold
          · rw [List.mem_singleton.mp hnew]
            simp
        · exact h
      · exact h

/-- `addTargetedPath` preserves the C10 invariant. -/
theorem addTargetedPath_aligned (gen : Generator) (pts : List Pt)
    (h : pointTypesAligned gen) :
    pointTypesAligned (Generator.addTargetedPath gen pts).1 := by
  simp only [Generator.addTargetedPath]
  split
  · intro path hp
    simp only [foldl_setCell_paths] at hp
    rcases List.mem_append.mp hp with hold | hnew
    · exact h path hold
    · rw [List.mem_singleton.mp hnew]
      simp
  · exact h

/-- The neighbour-trial loop of `expandEndpointRandom` preserves the C10
invariant. -/
theorem expandTry_aligned (pi : Nat) (path : Path) (r c oR oC : Int)
    (prevDir : Option Pt) (psl : Nat) (isStart isExt : Bool)
    (hpath : path.pointTypes.length = path.points.length) :
    ∀ (nbrs : List Pt) (gen : Generator), pointTypesAligned gen →
      pointTypesAligned
        (Generator.expandTry gen pi path r c oR oC prevDir psl isStart isExt nbrs).1 := by
  intro nbrs
  induction nbrs with
  | nil => intro gen h; exact h
  | cons n rest ih =>
    intro gen h
    obtain ⟨nr, nc⟩ := n
    simp only [Generator.expandTry]
    split
    · exact ih gen h
    · intro p hp
      simp only [setCell_paths] at hp
      rcases List.mem_or_eq_of_mem_set hp with hold | hnew
      · exact h p hold
      · rw [hnew]
        split <;> simp [hpath]

/-- `expandEndpointRandom` preserves the C10 invariant. -/
theorem expandEndpointRandom_aligned (gen : Generator) (pi index : Nat)
    (isExt : Bool) (h : pointTypesAligned gen) :
    pointTypesAligned (Generator.expandEndpointRandom gen pi index isExt).1 := by
  cases hg : gen.grid.paths.get? pi with
  | none => simp only [Generator.expandEndpointRandom, hg]; exact h
  | some path =>
    have hpath : path.pointTypes.length = path.points.length :=
      h path (List.get?_mem hg)
    simp only [Generator.expandEndpointRandom, hg]
    split
    · exact h
    · exact expandTry_aligned pi path _ _ _ _ _ _ _ _ hpath _ _ h

/-- One round of `expandPathsRandom` preserves the C10 invariant. -/
theorem expandPaths1_aligned (gen : Generator) (isExt : Bool)
    (h : pointTypesAligned gen) :
    pointTypesAligned (Generator.expandPaths1 gen isExt).1 := by
  simp only [Generator.expandPaths1]
  apply foldl_fst_preserve pointTypesAligned
  · intro st b hst
    exact expandEndpointRandom_aligned _ b _ isExt
      (expandEndpointRandom_aligned st.1 b 0 isExt hst)
  · intro p hp
    exact h p ((shuffle_perm gen.random gen.grid.paths).mem_iff.mp hp)

/-- The expansion loop preserves the C10 invariant. -/
theorem expandPathsGo_aligned (isExt : Bool) :
    ∀ (fuel : Nat) (gen : Generator), pointTypesAligned gen →
      pointTypesAligned (Generator.expandPathsGo isExt fuel gen) := by
  intro fuel
  induction fuel with
  | zero => intro gen h; exact h
  | succ n ih =>
    intro gen h
    simp only [Generator.expandPathsGo]
    split
    · exact ih _ (expandPaths1_aligned gen isExt h)
    · exact expandPaths1_aligned gen isExt h

/-- `expandPathsRandom` preserves the C10 invariant. -/
theorem expandPathsRandom_aligned (gen : Generator) (isExt : Bool)
    (h : pointTypesAligned gen) :
    pointTypesAligned (Generator.expandPathsRandom gen isExt) :=
  expandPathsGo_aligned isExt 1000 gen h

/-- `tightenOne` preserves the C10 invariant (a rerouted path gets a
fresh all-core `pointTypes` of the new length). -/
theorem tightenOne_aligned (gen : Generator) (i : Nat)
    (h : pointTypesAligned gen) :
    pointTypesAligned (Generator.tightenOne gen i).1 := by
  cases hg : gen.grid.paths.get? i with
  | none => simp only [Generator.tightenOne, hg]; exact h
  | some path =>
    have hpath : path.pointTypes.length = path.points.length :=
      h path (List.get?_mem hg)
    simp only [Generator.tightenOne, hg]
    intro p hp
    simp only [foldl_setCell_paths] at hp
    rcases List.mem_or_eq_of_mem_set hp with hold | hnew
    · exact h p hold
    · rw [hnew]
      split
      · split
        · simp
        · exact hpath
      · exact hpath

/-- A tightening sweep preserves the C10 invariant. -/
theorem tightenPass_aligned (gen : Generator) (h : pointTypesAligned gen) :
    pointTypesAligned (Generator.tightenPass gen).1 := by
  simp only [Generator.tightenPass]
  apply foldl_fst_preserve pointTypesAligned
  · intro st b hst
    exact tightenOne_aligned st.1 b hst
  · exact h

/-- The tightening loop preserves the C10 invariant. -/
theorem tightenGo_aligned :
    ∀ (fuel : Nat) (gen : Generator), pointTypesAligned gen →
      pointTypesAligned (Generator.tightenGo fuel gen) := by
  intro fuel
  induction fuel with
  | zero => intro gen h; exact h
  | succ n ih =>
    intro gen h
    simp only [Generator.tightenGo]
    split
    · exact ih _ (tightenPass_aligned gen h)
    · exact tightenPass_aligned gen h

/-- `tightenPaths` preserves the C10 invariant. -/
theorem tightenPaths_aligned (gen : Generator) (h : pointTypesAligned gen) :
    pointTypesAligned (Generator.tightenPaths gen) :=
  tightenGo_aligned _ gen h

/-- An applied merge preserves the C10 invariant: the concatenations keep
both parallel lists the same length. -/
theorem mergeApply_aligned (gen : Generator) (i j : Nat)
    (h : pointTypesAligned gen) (g' : Generator)
    (hm : Generator.mergeApply gen i j = some g') :
    pointTypesAligned g' := by
  cases hi : gen.grid.paths.get? i with
  | none => simp only [Generator.mergeApply, hi] at hm; cases hm
  | some p1 =>
    cases hj : gen.grid.paths.get? j with
    | none => simp only [Generator.mergeApply, hi, hj] at hm; cases hm
    | some p2 =>
      simp only [Generator.mergeApply, hi, hj] at hm
      have hp1 : p1.pointTypes.length = p1.points.length :=
        h p1 (List.get?_mem hi)
      have hp2 : p2.pointTypes.length = p2.points.length :=
        h p2 (List.get?_mem hj)
      have key : ∀ (pts : List Pt) (tys : List Nat),
          tys.length = pts.length →
          pointTypesAligned (Generator.applyMerge gen i j p1 p2 pts tys) := by
        intro pts tys hlen p hp
        simp only [Generator.applyMerge, foldl_setCell_paths] at hp
        rcases List.mem_or_eq_of_mem_set (List.mem_of_mem_eraseIdx hp) with hold | hnew
        · exact h p hold
        · rw [hnew]; exact hlen
      split at hm
      · split at hm
        · cases hm
          exact key _ _ (by simp [hp1, hp2])
        · cases hm
      · split at hm
        · split at hm
          · cases hm
            exact key _ _ (by simp [hp1, hp2])
          · cases hm
        · cases hm

/-- The merge pair scan preserves the C10 invariant. -/
theorem mergeScanFrom_aligned (gen : Generator) (h : pointTypesAligned gen) :
    ∀ (prs : List (Nat × Nat)) (g' : Generator),
      Generator.mergeScanFrom gen prs = some g' → pointTypesAligned g' := by
  intro prs
  induction prs with
  | nil => intro g' hg; cases hg
  | cons ij rest ih =>
    intro g' hg
    obtain ⟨i, j⟩ := ij
    simp only [Generator.mergeScanFrom] at hg
    split at hg
    · exact ih g' hg
    · cases hm : Generator.mergeApply gen i j with
      | none =>
        rw [hm] at hg
        exact ih g' hg
      | some gm =>
        rw [hm] at hg
        cases hg
        exact mergeApply_aligned gen i j h _ hm

/-- The merge loop preserves the C10 invariant. -/
theorem mergeGo_aligned :
    ∀ (fuel : Nat) (gen : Generator), pointTypesAligned gen →
      pointTypesAligned (Generator.mergeGo fuel gen) := by
  intro fuel
  induction fuel with
  | zero => intro gen h; exact h
  | succ n ih =>
    intro gen h
    simp only [Generator.mergeGo]
    cases hs : Generator.mergeScan gen with
    | none => simp only [hs]; exact h
    | some g2 =>
      simp only [hs]
      exact ih g2 (mergeScanFrom_aligned gen h _ g2 hs)

/-- `mergeCollinearPaths` preserves the C10 invariant. -/
theorem mergeCollinearPaths_aligned (gen : Generator)
    (h : pointTypesAligned gen) :
    pointTypesAligned (Generator.mergeCollinearPaths gen) :=
  mergeGo_aligned _ gen h

/-- Grid-level form of the C10 invariant, for the folds of
`shufflePathIds`. -/
def gridAligned (gr : Grid) : Prop :=
  ∀ p ∈ gr.paths, p.pointTypes.length = p.points.length

/-- `shufflePathIds` preserves the C10 invariant: the re-identification
only rewrites ids and colours. -/
theorem shufflePathIds_aligned (gen : Generator) (h : pointTypesAligned gen) :
    pointTypesAligned (Generator.shufflePathIds gen) := by
  simp only [Generator.shufflePathIds]
  split
  · exact h
  · show gridAligned _
    apply foldl_grid_preserve gridAligned
    · intro gr idx hgr
      cases hgi : gr.paths.get? idx with
      | none => simpa [hgi] using hgr
      | some path =>
        simp only [hgi]
        intro p hp
        simp only [foldl_setCell_paths] at hp
        rcases List.mem_or_eq_of_mem_set hp with hold | hnew
        · exact hgr p hold
        · rw [hnew]
          exact hgr path (List.get?_mem hgi)
    · apply foldl_grid_preserve gridAligned
      · intro g b hgb
        apply foldl_grid_preserve gridAligned
        · intro g2 c hg2
          intro p hp
          rw [setCell_paths] at hp
          exact hg2 p hp
        · exact hgb
      · intro p hp
        exact h p ((shuffle_perm gen.random gen.grid.paths).mem_iff.mp hp)

/-- **C10.** Every Generator operation that creates or mutates a path —
`addPair`, `expandEndpointRandom`, `tightenPaths`, `addTargetedPath`,
`mergeCollinearPaths`, `shufflePathIds` — keeps every path's `pointTypes`
array exactly as long as its `points` array. -/
theorem pointTypes_length_invariant :
    (∀ gen : Generator, pointTypesAligned gen →
      pointTypesAligned (Generator.addPair gen).1) ∧
    (∀ (gen : Generator) (pi index : Nat) (isExt : Bool), pointTypesAligned gen →
      pointTypesAligned (Generator.expandEndpointRandom gen pi index isExt).1) ∧
    (∀ gen : Generator, pointTypesAligned gen →
      pointTypesAligned (Generator.tightenPaths gen)) ∧
    (∀ (gen : Generator) (pts : List Pt), pointTypesAligned gen →
      pointTypesAligned (Generator.addTargetedPath gen pts).1) ∧
    (∀ gen : Generator, pointTypesAligned gen →
      pointTypesAligned (Generator.mergeCollinearPaths gen)) ∧
    (∀ gen : Generator, pointTypesAligned gen →
      pointTypesAligned (Generator.shufflePathIds gen)) :=
  ⟨fun gen h => addPair_aligned gen h,
   fun gen pi index isExt h => expandEndpointRandom_aligned gen pi index isExt h,
   fun gen h => tightenPaths_aligned gen h,
   fun gen pts h => addTargetedPath_aligned gen pts h,
   fun gen h => mergeCollinearPaths_aligned gen h,
   fun gen h => shufflePathIds_aligned gen h⟩

/-- Witness for C10: the `addPair` conjunct applied to the concrete C6
state (three aligned paths). -/
theorem pointTypes_length_invariant_witness :
    pointTypesAligned (Generator.addPair c6gen).1 :=
  pointTypes_length_invariant.1 c6gen (by decide)

namespace Generator

/-! ## BFS verification infrastructure (shared by the route claims) -/

/-- Keys of the BFS parents map. -/
def keysOf (parents : Parents) : List Pt := parents.map Prod.fst

/-- Looking up the key just inserted. -/
theorem parentsLookup_cons_self (l : Parents) (a : Pt) (b : Option Pt) :
    ((a, b) :: l).lookup a = some b := by
  simp [List.lookup]

/-- Looking up a different key skips the head entry. -/
theorem parentsLookup_cons_ne (l : Parents) (a c : Pt) (b : Option Pt)
    (h : ¬ c = a) : ((a, b) :: l).lookup c = l.lookup c := by
  have hb : (c == a) = false := by simpa using h
  simp [List.lookup, hb]

/-- A successful lookup exposes a member entry. -/
theorem parentsLookup_mem (l : Parents) (a : Pt) (b : Option Pt)
    (h : l.lookup a = some b) : (a, b) ∈ l := by
  induction l with
  | nil => cases h
  | cons e rest ih =>
    obtain ⟨k, v⟩ := e
    by_cases hk : a = k
    · subst hk
      rw [parentsLookup_cons_self] at h
      cases h
      exact List.mem_cons_self _ _
    · rw [parentsLookup_cons_ne rest k a v hk] at h
      exact List.mem_cons_of_mem _ (ih h)

/-- A successful lookup means the key is known. -/
theorem parentsLookup_some_mem_keys (l : Parents) (a : Pt) (b : Option Pt)
    (h : l.lookup a = some b) : a ∈ keysOf l :=
  List.mem_map.mpr ⟨(a, b), parentsLookup_mem l a b h, rfl⟩

/-- A known key looks up successfully. -/
theorem parentsLookup_isSome_of_mem_keys (l : Parents) (a : Pt)
    (h : a ∈ keysOf l) : (l.lookup a).isSome = true := by
  induction l with
  | nil => cases h
  | cons e rest ih =>
    obtain ⟨k, v⟩ := e
    by_cases hk : a = k
    · subst hk
      rw [parentsLookup_cons_self]
      rfl
    · rw [parentsLookup_cons_ne rest k a v hk]
      rcases List.mem_cons.mp h with h0 | h0
      · exact absurd h0 hk
      · exact ih h0

/-- In a map with no duplicate keys, members determine lookups. -/
theorem parentsLookup_of_mem (l : Parents) (hnd : (keysOf l).Nodup) (a : Pt)
    (b : Option Pt) (h : (a, b) ∈ l) : l.lookup a = some b := by
  induction l with
  | nil => cases h
  | cons e rest ih =>
    obtain ⟨k, v⟩ := e
    rcases List.mem_cons.mp h with h0 | h0
    · cases h0
      exact parentsLookup_cons_self rest a b
    · have hk : ¬ a = k := by
        intro hak
        subst hak
        exact (List.nodup_cons.mp hnd).1
          (List.mem_map.mpr ⟨(a, b), h0, rfl⟩)
      rw [parentsLookup_cons_ne rest k a v hk]
      exact ih (List.nodup_cons.mp hnd).2 h0

/-- The four neighbour offsets used by the BFS and `getNeighbors`. -/
def bfsDirs : List Pt := [(0, 1), (0, -1), (1, 0), (-1, 0)]

/-- `areNeighbors` is exactly "one 4-directional step apart". -/
theorem areNeighbors_iff_step (a b : Pt) :
    Generator.areNeighbors a.1 a.2 b.1 b.2 = true ↔
      ∃ d ∈ bfsDirs, b = (a.1 + d.1, a.2 + d.2) := by
  constructor
  · intro h
    have h' : (a.1 - b.1).natAbs + (a.2 - b.2).natAbs = 1 := by
      simpa [Generator.areNeighbors] using h
    have hcases : (b.1 = a.1 ∧ b.2 = a.2 + 1) ∨ (b.1 = a.1 ∧ b.2 = a.2 - 1) ∨
        (b.1 = a.1 + 1 ∧ b.2 = a.2) ∨ (b.1 = a.1 - 1 ∧ b.2 = a.2) := by omega
    obtain ⟨b1, b2⟩ := b
    rcases hcases with ⟨h1, h2⟩ | ⟨h1, h2⟩ | ⟨h1, h2⟩ | ⟨h1, h2⟩
    · exact ⟨(0, 1), by simp [bfsDirs], by simp_all⟩
    · exact ⟨(0, -1), by simp [bfsDirs], by simp_all; omega⟩
    · exact ⟨(1, 0), by simp [bfsDirs], by simp_all⟩
    · exact ⟨(-1, 0), by simp [bfsDirs], by simp_all; omega⟩
  · rintro ⟨d, hd, rfl⟩
    have hds : d = ((0 : Int), (1 : Int)) ∨ d = (0, -1) ∨ d = (1, 0) ∨
        d = (-1, 0) := by simpa [bfsDirs] using hd
    rcases hds with rfl | rfl | rfl | rfl <;>
      simp [Generator.areNeighbors]

/-- A 4-directional walk from `u` to `w` in `n` steps, each visited cell
after the first being in bounds and empty-or-destination (exactly the
cells the BFS may enter). -/
inductive BfsWalk (g : Generator) (endP : Pt) : Pt → Pt → Nat → Prop
  | refl (v : Pt) : BfsWalk g endP v v 0
  | step {u v w : Pt} {n : Nat} : BfsWalk g endP u v n →
      Generator.areNeighbors v.1 v.2 w.1 w.2 = true →
      g.grid.isValid w.1 w.2 = true →
      (g.grid.cells w = 0 ∨ w = endP) →
      BfsWalk g endP u w (n + 1)

/-- Prepending an initial step to a walk. -/
theorem BfsWalk_prepend (g : Generator) (endP : Pt) (u v w : Pt) (n : Nat)
    (hadj : Generator.areNeighbors u.1 u.2 v.1 v.2 = true)
    (hv1 : g.grid.isValid v.1 v.2 = true)
    (hv2 : g.grid.cells v = 0 ∨ v = endP)
    (hw : BfsWalk g endP v w n) : BfsWalk g endP u w (n + 1) := by
  induction hw with
  | refl => exact BfsWalk.step (BfsWalk.refl u) hadj hv1 hv2
  | step hprev hadj2 hval2 hcell2 ih =>
    exact BfsWalk.step ih hadj2 hval2 hcell2

/-- The point sequences of the minimality claim: start at `start`, end at
`endP`, move by single 4-directional steps, and touch after the first
point only in-bounds cells that are empty or the destination. -/
def RouteSeq (g : Generator) (start endP : Pt) (s : List Pt) : Prop :=
  s.head? = some start ∧ s.getLast? = some endP ∧
  s.Chain' (fun a b => Generator.areNeighbors a.1 a.2 b.1 b.2 = true) ∧
  ∀ x ∈ s.tail, g.grid.isValid x.1 x.2 = true ∧ (g.grid.cells x = 0 ∨ x = endP)

/-- A route sequence yields a walk with one step fewer than its points. -/
theorem RouteSeq.toWalk (g : Generator) (start endP : Pt) :
    ∀ (s : List Pt), RouteSeq g start endP s →
      BfsWalk g endP start endP (s.length - 1) := by
  have haux : ∀ (t : List Pt) (v : Pt),
      (v :: t).Chain' (fun a b => Generator.areNeighbors a.1 a.2 b.1 b.2 = true) →
      (∀ x ∈ t, g.grid.isValid x.1 x.2 = true ∧ (g.grid.cells x = 0 ∨ x = endP)) →
      (v :: t).getLast? = some endP →
      BfsWalk g endP v endP t.length := by
    intro t
    induction t with
    | nil =>
      intro v _ _ hlast
      have hv : v = endP := by simpa using hlast
      subst hv
      exact BfsWalk.refl v
    | cons w t2 ih =>
      intro v hchain hok hlast
      have hadj : Generator.areNeighbors v.1 v.2 w.1 w.2 = true :=
        (List.chain'_cons.mp hchain).1
      have hwok := hok w (List.mem_cons_self _ _)
      have hrec := ih w (List.chain'_cons.mp hchain).2
        (fun y hy => hok y (List.mem_cons_of_mem _ hy))
        (by simpa [List.getLast?_cons_cons] using hlast)
      exact BfsWalk_prepend g endP v w endP _ hadj hwok.1 hwok.2 hrec
  intro s hs
  obtain ⟨hh, hl, hc, ht⟩ := hs
  cases s with
  | nil => cases hh
  | cons v t =>
    have hv : v = start := by simpa using hh
    subst hv
    simpa using haux t v hc ht hl

/-- The BFS loop invariant: `dep` records each discovered cell's BFS
depth; every entry chains toward `start` through earlier discoveries; the
queue is depth-sorted, spans at most two consecutive depth levels and
bounds all discovered depths; dequeued (closed) cells have all their
admissible neighbours discovered, at depth at most one more. -/
structure BfsInv (g : Generator) (start endP : Pt) (q : List Pt)
    (parents : Parents) (dep : Pt → Nat) : Prop where
  keysNodup : (keysOf parents).Nodup
  entries : ∀ e ∈ parents,
    (e.2 = none ∧ e.1 = start ∧ dep e.1 = 0) ∨
    (∃ u, e.2 = some u ∧ u ∈ keysOf parents ∧ dep e.1 = dep u + 1 ∧
      Generator.areNeighbors u.1 u.2 e.1.1 e.1.2 = true ∧
      g.grid.isValid e.1.1 e.1.2 = true ∧
      (g.grid.cells e.1 = 0 ∨ e.1 = endP))
  startMem : parents.lookup start = some none
  depStart : dep start = 0
  quSub : ∀ v ∈ q, v ∈ keysOf parents
  quSorted : q.Chain' (fun a b => dep a ≤ dep b)
  quSpread : ∀ a ∈ q, ∀ b ∈ q, dep b ≤ dep a + 1
  keysNear : ∀ v ∈ keysOf parents, ∀ u ∈ q, dep v ≤ dep u + 1
  closedCover : ∀ v ∈ keysOf parents, v ∉ q → ∀ d ∈ bfsDirs,
    g.grid.isValid (v.1 + d.1) (v.2 + d.2) = true →
    (g.grid.cells (v.1 + d.1, v.2 + d.2) = 0 ∨ (v.1 + d.1, v.2 + d.2) = endP) →
    (v.1 + d.1, v.2 + d.2) ∈ keysOf parents
  closedNear : ∀ v ∈ keysOf parents, v ∉ q → ∀ d ∈ bfsDirs,
    g.grid.isValid (v.1 + d.1) (v.2 + d.2) = true →
    (g.grid.cells (v.1 + d.1, v.2 + d.2) = 0 ∨ (v.1 + d.1, v.2 + d.2) = endP) →
    dep (v.1 + d.1, v.2 + d.2) ≤ dep v + 1

/-- The invariant holds at the BFS start state. -/
theorem bfsInv_init (g : Generator) (start endP : Pt) :
    BfsInv g start endP [start] [(start, none)] (fun _ => 0) := by
  refine ⟨by simp [keysOf], ?_, parentsLookup_cons_self [] start none, rfl,
    ?_, ?_, ?_, ?_, ?_, ?_⟩
  · intro e he
    rcases List.mem_singleton.mp he with rfl
    exact Or.inl ⟨rfl, rfl, rfl⟩
  · intro v hv
    rcases List.mem_singleton.mp hv with rfl
    simp [keysOf]
  · simp
  · intro a _ b _; exact Nat.le_succ 0
  · intro v _ u _; exact Nat.le_succ 0
  · intro v hv hnq
    exfalso
    apply hnq
    have : v = start := by simpa [keysOf] using hv
    simp [this]
  · intro v hv hnq
    exfalso
    apply hnq
    have : v = start := by simpa [keysOf] using hv
    simp [this]

end Generator

namespace Generator

/-- An unsuccessful lookup means the key is unknown. -/
theorem parentsLookup_isNone_not_mem (l : Parents) (a : Pt)
    (h : (l.lookup a).isNone = true) : a ∉ keysOf l := by
  intro hmem
  rw [Option.isNone_iff_eq_none] at h
  have := parentsLookup_isSome_of_mem_keys l a hmem
  rw [h] at this
  cases this

/-- A key with a successful lookup is known. -/
theorem parentsLookup_isSome_mem (l : Parents) (a : Pt)
    (h : (l.lookup a).isSome = true) : a ∈ keysOf l := by
  cases hl : l.lookup a with
  | none => rw [hl] at h; cases h
  | some b => exact parentsLookup_some_mem_keys l a b hl

/-- What the parent-chain reconstruction returns for a discovered cell: a
duplicate-free, start-rooted, 4-directionally-stepping route of length
`dep v + 1` whose non-start cells are admissible. -/
theorem reconstructGo_spec (g : Generator) (start endP : Pt)
    (parents : Parents) (dep : Pt → Nat)
    (hnd : (keysOf parents).Nodup)
    (hent : ∀ e ∈ parents, (e.2 = none ∧ e.1 = start ∧ dep e.1 = 0) ∨
      (∃ u, e.2 = some u ∧ u ∈ keysOf parents ∧ dep e.1 = dep u + 1 ∧
        Generator.areNeighbors u.1 u.2 e.1.1 e.1.2 = true ∧
        g.grid.isValid e.1.1 e.1.2 = true ∧ (g.grid.cells e.1 = 0 ∨ e.1 = endP))) :
    ∀ (n : Nat) (v : Pt), v ∈ keysOf parents → dep v = n →
      ∀ (fuel : Nat), n ≤ fuel → ∀ (acc : List Pt),
      ∃ L : List Pt, reconstructGo parents fuel v acc = L ++ acc ∧
        L.length = n + 1 ∧ L.head? = some start ∧ L.getLast? = some v ∧
        L.Chain' (fun a b => Generator.areNeighbors a.1 a.2 b.1 b.2 = true) ∧
        (∀ x ∈ L, x ∈ keysOf parents ∧ dep x ≤ n ∧ (x = v ∨ dep x < n)) ∧
        (∀ x ∈ L, x ≠ start → g.grid.isValid x.1 x.2 = true ∧
          (g.grid.cells x = 0 ∨ x = endP)) ∧
        L.Nodup := by
  intro n
  induction n using Nat.strong_induction_on with
  | _ n ih =>
    intro v hv hdep fuel hfuel acc
    obtain ⟨⟨v', par⟩, he, hv'⟩ := List.mem_map.mp hv
    have hvv : v' = v := hv'
    subst hvv
    have hlook : parents.lookup v' = some par := parentsLookup_of_mem parents hnd v' par he
    rcases hent _ he with ⟨hpar, hstart, hdep0⟩ | ⟨u, hpar, hu, hdepu, hadj, hval, hcell⟩
    · cases hpar
      cases hstart
      have hn0 : n = 0 := by rw [← hdep]; exact hdep0
      subst hn0
      have hrec : reconstructGo parents fuel v' acc = v' :: acc := by
        cases fuel with
        | zero => rfl
        | succ f => simp [reconstructGo, hlook]
      refine ⟨[v'], by simpa using hrec, rfl, rfl, rfl, by simp, ?_, ?_, by simp⟩
      · intro x hx
        rcases List.mem_singleton.mp hx with rfl
        exact ⟨hv, by omega, Or.inl rfl⟩
      · intro x hx hne
        rcases List.mem_singleton.mp hx with rfl
        exact absurd rfl hne
    · cases hpar
      have hn : n = dep u + 1 := by rw [← hdep]; exact hdepu
      obtain ⟨f, rfl⟩ : ∃ f, fuel = f + 1 := by
        cases fuel with
        | zero => omega
        | succ f => exact ⟨f, rfl⟩
      have hstep : reconstructGo parents (f + 1) v' acc =
          reconstructGo parents f u (v' :: acc) := by
        simp [reconstructGo, hlook]
      obtain ⟨L', hL'eq, hL'len, hL'head, hL'last, hL'chain, hL'mem, hL'ok, hL'nd⟩ :=
        ih (dep u) (by omega) u hu rfl f (by omega) (v' :: acc)
      refine ⟨L' ++ [v'], ?_, ?_, ?_, by simp, ?_, ?_, ?_, ?_⟩
      · rw [hstep, hL'eq]
        simp
      · simp [hL'len, hn]
      · cases L' with
        | nil => cases hL'head
        | cons a t => simpa using hL'head
      · rw [List.chain'_append]
        refine ⟨hL'chain, by simp, ?_⟩
        intro x hx y hy
        rw [hL'last] at hx
        cases hx
        have hyv : v' = y := by simpa using hy
        subst hyv
        exact hadj
      · intro x hx
        rcases List.mem_append.mp hx with hx | hx
        · obtain ⟨hk, hd, _⟩ := hL'mem x hx
          exact ⟨hk, by omega, Or.inr (by omega)⟩
        · rcases List.mem_singleton.mp hx with rfl
          exact ⟨hv, by omega, Or.inl rfl⟩
      · intro x hx hne
        rcases List.mem_append.mp hx with hx | hx
        · exact hL'ok x hx hne
        · rcases List.mem_singleton.mp hx with rfl
          exact ⟨hval, hcell⟩
      · rw [List.nodup_append]
        refine ⟨hL'nd, by simp, ?_⟩
        intro x hx hx2
        rcases List.mem_singleton.mp hx2 with rfl
        obtain ⟨_, _, hor⟩ := hL'mem x hx
        rcases hor with rfl | hlt
        · omega
        · omega

/-- Characterisation of one dequeued cell's neighbour scan: the queue
gains exactly the freshly discovered admissible neighbours (in direction
order), the parent map gains exactly those cells with the dequeued cell
as parent, and every admissible neighbour is discovered afterwards. -/
theorem bfsEnqueueGo_spec (g : Generator) (endP p : Pt) :
    ∀ (ds : List Pt) (q : List Pt) (parents : Parents),
      ∃ ws : List Pt,
        (ds.foldl (fun (st : List Pt × Parents) d =>
          let np : Pt := (p.1 + d.1, p.2 + d.2)
          if (st.2.lookup np).isNone then
            if g.grid.isValid np.1 np.2 then
              if g.grid.cells np == 0 || np == endP then
                (st.1 ++ [np], (np, some p) :: st.2)
              else st
            else st
          else st) (q, parents)) =
          (q ++ ws, (ws.map fun w => (w, some p)).reverse ++ parents) ∧
        ws.Nodup ∧
        (∀ w ∈ ws, w ∉ keysOf parents ∧ g.grid.isValid w.1 w.2 = true ∧
          (g.grid.cells w = 0 ∨ w = endP) ∧
          ∃ d ∈ ds, w = (p.1 + d.1, p.2 + d.2)) ∧
        (∀ d ∈ ds, g.grid.isValid (p.1 + d.1) (p.2 + d.2) = true →
          (g.grid.cells (p.1 + d.1, p.2 + d.2) = 0 ∨ (p.1 + d.1, p.2 + d.2) = endP) →
          (p.1 + d.1, p.2 + d.2) ∈ keysOf parents ∨ (p.1 + d.1, p.2 + d.2) ∈ ws) := by
  intro ds
  induction ds with
  | nil =>
    intro q parents
    exact ⟨[], by simp, by simp, by simp, by simp⟩
  | cons d ds' ih =>
    intro q parents
    rw [List.foldl_cons]
    by_cases h1 : ((parents.lookup (p.1 + d.1, p.2 + d.2)).isNone : Bool) = true
    · by_cases h2 : g.grid.isValid (p.1 + d.1) (p.2 + d.2) = true
      · by_cases h3 : (g.grid.cells (p.1 + d.1, p.2 + d.2) == 0 ||
            (p.1 + d.1, p.2 + d.2) == endP) = true
        · simp only [h1, h2, h3, if_true]
          obtain ⟨ws', heq, hnd, hprops, hcover⟩ :=
            ih (q ++ [(p.1 + d.1, p.2 + d.2)])
              (((p.1 + d.1, p.2 + d.2), some p) :: parents)
          refine ⟨(p.1 + d.1, p.2 + d.2) :: ws', ?_, ?_, ?_, ?_⟩
          · rw [heq]
            simp
          · rw [List.nodup_cons]
            refine ⟨?_, hnd⟩
            intro hmem
            have := (hprops _ hmem).1
            simp [keysOf] at this
          · intro w hw
            rcases List.mem_cons.mp hw with rfl | hw'
            · refine ⟨parentsLookup_isNone_not_mem _ _ h1, h2, ?_, ⟨d, by simp, rfl⟩⟩
              rcases Bool.or_eq_true _ _ |>.mp h3 with hc | hc
              · exact Or.inl (by simpa using hc)
              · exact Or.inr (by simpa using hc)
            · obtain ⟨hnk, hvv, hcc, dd, hdd, hw⟩ := hprops w hw'
              refine ⟨?_, hvv, hcc, ⟨dd, List.mem_cons_of_mem _ hdd, hw⟩⟩
              intro hk
              exact hnk (by simp [keysOf]; right; simpa [keysOf] using hk)
          · intro d2 hd2 hvv hcc
            rcases List.mem_cons.mp hd2 with rfl | hd2'
            · exact Or.inr (List.mem_cons_self _ _)
            · rcases hcover d2 hd2' hvv hcc with hk | hw
              · simp only [keysOf, List.map_cons] at hk
                rcases List.mem_cons.mp hk with heqk | hk'
                · exact Or.inr (List.mem_cons.mpr (Or.inl heqk))
                · exact Or.inl hk'
              · exact Or.inr (List.mem_cons_of_mem _ hw)
        · simp only [h1, h2, if_true, h3, if_false]
          obtain ⟨ws', heq, hnd, hprops, hcover⟩ := ih q parents
          refine ⟨ws', heq, hnd, ?_, ?_⟩
          · intro w hw
            obtain ⟨hnk, hvv, hcc, dd, hdd, hww⟩ := hprops w hw
            exact ⟨hnk, hvv, hcc, ⟨dd, List.mem_cons_of_mem _ hdd, hww⟩⟩
          · intro d2 hd2 hvv hcc
            rcases List.mem_cons.mp hd2 with rfl | hd2'
            · exfalso
              apply h3
              rcases hcc with hc | hc
              · exact Bool.or_eq_true _ _ |>.mpr (Or.inl (by simpa using hc))
              · exact Bool.or_eq_true _ _ |>.mpr (Or.inr (by simpa using hc))
            · exact hcover d2 hd2' hvv hcc
      · simp only [h1, if_true, h2, if_false]
        obtain ⟨ws', heq, hnd, hprops, hcover⟩ := ih q parents
        refine ⟨ws', heq, hnd, ?_, ?_⟩
        · intro w hw
          obtain ⟨hnk, hvv, hcc, dd, hdd, hww⟩ := hprops w hw
          exact ⟨hnk, hvv, hcc, ⟨dd, List.mem_cons_of_mem _ hdd, hww⟩⟩
        · intro d2 hd2 hvv hcc
          rcases List.mem_cons.mp hd2 with rfl | hd2'
          · exact absurd hvv h2
          · exact hcover d2 hd2' hvv hcc
    · simp only [h1, if_false]
      obtain ⟨ws', heq, hnd, hprops, hcover⟩ := ih q parents
      refine ⟨ws', heq, hnd, ?_, ?_⟩
      · intro w hw
        obtain ⟨hnk, hvv, hcc, dd, hdd, hww⟩ := hprops w hw
        exact ⟨hnk, hvv, hcc, ⟨dd, List.mem_cons_of_mem _ hdd, hww⟩⟩
      · intro d2 hd2 hvv hcc
        rcases List.mem_cons.mp hd2 with rfl | hd2'
        · left
          apply parentsLookup_isSome_mem
          cases hlk : (parents.lookup (p.1 + d2.1, p.2 + d2.2)) with
          | none => exact absurd (by simp [hlk]) h1
          | some b => simp
        · exact hcover d2 hd2' hvv hcc

end Generator

namespace Generator

/-- The last element of a list is a member. -/
theorem mem_of_getLast_some {α : Type} :
    ∀ (l : List α) (a : α), l.getLast? = some a → a ∈ l := by
  intro l
  induction l with
  | nil => intro a h; cases h
  | cons b t ih =>
    intro a h
    cases t with
    | nil =>
      have hb : b = a := by simpa using h
      simp [hb]
    | cons c t2 =>
      rw [List.getLast?_cons_cons] at h
      exact List.mem_cons_of_mem _ (ih a h)

/-- Keys of an appended association list. -/
theorem keysOf_append (l m : Parents) :
    keysOf (l ++ m) = keysOf l ++ keysOf m := List.map_append _ _ _

/-- A lookup skips an initial block that does not hold the key. -/
theorem lookup_append_of_not_mem (m : Parents) (a : Pt) :
    ∀ (l : Parents), a ∉ keysOf l → (l ++ m).lookup a = m.lookup a := by
  intro l
  induction l with
  | nil => intro _; rfl
  | cons e t ih =>
    intro h
    simp only [keysOf, List.map_cons, List.mem_cons, not_or] at h
    have hb : (a == e.1) = false := beq_eq_false_iff_ne.mpr h.1
    simp only [List.cons_append, List.lookup, hb]
    exact ih (by simpa [keysOf] using h.2)

/-- The keys contributed by a freshly discovered block of cells. -/
theorem keysOf_newBlock (ws : List Pt) (p : Pt) :
    keysOf ((ws.map fun w => (w, some p)).reverse) = ws.reverse := by
  unfold keysOf
  rw [List.map_reverse, List.map_map]
  have hcomp : (Prod.fst ∘ fun w => (w, some p)) = @id Pt := rfl
  rw [hcomp, List.map_id]

/-- In a depth-sorted queue the head has minimal depth. -/
theorem chain_head_min (dep : Pt → Nat) :
    ∀ (q : List Pt) (p : Pt), (p :: q).Chain' (fun a b => dep a ≤ dep b) →
      ∀ u ∈ p :: q, dep p ≤ dep u := by
  intro q
  induction q with
  | nil =>
    intro p _ u hu
    rcases List.mem_singleton.mp hu with rfl
    exact Nat.le_refl _
  | cons b t ih =>
    intro p hc u hu
    have h1 : dep p ≤ dep b := (List.chain'_cons.mp hc).1
    rcases List.mem_cons.mp hu with rfl | hu'
    · exact Nat.le_refl _
    · exact Nat.le_trans h1 (ih b (List.chain'_cons.mp hc).2 u hu')

/-- A constant-depth list is trivially depth-sorted. -/
theorem chain_const (dep : Pt → Nat) (c : Nat) :
    ∀ (l : List Pt), (∀ a ∈ l, dep a = c) →
      l.Chain' (fun a b => dep a ≤ dep b) := by
  intro l
  induction l with
  | nil => intro _; exact List.chain'_nil
  | cons a t ih =>
    intro h
    cases t with
    | nil => simp
    | cons b t2 =>
      rw [List.chain'_cons]
      refine ⟨?_, ih ?_⟩
      · have ha := h a (List.mem_cons_self _ _)
        have hb := h b (List.mem_cons_of_mem _ (List.mem_cons_self _ _))
        omega
      · intro x hx
        exact h x (List.mem_cons_of_mem _ hx)

/-- Every discovered cell roots a strictly descending parent chain of
distinct discovered cells, so its depth is below the entry count. -/
theorem dep_lt_length (g : Generator) (start endP : Pt) (parents : Parents)
    (dep : Pt → Nat)
    (hnd : (keysOf parents).Nodup)
    (hent : ∀ e ∈ parents, (e.2 = none ∧ e.1 = start ∧ dep e.1 = 0) ∨
      (∃ u, e.2 = some u ∧ u ∈ keysOf parents ∧ dep e.1 = dep u + 1 ∧
        Generator.areNeighbors u.1 u.2 e.1.1 e.1.2 = true ∧
        g.grid.isValid e.1.1 e.1.2 = true ∧ (g.grid.cells e.1 = 0 ∨ e.1 = endP))) :
    ∀ v ∈ keysOf parents, dep v < parents.length := by
  have haux : ∀ (n : Nat) (v : Pt), v ∈ keysOf parents → dep v = n →
      ∃ L : List Pt, L.Nodup ∧ L.length = n + 1 ∧
        ∀ x ∈ L, x ∈ keysOf parents ∧ dep x ≤ n := by
    intro n
    induction n using Nat.strong_induction_on with
    | _ n ih =>
      intro v hv hdep
      obtain ⟨⟨v', par⟩, he, hv'⟩ := List.mem_map.mp hv
      have hvv : v' = v := hv'
      subst hvv
      rcases hent _ he with ⟨_, _, hdep0⟩ | ⟨u, _, hu, hdepu, _, _, _⟩
      · have hdep0' : dep v' = 0 := hdep0
        have hn0 : n = 0 := by omega
        refine ⟨[v'], by simp, by simp [hn0], ?_⟩
        intro x hx
        rcases List.mem_singleton.mp hx with rfl
        exact ⟨hv, by omega⟩
      · have hdepu' : dep v' = dep u + 1 := hdepu
        have hn : n = dep u + 1 := by omega
        obtain ⟨L', hnd', hlen', hmem'⟩ := ih (dep u) (by omega) u hu rfl
        refine ⟨v' :: L', ?_, by simp [hlen']; omega, ?_⟩
        · rw [List.nodup_cons]
          refine ⟨?_, hnd'⟩
          intro hvL
          have := (hmem' v' hvL).2
          omega
        · intro x hx
          rcases List.mem_cons.mp hx with rfl | hx'
          · exact ⟨hv, by omega⟩
          · obtain ⟨hk, hd⟩ := hmem' x hx'
            exact ⟨hk, by omega⟩
  intro v hv
  obtain ⟨L, hLnd, hLlen, hLmem⟩ := haux (dep v) v hv rfl
  have hsub : L ⊆ keysOf parents := fun x hx => (hLmem x hx).1
  have hle := (List.subperm_of_subset hLnd hsub).length_le
  have hkl : (keysOf parents).length = parents.length := List.length_map _ _
  omega

/-- A walk from `start` no longer than every queued depth reaches only
discovered cells, at depth at most the walk's length. -/
theorem walk_bound (g : Generator) (start endP : Pt) (q : List Pt)
    (parents : Parents) (dep : Pt → Nat)
    (inv : BfsInv g start endP q parents dep) :
    ∀ (v : Pt) (n : Nat), BfsWalk g endP start v n → (∀ u ∈ q, n ≤ dep u) →
      v ∈ keysOf parents ∧ dep v ≤ n := by
  intro v n hw
  induction hw with
  | refl =>
    intro _
    refine ⟨parentsLookup_some_mem_keys _ _ _ inv.startMem, ?_⟩
    rw [inv.depStart]
  | @step v2 w2 n2 hprev hadj hval hcell ih =>
    intro hq
    obtain ⟨hvk, hvd⟩ := ih (fun u hu => Nat.le_trans (Nat.le_succ n2) (hq u hu))
    by_cases hvq : v2 ∈ q
    · have := hq v2 hvq
      omega
    · obtain ⟨d, hd, rfl⟩ := (areNeighbors_iff_step v2 w2).mp hadj
      refine ⟨inv.closedCover v2 hvk hvq d hd hval hcell, ?_⟩
      have := inv.closedNear v2 hvk hvq d hd hval hcell
      omega

end Generator

namespace Generator

/-- The head of a list is a member. -/
theorem mem_of_head_some {α : Type} (l : List α) (a : α)
    (h : l.head? = some a) : a ∈ l := by
  cases l with
  | nil => cases h
  | cons b t =>
    have hb : b = a := by simpa using h
    simp [hb]

/-- Depth-sortedness transfers along a pointwise-equal depth function. -/
theorem chain_congr (f g : Pt → Nat) :
    ∀ (l : List Pt), (∀ a ∈ l, f a = g a) →
      l.Chain' (fun a b => f a ≤ f b) → l.Chain' (fun a b => g a ≤ g b) := by
  intro l
  induction l with
  | nil => intro _ _; exact List.chain'_nil
  | cons a t ih =>
    intro h hc
    cases t with
    | nil => simp
    | cons b t2 =>
      rw [List.chain'_cons] at hc ⊢
      refine ⟨?_, ih (fun x hx => h x (List.mem_cons_of_mem _ hx)) hc.2⟩
      have ha := h a (List.mem_cons_self _ _)
      have hb := h b (List.mem_cons_of_mem _ (List.mem_cons_self _ _))
      omega

/-- The BFS invariant survives one dequeue, for any updated depth
function that marks the fresh cells one deeper than the dequeued cell. -/
theorem bfsInv_step_aux (g : Generator) (start endP p : Pt) (q : List Pt)
    (parents : Parents) (dep dep' : Pt → Nat) (ws : List Pt)
    (inv : BfsInv g start endP (p :: q) parents dep)
    (hnd : ws.Nodup)
    (hprops : ∀ w ∈ ws, w ∉ keysOf parents ∧ g.grid.isValid w.1 w.2 = true ∧
      (g.grid.cells w = 0 ∨ w = endP) ∧ ∃ d ∈ bfsDirs, w = (p.1 + d.1, p.2 + d.2))
    (hcover : ∀ d ∈ bfsDirs, g.grid.isValid (p.1 + d.1) (p.2 + d.2) = true →
      (g.grid.cells (p.1 + d.1, p.2 + d.2) = 0 ∨ (p.1 + d.1, p.2 + d.2) = endP) →
      (p.1 + d.1, p.2 + d.2) ∈ keysOf parents ∨ (p.1 + d.1, p.2 + d.2) ∈ ws)
    (hW : ∀ x ∈ ws, dep' x = dep p + 1)
    (hO : ∀ x, x ∉ ws → dep' x = dep x) :
    BfsInv g start endP (q ++ ws)
      ((ws.map fun w => (w, some p)).reverse ++ parents) dep' := by
  have fresh : ∀ w ∈ ws, w ∉ keysOf parents := fun w hw => (hprops w hw).1
  have hPk : p ∈ keysOf parents := inv.quSub p (List.mem_cons_self _ _)
  have hPnw : p ∉ ws := fun h => fresh p h hPk
  have hqk : ∀ v ∈ q, v ∈ keysOf parents :=
    fun v hv => inv.quSub v (List.mem_cons_of_mem _ hv)
  have hdepP : dep' p = dep p := hO p hPnw
  have hdK : ∀ x ∈ keysOf parents, dep' x = dep x :=
    fun x hx => hO x (fun hw => fresh x hw hx)
  have headmin : ∀ u ∈ p :: q, dep p ≤ dep u := chain_head_min dep q p inv.quSorted
  have hK' : ∀ x, x ∈ keysOf ((ws.map fun w => (w, some p)).reverse ++ parents) ↔
      (x ∈ ws ∨ x ∈ keysOf parents) := by
    intro x
    rw [keysOf_append, keysOf_newBlock, List.mem_append, List.mem_reverse]
  have hSk : start ∈ keysOf parents := parentsLookup_some_mem_keys _ _ _ inv.startMem
  have hSnw : start ∉ ws := fun h => fresh start h hSk
  refine ⟨?_, ?_, ?_, ?_, ?_, ?_, ?_, ?_, ?_, ?_⟩
  · rw [keysOf_append, keysOf_newBlock, List.nodup_append]
    exact ⟨List.nodup_reverse.mpr hnd, inv.keysNodup,
      fun x hx hx2 => fresh x (List.mem_reverse.mp hx) hx2⟩
  · intro e he
    rcases List.mem_append.mp he with hew | hep
    · have hew' : e ∈ ws.map fun w => (w, some p) := List.mem_reverse.mp hew
      obtain ⟨w, hwws, rfl⟩ := List.mem_map.mp hew'
      obtain ⟨_, hval, hcell, d, hd, hwd⟩ := hprops w hwws
      refine Or.inr ⟨p, rfl, (hK' p).mpr (Or.inr hPk), ?_, ?_, hval, hcell⟩
      · show dep' w = dep' p + 1
        rw [hW w hwws, hdepP]
      · exact (areNeighbors_iff_step p w).mpr ⟨d, hd, hwd⟩
    · rcases inv.entries e hep with ⟨h1, h2, h3⟩ | ⟨u, h1, h2, h3, h4, h5, h6⟩
      · refine Or.inl ⟨h1, h2, ?_⟩
        have hek : e.1 ∈ keysOf parents := List.mem_map_of_mem Prod.fst hep
        rw [hdK e.1 hek]
        exact h3
      · refine Or.inr ⟨u, h1, (hK' u).mpr (Or.inr h2), ?_, h4, h5, h6⟩
        have hek : e.1 ∈ keysOf parents := List.mem_map_of_mem Prod.fst hep
        rw [hdK e.1 hek, hdK u h2]
        exact h3
  · have hnm : start ∉ keysOf ((ws.map fun w => (w, some p)).reverse) := by
      rw [keysOf_newBlock]
      intro h
      exact hSnw (List.mem_reverse.mp h)
    rw [lookup_append_of_not_mem parents start _ hnm]
    exact inv.startMem
  · rw [hO start hSnw]
    exact inv.depStart
  · intro v hv
    rcases List.mem_append.mp hv with hvq | hvw
    · exact (hK' v).mpr (Or.inr (hqk v hvq))
    · exact (hK' v).mpr (Or.inl hvw)
  · rw [List.chain'_append]
    refine ⟨?_, chain_const dep' (dep p + 1) ws hW, ?_⟩
    · exact chain_congr dep dep' q (fun a ha => (hdK a (hqk a ha)).symm)
        (List.Chain'.tail inv.quSorted)
    · intro x hx y hy
      rw [Option.mem_def] at hx hy
      have hxq : x ∈ q := mem_of_getLast_some q x hx
      have hyw : y ∈ ws := mem_of_head_some ws y hy
      rw [hdK x (hqk x hxq), hW y hyw]
      exact inv.quSpread p (List.mem_cons_self _ _) x (List.mem_cons_of_mem _ hxq)
  · intro a ha b hb
    rcases List.mem_append.mp ha with haq | haw <;>
      rcases List.mem_append.mp hb with hbq | hbw
    · rw [hdK a (hqk a haq), hdK b (hqk b hbq)]
      exact inv.quSpread a (List.mem_cons_of_mem _ haq) b (List.mem_cons_of_mem _ hbq)
    · rw [hdK a (hqk a haq), hW b hbw]
      have := headmin a (List.mem_cons_of_mem _ haq)
      omega
    · rw [hW a haw, hdK b (hqk b hbq)]
      have := inv.quSpread p (List.mem_cons_self _ _) b (List.mem_cons_of_mem _ hbq)
      omega
    · rw [hW a haw, hW b hbw]
      omega
  · intro v hv u hu
    rcases (hK' v).mp hv with hvw | hvk <;>
      rcases List.mem_append.mp hu with huq | huw
    · rw [hW v hvw, hdK u (hqk u huq)]
      have := headmin u (List.mem_cons_of_mem _ huq)
      omega
    · rw [hW v hvw, hW u huw]
      omega
    · rw [hdK v hvk, hdK u (hqk u huq)]
      exact inv.keysNear v hvk u (List.mem_cons_of_mem _ huq)
    · rw [hdK v hvk, hW u huw]
      have := inv.keysNear v hvk p (List.mem_cons_self _ _)
      omega
  · intro v hv hnq d hd hval hcell
    rcases (hK' v).mp hv with hvw | hvk
    · exact absurd (List.mem_append.mpr (Or.inr hvw)) hnq
    · by_cases hvp : v = p
      · subst hvp
        rcases hcover d hd hval hcell with hk | hw
        · exact (hK' _).mpr (Or.inr hk)
        · exact (hK' _).mpr (Or.inl hw)
      · have hvnotq : v ∉ p :: q := by
          intro hmem
          rcases List.mem_cons.mp hmem with rfl | hq2
          · exact hvp rfl
          · exact hnq (List.mem_append.mpr (Or.inl hq2))
        exact (hK' _).mpr (Or.inr (inv.closedCover v hvk hvnotq d hd hval hcell))
  · intro v hv hnq d hd hval hcell
    rcases (hK' v).mp hv with hvw | hvk
    · exact absurd (List.mem_append.mpr (Or.inr hvw)) hnq
    · have hvnw : v ∉ ws := fun h => fresh v h hvk
      rw [hO v hvnw]
      by_cases hvp : v = p
      · subst hvp
        by_cases hww : ((v.1 + d.1, v.2 + d.2) : Pt) ∈ ws
        · have := hW _ hww
          omega
        · rcases hcover d hd hval hcell with hk | hw
          · rw [hdK _ hk]
            have := inv.keysNear _ hk v (List.mem_cons_self _ _)
            omega
          · exact absurd hw hww
      · have hvnotq : v ∉ p :: q := by
          intro hmem
          rcases List.mem_cons.mp hmem with rfl | hq2
          · exact hvp rfl
          · exact hnq (List.mem_append.mpr (Or.inl hq2))
        have hcov := inv.closedCover v hvk hvnotq d hd hval hcell
        rw [hdK _ hcov]
        exact inv.closedNear v hvk hvnotq d hd hval hcell

/-- One BFS dequeue step: the enqueue scan appends the fresh cells and
some updated depth function keeps the invariant. -/
theorem bfsInv_step (g : Generator) (start endP p : Pt) (q : List Pt)
    (parents : Parents) (dep : Pt → Nat)
    (inv : BfsInv g start endP (p :: q) parents dep) :
    ∃ (ws : List Pt) (dep2 : Pt → Nat),
      bfsEnqueue g endP p q parents =
        (q ++ ws, (ws.map fun w => (w, some p)).reverse ++ parents) ∧
      BfsInv g start endP (q ++ ws)
        ((ws.map fun w => (w, some p)).reverse ++ parents) dep2 := by
  obtain ⟨ws, heq, hnd, hprops, hcover⟩ := bfsEnqueueGo_spec g endP p bfsDirs q parents
  refine ⟨ws, fun v => if v ∈ ws then dep p + 1 else dep v, heq, ?_⟩
  exact bfsInv_step_aux g start endP p q parents dep _ ws inv hnd hprops hcover
    (fun x hx => if_pos hx) (fun x hx => if_neg hx)

end Generator

namespace Generator

/-- What a successful BFS loop run returns, given the invariant: a
start-rooted, duplicate-free admissible route to the destination of
minimal length among all admissible routes. -/
theorem bfsLoop_spec (g : Generator) (start endP : Pt) :
    ∀ (fuel : Nat) (q : List Pt) (parents : Parents) (dep : Pt → Nat),
      BfsInv g start endP q parents dep →
      ∀ (s : List Pt), bfsLoop g endP fuel q parents = some s →
      s.head? = some start ∧ s.getLast? = some endP ∧
      s.Chain' (fun a b => Generator.areNeighbors a.1 a.2 b.1 b.2 = true) ∧
      s.Nodup ∧
      (∀ x ∈ s, x ≠ start → g.grid.isValid x.1 x.2 = true ∧
        (g.grid.cells x = 0 ∨ x = endP)) ∧
      (∀ t, RouteSeq g start endP t → s.length ≤ t.length) := by
  intro fuel
  induction fuel with
  | zero =>
    intro q parents dep _ s h
    cases h
  | succ f ih =>
    intro q parents dep inv s h
    cases q with
    | nil => cases h
    | cons p q' =>
      simp only [bfsLoop] at h
      by_cases hpe : (p == endP) = true
      · rw [if_pos hpe] at h
        have hpeq : p = endP := by simpa using hpe
        subst hpeq
        have hpk : p ∈ keysOf parents := inv.quSub p (List.mem_cons_self _ _)
        have hdlt : dep p < parents.length :=
          dep_lt_length g start p parents dep inv.keysNodup inv.entries p hpk
        obtain ⟨L, hLeq, hLlen, hLhead, hLlast, hLchain, hLmem, hLok, hLnd⟩ :=
          reconstructGo_spec g start p parents dep inv.keysNodup inv.entries
            (dep p) p hpk rfl (parents.length + 1) (by omega) []
        have hs : s = L := by
          rw [List.append_nil] at hLeq
          have := Option.some.inj h
          rw [← this, hLeq]
        subst hs
        refine ⟨hLhead, hLlast, hLchain, hLnd, hLok, ?_⟩
        intro t ht
        have hw := RouteSeq.toWalk g start p t ht
        have ht1 : 1 ≤ t.length := by
          obtain ⟨hh, _, _, _⟩ := ht
          cases t with
          | nil => cases hh
          | cons a t2 => simp
        have hdle : dep p ≤ t.length - 1 := by
          rcases Nat.lt_or_ge (t.length - 1) (dep p) with hlt | hge
          · have hqmin : ∀ u ∈ p :: q', t.length - 1 ≤ dep u := by
              intro u hu
              have := chain_head_min dep q' p inv.quSorted u hu
              omega
            obtain ⟨_, hdle2⟩ := walk_bound g start p (p :: q') parents dep inv
              p (t.length - 1) hw hqmin
            omega
          · exact hge
        omega
      · rw [if_neg hpe] at h
        obtain ⟨ws, dep2, henq, inv2⟩ := bfsInv_step g start endP p q' parents dep inv
        rw [henq] at h
        exact ih _ _ dep2 inv2 s h

/-- `Generator.findShortestPath` soundness: a returned route runs from
`start` to `endP` in single 4-directional steps, repeats no cell, stays
on in-bounds cells that are empty or the destination (the start cell
excepted), and no admissible route is shorter. -/
theorem findShortestPath_spec (g : Generator) (start endP : Pt) (s : List Pt)
    (h : findShortestPath g start endP = some s) :
    s.head? = some start ∧ s.getLast? = some endP ∧
    s.Chain' (fun a b => Generator.areNeighbors a.1 a.2 b.1 b.2 = true) ∧
    s.Nodup ∧
    (∀ x ∈ s, x ≠ start → g.grid.isValid x.1 x.2 = true ∧
      (g.grid.cells x = 0 ∨ x = endP)) ∧
    (∀ t, RouteSeq g start endP t → s.length ≤ t.length) :=
  bfsLoop_spec g start endP (g.grid.size * g.grid.size + 2) [start] [(start, none)]
    (fun _ => 0) (bfsInv_init g start endP) s h

end Generator

namespace Generator

/-- `addPair` either leaves the path list unchanged or appends exactly
one path, whose points are a route returned by `findShortestPath` on the
same grid with at least 3 points. -/
theorem addPair_commit (gen : Generator) :
    (addPair gen).1.grid.paths = gen.grid.paths ∨
    ∃ (gen2 : Generator) (st en : Pt) (pts : List Pt),
      findShortestPath gen2 st en = some pts ∧ gen2.grid = gen.grid ∧
      3 ≤ pts.length ∧
      (addPair gen).1.grid.paths = gen.grid.paths ++
        [{ id := (gen.grid.paths.length : Int) + 1, points := pts,
           pointTypes := List.replicate pts.length 0,
           color := getDistinctColor ((gen.grid.paths.length : Int) + 1) }] := by
  simp only [addPair]
  split
  · exact Or.inl rfl
  · split
    · exact Or.inl rfl
    · split
      next pathPoints heq =>
        split
        next h3 =>
          refine Or.inr ⟨_, _, _, pathPoints, heq, rfl, h3, ?_⟩
          simp [foldl_setCell_paths]
        next => exact Or.inl rfl
      next heq => exact Or.inl rfl

end Generator

/-- A concrete generator on an empty 2-by-2 grid for exercising the BFS
theorem. -/
def c7wgen : Generator := Generator.new (Grid.new 2) false 1

/-- C7: `findShortestPath(start, end)` (called with an in-bounds, empty
start cell) returns null or a point sequence that begins at `start`,
ends at `end`, moves by single 4-directional steps, visits no cell
twice, passes only through in-bounds cells that are empty in the current
grid (the destination cell excepted), and is of minimal length among all
such sequences; and `addPair` commits the returned route as a new path
only when its length is at least 3. -/
theorem findShortestPath_correct (g : Generator) (start endP : Pt) (s : List Pt)
    (hs : Generator.findShortestPath g start endP = some s)
    (hv : g.grid.isValid start.1 start.2 = true)
    (he : g.grid.cells start = 0) :
    (s.head? = some start ∧ s.getLast? = some endP ∧
     s.Chain' (fun a b => Generator.areNeighbors a.1 a.2 b.1 b.2 = true) ∧
     s.Nodup ∧
     (∀ x ∈ s, g.grid.isValid x.1 x.2 = true) ∧
     (∀ x ∈ s, x ≠ endP → g.grid.cells x = 0) ∧
     (∀ t, Generator.RouteSeq g start endP t → s.length ≤ t.length)) ∧
    (∀ gen : Generator, (Generator.addPair gen).1.grid.paths = gen.grid.paths ∨
      ∃ (gen2 : Generator) (st en : Pt) (pts : List Pt),
        Generator.findShortestPath gen2 st en = some pts ∧
        gen2.grid = gen.grid ∧ 3 ≤ pts.length ∧
        (Generator.addPair gen).1.grid.paths = gen.grid.paths ++
          [{ id := (gen.grid.paths.length : Int) + 1, points := pts,
             pointTypes := List.replicate pts.length 0,
             color := Generator.getDistinctColor ((gen.grid.paths.length : Int) + 1) }]) := by
  obtain ⟨h1, h2, h3, h4, h5, h6⟩ := Generator.findShortestPath_spec g start endP s hs
  refine ⟨⟨h1, h2, h3, h4, ?_, ?_, h6⟩, fun gen => Generator.addPair_commit gen⟩
  · intro x hx
    by_cases hxs : x = start
    · subst hxs
      exact hv
    · exact (h5 x hx hxs).1
  · intro x hx hxe
    by_cases hxs : x = start
    · subst hxs
      exact he
    · rcases (h5 x hx hxs).2 with h0 | hE
      · exact h0
      · exact absurd hE hxe

/-- Witness for the BFS theorem on the empty 2-by-2 grid: the two-cell
route from the origin to its right neighbour is returned and no
admissible route is shorter. -/
theorem findShortestPath_correct_witness :
    Generator.findShortestPath c7wgen ((0 : Int), (0 : Int)) ((0 : Int), (1 : Int)) =
      some [((0 : Int), (0 : Int)), ((0 : Int), (1 : Int))] ∧
    c7wgen.grid.isValid 0 0 = true ∧
    c7wgen.grid.cells ((0 : Int), (0 : Int)) = 0 ∧
    [((0 : Int), (0 : Int)), ((0 : Int), (1 : Int))].Nodup ∧
    (∀ t, Generator.RouteSeq c7wgen ((0 : Int), (0 : Int)) ((0 : Int), (1 : Int)) t →
      2 ≤ t.length) :=
  have h := findShortestPath_correct c7wgen ((0 : Int), (0 : Int)) ((0 : Int), (1 : Int))
    [((0 : Int), (0 : Int)), ((0 : Int), (1 : Int))] (by rfl) (by rfl) (by rfl)
  ⟨by rfl, by rfl, by rfl, h.1.2.2.2.1, fun t ht => h.1.2.2.2.2.2.2 t ht⟩

/-! ### The cell-exclusivity invariant (C5) -/

/-- The per-grid generation invariant: every live path's points are in
bounds, every point's cell carries the owning path's id, ids are
positive, and ids are pairwise distinct. -/
structure GridInv (g : Grid) : Prop where
  inb : ∀ path ∈ g.paths, ∀ p ∈ path.points, g.isValid p.1 p.2 = true
  owner : ∀ path ∈ g.paths, ∀ p ∈ path.points, g.cells p = path.id
  idsPos : ∀ path ∈ g.paths, 1 ≤ path.id
  idsNodup : (g.paths.map fun path => path.id).Nodup

/-- During the path-adding phases the id multiset is exactly `1..K`. -/
def IdsSeq (g : Grid) : Prop :=
  (g.paths.map fun path => path.id).Perm
    ((List.range g.paths.length).map fun (i : Nat) => ((i : Int) + 1))

/-- What claim C5 asserts of a grid state: pairwise-disjoint path point
sets, in-bounds points, and at most `size²` distinct claimed cells. -/
def Excl (g : Grid) : Prop :=
  g.paths.Pairwise (fun a b => ∀ p ∈ a.points, p ∉ b.points) ∧
  (∀ path ∈ g.paths, ∀ p ∈ path.points, g.isValid p.1 p.2 = true) ∧
  ((g.paths.flatMap fun path => path.points).dedup.length ≤ g.size * g.size)

/-- Elements of pairwise-related lists at increasing positions are
related. -/
theorem pairwise_get_rel {α : Type} {R : α → α → Prop} (l : List α)
    (h : l.Pairwise R) (i j : Nat) (a b : α) (hij : i < j)
    (ha : l.get? i = some a) (hb : l.get? j = some b) : R a b := by
  have hp := List.pairwise_iff_get.mp h
  have hi : i < l.length := by
    by_contra hx
    rw [List.get?_eq_none.mpr (by omega)] at ha
    cases ha
  have hj : j < l.length := by
    by_contra hx
    rw [List.get?_eq_none.mpr (by omega)] at hb
    cases hb
  have hr := hp ⟨i, hi⟩ ⟨j, hj⟩ hij
  rw [List.get?_eq_get hi] at ha
  rw [List.get?_eq_get hj] at hb
  cases ha
  cases hb
  exact hr

/-- Distinct ids and cell ownership force pairwise-disjoint point sets. -/
theorem GridInv.pathsDisjoint {g : Grid} (h : GridInv g) :
    g.paths.Pairwise (fun a b => ∀ p ∈ a.points, p ∉ b.points) := by
  have hids : g.paths.Pairwise (fun a b => a.id ≠ b.id) :=
    List.pairwise_map.mp h.idsNodup
  refine hids.imp_of_mem ?_
  intro a b ha hb hne p hpa hpb
  have h1 := h.owner a ha p hpa
  have h2 := h.owner b hb p hpb
  exact hne (by rw [← h1, ← h2])

/-- A duplicate-free list of in-bounds cells has at most `size²`
entries. -/
theorem nodup_inbounds_length_le (g : Grid) (L : List Pt) (hnd : L.Nodup)
    (hval : ∀ p ∈ L, g.isValid p.1 p.2 = true) :
    L.length ≤ g.size * g.size := by
  have hco : ∀ p ∈ L, p.1.toNat < g.size ∧ p.2.toNat < g.size ∧
      0 ≤ p.1 ∧ 0 ≤ p.2 := by
    intro p hp
    have := hval p hp
    unfold Grid.isValid at this
    simp only [Bool.and_eq_true, decide_eq_true_eq] at this
    omega
  have hmapnd : (L.map fun p => p.1.toNat * g.size + p.2.toNat).Nodup := by
    refine List.Nodup.map_on ?_ hnd
    intro p hp q hq heq
    obtain ⟨hp1, hp2, hp3, hp4⟩ := hco p hp
    obtain ⟨hq1, hq2, hq3, hq4⟩ := hco q hq
    have hpos : 0 < g.size := by omega
    have h1 : (p.1.toNat * g.size + p.2.toNat) / g.size = p.1.toNat := by
      rw [Nat.mul_comm p.1.toNat g.size, Nat.mul_add_div hpos,
        Nat.div_eq_of_lt hp2]
      omega
    have h2 : (q.1.toNat * g.size + q.2.toNat) / g.size = q.1.toNat := by
      rw [Nat.mul_comm q.1.toNat g.size, Nat.mul_add_div hpos,
        Nat.div_eq_of_lt hq2]
      omega
    have hfst : p.1.toNat = q.1.toNat := by rw [← h1, ← h2, heq]
    rw [hfst] at heq
    have hsnd : p.2.toNat = q.2.toNat := by omega
    have hp1' : p.1 = q.1 := by omega
    have hp2' : p.2 = q.2 := by omega
    calc p = (p.1, p.2) := by rw [Prod.mk.eta]
    _ = (q.1, q.2) := by rw [hp1', hp2']
    _ = q := by rw [Prod.mk.eta]
  have hsub : (L.map fun p => p.1.toNat * g.size + p.2.toNat) ⊆
      List.range (g.size * g.size) := by
    intro x hx
    obtain ⟨p, hp, rfl⟩ := List.mem_map.mp hx
    obtain ⟨hp1, hp2, _, _⟩ := hco p hp
    rw [List.mem_range]
    calc p.1.toNat * g.size + p.2.toNat < p.1.toNat * g.size + g.size := by omega
    _ = (p.1.toNat + 1) * g.size := by ring
    _ ≤ g.size * g.size := Nat.mul_le_mul_right _ (by omega)
  have hle := (List.subperm_of_subset hmapnd hsub).length_le
  rw [List.length_map, List.length_range] at hle
  exact hle

/-- The invariant yields the full exclusivity statement of claim C5. -/
theorem GridInv.excl {g : Grid} (h : GridInv g) : Excl g := by
  refine ⟨h.pathsDisjoint, h.inb, ?_⟩
  refine nodup_inbounds_length_le g _ (List.nodup_dedup _) ?_
  intro p hp
  rw [List.mem_dedup] at hp
  obtain ⟨path, hpath, hpt⟩ := List.mem_flatMap.mp hp
  exact h.inb path hpath p hpt

/-- `setCell` pointwise. -/
theorem setCell_cells (g : Grid) (r c v : Int) (p : Pt) :
    (g.setCell r c v).cells p =
      if g.isValid r c = true ∧ p = (r, c) then v else g.cells p := by
  unfold Grid.setCell
  split
  next hval =>
    show (if p = (r, c) then v else g.cells p) = _
    by_cases hp : p = (r, c)
    · rw [if_pos hp, if_pos ⟨hval, hp⟩]
    · rw [if_neg hp, if_neg (fun h2 => hp h2.2)]
  next hval =>
    rw [if_neg (fun h2 => hval h2.1)]

/-- `setCell` does not affect the bounds check. -/
theorem setCell_isValid (g : Grid) (r c v r2 c2 : Int) :
    (g.setCell r c v).isValid r2 c2 = g.isValid r2 c2 := by
  unfold Grid.isValid
  rw [setCell_size]

/-- Marking a list of cells pointwise: a listed in-bounds cell gets the
value, everything else is untouched. -/
theorem foldl_setCell_cells (v : Int) :
    ∀ (pts : List Pt) (g : Grid) (p : Pt),
      (pts.foldl (fun gr q => gr.setCell q.1 q.2 v) g).cells p =
        if p ∈ pts ∧ g.isValid p.1 p.2 = true then v else g.cells p := by
  intro pts
  induction pts with
  | nil =>
    intro g p
    rw [if_neg (fun h2 => (List.not_mem_nil p) h2.1)]
    rfl
  | cons q rest ih =>
    intro g p
    rw [List.foldl_cons, ih, setCell_isValid, setCell_cells]
    have hor : (if p ∈ rest ∧ g.isValid p.1 p.2 = true then v
        else if g.isValid q.1 q.2 = true ∧ p = (q.1, q.2) then v else g.cells p) =
        if (p ∈ rest ∧ g.isValid p.1 p.2 = true) ∨
           (g.isValid q.1 q.2 = true ∧ p = (q.1, q.2)) then v else g.cells p := by
      by_cases hA : p ∈ rest ∧ g.isValid p.1 p.2 = true
      · rw [if_pos hA, if_pos (Or.inl hA)]
      · rw [if_neg hA]
        by_cases hB : g.isValid q.1 q.2 = true ∧ p = (q.1, q.2)
        · rw [if_pos hB, if_pos (Or.inr hB)]
        · rw [if_neg hB, if_neg (fun h2 => h2.elim hA hB)]
    rw [hor]
    refine if_congr ?_ rfl rfl
    constructor
    · rintro (⟨hm, hv2⟩ | ⟨hv2, rfl⟩)
      · exact ⟨List.mem_cons_of_mem _ hm, hv2⟩
      · exact ⟨by rw [Prod.mk.eta]; exact List.mem_cons_self _ _, hv2⟩
    · rintro ⟨hm, hv2⟩
      rcases List.mem_cons.mp hm with rfl | hm2
      · exact Or.inr ⟨hv2, Prod.mk.eta.symm⟩
      · exact Or.inl ⟨hm2, hv2⟩

/-- Marking a list of cells preserves the bounds check. -/
theorem foldl_setCell_isValid (v : Int) :
    ∀ (pts : List Pt) (g : Grid) (r c : Int),
      (pts.foldl (fun gr q => gr.setCell q.1 q.2 v) g).isValid r c =
        g.isValid r c := by
  intro pts g r c
  unfold Grid.isValid
  rw [foldl_setCell_size]

/-- `u32` values are 32-bit. -/
theorem u32_lt (n : Nat) : u32 n < 4294967296 := Nat.mod_lt _ (by norm_num)

/-- Xor keeps 32-bit values 32-bit. -/
theorem xor_lt_u32 (a b : Nat) (ha : a < 4294967296) (hb : b < 4294967296) :
    Nat.xor a b < 4294967296 := by
  have h2 : (4294967296 : Nat) = 2 ^ 32 := by norm_num
  rw [h2] at ha hb ⊢
  exact Nat.xor_lt_two_pow ha hb

/-- Right shifts do not increase a natural number. -/
theorem shiftr_le (a k : Nat) : a >>> k ≤ a := by
  rw [Nat.shiftRight_eq_div_pow]
  exact Nat.div_le_self _ _

/-- The Mulberry32 output numerator is a 32-bit value. -/
theorem next_fst_lt (seed : Int) : (Random.next seed).1 < 4294967296 := by
  simp only [Random.next]
  apply xor_lt_u32
  · exact xor_lt_u32 _ _ (u32_lt _) (u32_lt _)
  · exact Nat.lt_of_le_of_lt (shiftr_le _ _) (xor_lt_u32 _ _ (u32_lt _) (u32_lt _))

/-- `Random.range` stays below its upper bound. -/
theorem range_fst_lt (seed : Int) (lo hi : Nat) (h : lo < hi) :
    (Random.range seed lo hi).1 < hi := by
  simp only [Random.range]
  have hr := next_fst_lt seed
  have hb : 0 < hi - lo := by omega
  have hdiv : (Random.next seed).1 * (hi - lo) / 4294967296 < hi - lo := by
    rw [Nat.div_lt_iff_lt_mul (by norm_num : (0 : Nat) < 4294967296)]
    calc (Random.next seed).1 * (hi - lo) < 4294967296 * (hi - lo) :=
          (Nat.mul_lt_mul_right hb).mpr hr
    _ = (hi - lo) * 4294967296 := Nat.mul_comm _ _
  omega

/-- An in-range `getD` is a member. -/
theorem getD_mem {α : Type} (l : List α) (i : Nat) (d : α) (h : i < l.length) :
    l.getD i d ∈ l := by
  rw [List.getD_eq_get l d h]
  exact List.get_mem _ _ _

/-- `isEmpty` unpacked. -/
theorem isEmpty_spec (g : Grid) (r c : Int) (h : g.isEmpty r c = true) :
    g.isValid r c = true ∧ g.cells (r, c) = 0 := by
  unfold Grid.isEmpty at h
  simp only [Bool.and_eq_true, beq_iff_eq] at h
  exact h

namespace Generator

/-- Members of `getAllEmpty` are empty cells. -/
theorem mem_getAllEmpty (gen : Generator) (p : Pt) (h : p ∈ getAllEmpty gen) :
    gen.grid.isEmpty p.1 p.2 = true := by
  unfold getAllEmpty at h
  obtain ⟨r, _, hmem⟩ := List.mem_flatMap.mp h
  obtain ⟨c, _, heq⟩ := List.mem_filterMap.mp hmem
  split at heq
  next hemp =>
    rw [Option.some.injEq] at heq
    subst heq
    exact hemp
  next => cases heq

/-- The candidate list of `addPair` only holds remaining empty cells. -/
theorem addPairCandidates_subset (gen : Generator) (start : Pt)
    (empties2 : List Pt) :
    ∀ p ∈ addPairCandidates gen start empties2, p ∈ empties2 := by
  intro p hp
  simp only [addPairCandidates] at hp
  split_ifs at hp <;>
    first
    | exact hp
    | exact List.mem_of_mem_filter hp
    | exact List.mem_of_mem_filter (List.mem_of_mem_filter hp)
    | exact List.mem_of_mem_filter
        (List.mem_of_mem_filter (List.mem_of_mem_filter hp))

end Generator

/-- Appending a fresh path whose cells were empty, after marking those
cells with the new id, preserves the invariant and extends the id
sequence. -/
theorem gridInv_commit (g G : Grid) (pts : List Pt) (newP : Path)
    (inv : GridInv g) (hseq : IdsSeq g)
    (hempty : ∀ p ∈ pts, g.isValid p.1 p.2 = true ∧ g.cells p = 0)
    (hid : newP.id = (g.paths.length : Int) + 1)
    (hpts : newP.points = pts)
    (hG : G = pts.foldl (fun gr q => gr.setCell q.1 q.2 newP.id) g) :
    GridInv { G with paths := G.paths ++ [newP] } ∧
    IdsSeq { G with paths := G.paths ++ [newP] } := by
  have hGp : G.paths = g.paths := by
    rw [hG]
    exact foldl_setCell_paths _ pts g
  have hGv : ∀ r c, G.isValid r c = g.isValid r c := by
    intro r c
    rw [hG]
    exact foldl_setCell_isValid _ pts g r c
  have hGc : ∀ p : Pt, G.cells p =
      if p ∈ pts ∧ g.isValid p.1 p.2 = true then newP.id else g.cells p := by
    intro p
    rw [hG]
    exact foldl_setCell_cells _ pts g p
  have hRpaths : ({ G with paths := G.paths ++ [newP] } : Grid).paths =
      g.paths ++ [newP] := by
    show G.paths ++ [newP] = g.paths ++ [newP]
    rw [hGp]
  have hseq2 : (g.paths.map fun path => path.id).Perm
      ((List.range g.paths.length).map fun (i : Nat) => ((i : Int) + 1)) := hseq
  have hinj : Function.Injective (fun i : Nat => ((i : Int) + 1)) := by
    intro i j hij
    have h2 : (i : Int) + 1 = (j : Int) + 1 := hij
    omega
  have hrangeNodup :
      ((List.range g.paths.length).map fun (i : Nat) => ((i : Int) + 1)).Nodup :=
    (List.nodup_range g.paths.length).map hinj
  have hmapNodup : (g.paths.map fun path => path.id).Nodup :=
    hseq2.nodup_iff.mpr hrangeNodup
  have hfresh : newP.id ∉ (g.paths.map fun path => path.id) := by
    intro hmem
    rw [hseq2.mem_iff] at hmem
    obtain ⟨i, hi, hival⟩ := List.mem_map.mp hmem
    rw [List.mem_range] at hi
    rw [hid] at hival
    omega
  constructor
  · refine ⟨?_, ?_, ?_, ?_⟩
    · intro path hp p hpt
      have hp' : path ∈ g.paths ++ [newP] := by
        rw [← hRpaths]
        exact hp
      show G.isValid p.1 p.2 = true
      rw [hGv]
      rcases List.mem_append.mp hp' with hold | hnew
      · exact inv.inb path hold p hpt
      · rcases List.mem_singleton.mp hnew with rfl
        rw [hpts] at hpt
        exact (hempty p hpt).1
    · intro path hp p hpt
      have hp' : path ∈ g.paths ++ [newP] := by
        rw [← hRpaths]
        exact hp
      show G.cells p = path.id
      rw [hGc]
      rcases List.mem_append.mp hp' with hold | hnew
      · have howner := inv.owner path hold p hpt
        have hpos := inv.idsPos path hold
        have hnotin : p ∉ pts := by
          intro hin
          have h0 := (hempty p hin).2
          rw [howner] at h0
          omega
        rw [if_neg (fun h2 => hnotin h2.1)]
        exact howner
      · rcases List.mem_singleton.mp hnew with rfl
        rw [hpts] at hpt
        rw [if_pos ⟨hpt, (hempty p hpt).1⟩]
    · intro path hp
      have hp' : path ∈ g.paths ++ [newP] := by
        rw [← hRpaths]
        exact hp
      rcases List.mem_append.mp hp' with hold | hnew
      · exact inv.idsPos path hold
      · rcases List.mem_singleton.mp hnew with rfl
        rw [hid]
        omega
    · show ((G.paths ++ [newP]).map fun path => path.id).Nodup
      rw [hGp, List.map_append]
      rw [List.nodup_append]
      refine ⟨hmapNodup, by simp, ?_⟩
      intro x hx hx2
      have hxid : x = newP.id := by simpa using hx2
      subst hxid
      exact hfresh hx
  · show ((G.paths ++ [newP]).map fun path => path.id).Perm
      ((List.range (G.paths ++ [newP]).length).map fun (i : Nat) => ((i : Int) + 1))
    rw [hGp]
    simp only [List.map_append, List.length_append, List.length_singleton,
      List.map_cons, List.map_nil, List.range_succ]
    rw [hid]
    exact hseq2.append (List.Perm.refl _)

namespace Generator

/-- `addTargetedPath` preserves the invariant and the id sequence. -/
theorem addTargetedPath_inv (gen : Generator) (points : List Pt)
    (inv : GridInv gen.grid) (hseq : IdsSeq gen.grid) :
    GridInv (gen.addTargetedPath points).1.grid ∧
    IdsSeq (gen.addTargetedPath points).1.grid := by
  simp only [addTargetedPath]
  split
  next hall =>
    refine gridInv_commit gen.grid _ points _ inv hseq ?_ rfl rfl rfl
    intro p hp
    exact isEmpty_spec _ _ _ (by
      have := List.all_eq_true.mp hall p hp
      simpa using this)
  next => exact ⟨inv, hseq⟩

/-- `addPair` preserves the invariant and the id sequence. -/
theorem addPair_inv (gen : Generator) (inv : GridInv gen.grid)
    (hseq : IdsSeq gen.grid) :
    GridInv (addPair gen).1.grid ∧ IdsSeq (addPair gen).1.grid := by
  simp only [addPair]
  set E := getAllEmpty gen with hE
  split
  next => exact ⟨inv, hseq⟩
  next hlen =>
    set iA := (Random.range gen.random 0 E.length).1 with hiA
    set start := E.getD iA (0, 0) with hstartdef
    set E2 := E.eraseIdx iA with hE2
    set CL := addPairCandidates gen start E2 with hCL
    split
    next => exact ⟨inv, hseq⟩
    next hcand =>
      set iB := (Random.range (Random.range gen.random 0 E.length).2 0
        CL.length).1 with hiB
      set endP := CL.getD iB (0, 0) with hendPdef
      split
      next pathPoints heq =>
        split
        next h3 =>
          have hiAlt : iA < E.length := by
            rw [hiA]
            exact range_fst_lt _ _ _ (by omega)
          have hstartmem : start ∈ E := by
            rw [hstartdef]
            exact getD_mem _ _ _ hiAlt
          have hstartE : start ∈ getAllEmpty gen := by
            rw [hE] at hstartmem
            exact hstartmem
          have hstart2 := isEmpty_spec _ _ _ (mem_getAllEmpty gen start hstartE)
          have hiBlt : iB < CL.length := by
            rw [hiB]
            refine range_fst_lt _ _ _ ?_
            simp only [beq_iff_eq] at hcand
            omega
          have hendmem : endP ∈ CL := by
            rw [hendPdef]
            exact getD_mem _ _ _ hiBlt
          have hend2 : gen.grid.isValid endP.1 endP.2 = true ∧
              gen.grid.cells endP = 0 := by
            have h1 : endP ∈ addPairCandidates gen start E2 := by
              rw [hCL] at hendmem
              exact hendmem
            have h2 := addPairCandidates_subset gen start E2 endP h1
            rw [hE2] at h2
            have h4 := List.mem_of_mem_eraseIdx h2
            rw [hE] at h4
            exact isEmpty_spec _ _ _ (mem_getAllEmpty gen endP h4)
          obtain ⟨hh, hl, hch, hnd, hok, hmin⟩ :=
            findShortestPath_spec _ _ _ _ heq
          refine gridInv_commit gen.grid _ pathPoints _ inv hseq ?_ rfl rfl rfl
          intro p hp
          by_cases hps : p = start
          · rw [hps]
            exact ⟨hstart2.1, hstart2.2⟩
          · obtain ⟨hv2, hc2⟩ := hok p hp hps
            refine ⟨hv2, ?_⟩
            rcases hc2 with h0 | hEp
            · exact h0
            · rw [hEp]
              exact hend2.2
        next => exact ⟨inv, hseq⟩
      next => exact ⟨inv, hseq⟩

end Generator

/-- Setting a position to its current element is the identity. -/
theorem set_same {α : Type} : ∀ (l : List α) (i : Nat) (a : α),
    l.get? i = some a → l.set i a = l := by
  intro l
  induction l with
  | nil => intro i a _; rfl
  | cons b t ih =>
    intro i a h
    cases i with
    | zero =>
      have hb : b = a := by simpa using h
      rw [← hb]
      rfl
    | succ n =>
      have ht := ih n a (by simpa using h)
      show b :: t.set n a = b :: t
      rw [ht]

/-- A permutation of the path list preserves the invariant and the id
sequence. -/
theorem gridInv_perm (g : Grid) (pl : List Path)
    (inv : GridInv g) (hseq : IdsSeq g) (hperm : pl.Perm g.paths) :
    GridInv { g with paths := pl } ∧ IdsSeq { g with paths := pl } := by
  constructor
  · refine ⟨?_, ?_, ?_, ?_⟩
    · intro path hp p hpt
      show g.isValid p.1 p.2 = true
      exact inv.inb path (hperm.mem_iff.mp hp) p hpt
    · intro path hp p hpt
      show g.cells p = path.id
      exact inv.owner path (hperm.mem_iff.mp hp) p hpt
    · intro path hp
      exact inv.idsPos path (hperm.mem_iff.mp hp)
    · show (pl.map fun path => path.id).Nodup
      exact ((hperm.map _).nodup_iff).mpr inv.idsNodup
  · show (pl.map fun path => path.id).Perm
      ((List.range pl.length).map fun (i : Nat) => ((i : Int) + 1))
    rw [hperm.length_eq]
    exact (hperm.map _).trans hseq

/-- Growing the path at position `pi` by one previously empty cell,
marked with the path's id, preserves the invariant and the id
sequence. -/
theorem gridInv_extend (g : Grid) (pi : Nat) (path path' : Path) (pnew : Pt)
    (inv : GridInv g) (hseq : IdsSeq g)
    (hget : g.paths.get? pi = some path)
    (hempty : g.isEmpty pnew.1 pnew.2 = true)
    (hid : path'.id = path.id)
    (hpts : ∀ q ∈ path'.points, q = pnew ∨ q ∈ path.points) :
    GridInv { (g.setCell pnew.1 pnew.2 path.id) with
      paths := (g.setCell pnew.1 pnew.2 path.id).paths.set pi path' } ∧
    IdsSeq { (g.setCell pnew.1 pnew.2 path.id) with
      paths := (g.setCell pnew.1 pnew.2 path.id).paths.set pi path' } := by
  obtain ⟨hpval, hpcell⟩ := isEmpty_spec g pnew.1 pnew.2 hempty
  have hpathmem : path ∈ g.paths := List.get?_mem hget
  have hG1p : (g.setCell pnew.1 pnew.2 path.id).paths = g.paths :=
    setCell_paths g pnew.1 pnew.2 path.id
  have hmemconv : ∀ pp : Path,
      pp ∈ (g.setCell pnew.1 pnew.2 path.id).paths.set pi path' →
      pp ∈ g.paths ∨ pp = path' := by
    intro pp hp
    have hp2 : pp ∈ g.paths.set pi path' := by
      rw [← hG1p]
      exact hp
    exact List.mem_or_eq_of_mem_set hp2
  have hnotpnew : ∀ pp ∈ g.paths, ∀ q ∈ pp.points, q ≠ (pnew.1, pnew.2) := by
    intro pp hpp q hq hcontra
    have h1 := inv.owner pp hpp q hq
    have h2 := inv.idsPos pp hpp
    rw [hcontra, hpcell] at h1
    omega
  have hmapeq : ((g.setCell pnew.1 pnew.2 path.id).paths.set pi path').map
      (fun path => path.id) = g.paths.map fun path => path.id := by
    rw [hG1p, List.map_set, hid]
    refine set_same _ _ _ ?_
    rw [List.get?_map, hget]
    rfl
  constructor
  · refine ⟨?_, ?_, ?_, ?_⟩
    · intro pp hp q hq
      show (g.setCell pnew.1 pnew.2 path.id).isValid q.1 q.2 = true
      rw [setCell_isValid]
      rcases hmemconv pp hp with hold | rfl
      · exact inv.inb pp hold q hq
      · rcases hpts q hq with rfl | hq2
        · exact hpval
        · exact inv.inb path hpathmem q hq2
    · intro pp hp q hq
      show (g.setCell pnew.1 pnew.2 path.id).cells q = pp.id
      rw [setCell_cells]
      rcases hmemconv pp hp with hold | rfl
      · rw [if_neg (fun h2 => hnotpnew pp hold q hq h2.2)]
        exact inv.owner pp hold q hq
      · rcases hpts q hq with rfl | hq2
        · rw [if_pos ⟨hpval, Prod.mk.eta.symm⟩, hid]
        · rw [if_neg (fun h2 => hnotpnew path hpathmem q hq2 h2.2), hid]
          exact inv.owner path hpathmem q hq2
    · intro pp hp
      rcases hmemconv pp hp with hold | rfl
      · exact inv.idsPos pp hold
      · rw [hid]
        exact inv.idsPos path hpathmem
    · show (((g.setCell pnew.1 pnew.2 path.id).paths.set pi path').map
        (fun path => path.id)).Nodup
      rw [hmapeq]
      exact inv.idsNodup
  · show (((g.setCell pnew.1 pnew.2 path.id).paths.set pi path').map
        (fun path => path.id)).Perm
      ((List.range ((g.setCell pnew.1 pnew.2 path.id).paths.set pi
        path').length).map fun (i : Nat) => ((i : Int) + 1))
    rw [hmapeq, List.length_set, hG1p]
    exact hseq

namespace Generator

/-- The candidate scan of `expandEndpointRandom` preserves the invariant
and the id sequence. -/
theorem expandTry_inv (pi : Nat) (path : Path) (r c otherR otherC : Int)
    (prevDir : Option Pt) (psl : Nat) (isStart isExtension : Bool) :
    ∀ (cands : List Pt) (gen : Generator), GridInv gen.grid →
      IdsSeq gen.grid → gen.grid.paths.get? pi = some path →
      (∀ q ∈ cands, gen.grid.isEmpty q.1 q.2 = true) →
      GridInv (expandTry gen pi path r c otherR otherC prevDir psl
        isStart isExtension cands).1.grid ∧
      IdsSeq (expandTry gen pi path r c otherR otherC prevDir psl
        isStart isExtension cands).1.grid := by
  intro cands
  induction cands with
  | nil =>
    intro gen inv hseq _ _
    exact ⟨inv, hseq⟩
  | cons hd tl ih =>
    intro gen inv hseq hget hcands
    obtain ⟨nr, nc⟩ := hd
    simp only [expandTry]
    split
    · exact ih gen inv hseq hget
        (fun q hq => hcands q (List.mem_cons_of_mem _ hq))
    · have hempty : gen.grid.isEmpty nr nc = true :=
        hcands (nr, nc) (List.mem_cons_self _ _)
      refine gridInv_extend gen.grid pi path _ (nr, nc) inv hseq hget hempty
        ?_ ?_
      · split <;> rfl
      · split
        · intro q hq
          rcases List.mem_cons.mp hq with rfl | hq2
          · exact Or.inl rfl
          · exact Or.inr hq2
        · intro q hq
          rcases List.mem_append.mp hq with hq2 | hq2
          · exact Or.inr hq2
          · exact Or.inl (List.mem_singleton.mp hq2)

/-- `expandEndpointRandom` preserves the invariant and the id sequence. -/
theorem expandEndpointRandom_inv (gen : Generator) (pi index : Nat)
    (isExtension : Bool) (inv : GridInv gen.grid) (hseq : IdsSeq gen.grid) :
    GridInv (expandEndpointRandom gen pi index isExtension).1.grid ∧
    IdsSeq (expandEndpointRandom gen pi index isExtension).1.grid := by
  simp only [expandEndpointRandom]
  split
  next => exact ⟨inv, hseq⟩
  next path hget =>
    split
    next => exact ⟨inv, hseq⟩
    next =>
      refine expandTry_inv pi path _ _ _ _ _ _ _ _ _ _ inv hseq hget ?_
      intro q hq
      have hq2 := (shuffle_perm gen.random _).mem_iff.mp hq
      exact (List.mem_filter.mp hq2).2

/-- Fold steps that preserve the invariant keep it through the fold. -/
theorem foldl_genBool_inv {β : Type}
    (f : (Generator × Bool) → β → (Generator × Bool))
    (hf : ∀ st b, GridInv st.1.grid → IdsSeq st.1.grid →
      GridInv (f st b).1.grid ∧ IdsSeq (f st b).1.grid) :
    ∀ (l : List β) (st : Generator × Bool), GridInv st.1.grid →
      IdsSeq st.1.grid →
      GridInv (l.foldl f st).1.grid ∧ IdsSeq (l.foldl f st).1.grid := by
  intro l
  induction l with
  | nil => intro st hi hs; exact ⟨hi, hs⟩
  | cons b t ih =>
    intro st hi hs
    rw [List.foldl_cons]
    obtain ⟨hi2, hs2⟩ := hf st b hi hs
    exact ih (f st b) hi2 hs2

/-- One `expandPathsRandom` sweep preserves the invariant and the id
sequence. -/
theorem expandPaths1_inv (gen : Generator) (isExtension : Bool)
    (inv : GridInv gen.grid) (hseq : IdsSeq gen.grid) :
    GridInv (expandPaths1 gen isExtension).1.grid ∧
    IdsSeq (expandPaths1 gen isExtension).1.grid := by
  simp only [expandPaths1]
  refine foldl_genBool_inv _ ?_ _ _ ?_ ?_
  · intro st b hi hs
    obtain ⟨h1, h2⟩ := expandEndpointRandom_inv st.1 b 0 isExtension hi hs
    exact expandEndpointRandom_inv _ b _ isExtension h1 h2
  · exact (gridInv_perm gen.grid _ inv hseq (shuffle_perm _ _)).1
  · exact (gridInv_perm gen.grid _ inv hseq (shuffle_perm _ _)).2

/-- The `expandPathsRandom` loop preserves the invariant and the id
sequence. -/
theorem expandPathsGo_inv (isExtension : Bool) :
    ∀ (fuel : Nat) (gen : Generator), GridInv gen.grid → IdsSeq gen.grid →
      GridInv (expandPathsGo isExtension fuel gen).grid ∧
      IdsSeq (expandPathsGo isExtension fuel gen).grid := by
  intro fuel
  induction fuel with
  | zero => intro gen inv hseq; exact ⟨inv, hseq⟩
  | succ f ih =>
    intro gen inv hseq
    simp only [expandPathsGo]
    obtain ⟨h1, h2⟩ := expandPaths1_inv gen isExtension inv hseq
    split
    · exact ih _ h1 h2
    · exact ⟨h1, h2⟩

/-- `expandPathsRandom` preserves the invariant and the id sequence. -/
theorem expandPathsRandom_inv (gen : Generator) (isExtension : Bool)
    (inv : GridInv gen.grid) (hseq : IdsSeq gen.grid) :
    GridInv (expandPathsRandom gen isExtension).grid ∧
    IdsSeq (expandPathsRandom gen isExtension).grid :=
  expandPathsGo_inv isExtension 1000 gen inv hseq

end Generator

/-- A member sits at some position. -/
theorem get?_of_mem {α : Type} (l : List α) (a : α) (h : a ∈ l) :
    ∃ i, l.get? i = some a := by
  obtain ⟨i, hi⟩ := List.get_of_mem h
  refine ⟨i, ?_⟩
  rw [List.get?_eq_get]
  exact congrArg some hi

/-- With pairwise-distinct ids, a member of `l.set i pr1` is either the
replacement or an original path with an id different from the replaced
one. -/
theorem mem_set_strong (l : List Path) (i : Nat) (path pr1 : Path)
    (hnd : (l.map fun pa => pa.id).Nodup)
    (hget : l.get? i = some path) :
    ∀ pp ∈ l.set i pr1, pp = pr1 ∨ (pp ∈ l ∧ pp.id ≠ path.id) := by
  have hilt : i < l.length := by
    by_contra hx
    rw [List.get?_eq_none.mpr (by omega)] at hget
    cases hget
  intro pp hp
  obtain ⟨j, hj⟩ := get?_of_mem _ _ hp
  by_cases hji : j = i
  · subst hji
    rw [List.get?_set_eq_of_lt] at hj
    · exact Or.inl (Option.some.inj hj).symm
    · exact hilt
  · rw [List.get?_set_ne _ _ (fun h2 => hji h2.symm)] at hj
    refine Or.inr ⟨List.get?_mem hj, ?_⟩
    have hmi : (l.map fun pa => pa.id).get? i = some path.id := by
      rw [List.get?_map, hget]
      rfl
    have hmj : (l.map fun pa => pa.id).get? j = some pp.id := by
      rw [List.get?_map, hj]
      rfl
    have hpw : (l.map fun pa => pa.id).Pairwise (fun a b => a ≠ b) :=
      List.Nodup.pairwise_of_forall_ne hnd (fun a _ b _ h2 => h2)
    rcases Nat.lt_or_ge j i with hlt | hge
    · exact (pairwise_get_rel _ hpw j i _ _ hlt hmj hmi)
    · have hlt2 : i < j := by omega
      exact (pairwise_get_rel _ hpw i j _ _ hlt2 hmi hmj).symm

/-- Clearing a path's cells, re-marking a replacement route of
previously cleared cells with the same id, and storing the replacement
at the same position preserves the invariant and the id sequence. -/
theorem gridInv_retighten (g : Grid) (i : Nat) (path pr1 : Path)
    (inv : GridInv g) (hseq : IdsSeq g)
    (hget : g.paths.get? i = some path)
    (hid : pr1.id = path.id)
    (hnp : ∀ q ∈ pr1.points, g.isValid q.1 q.2 = true ∧
      (path.points.foldl (fun gg p => gg.setCell p.1 p.2 0) g).cells q = 0) :
    GridInv { (pr1.points.foldl (fun gg p => gg.setCell p.1 p.2 path.id)
        (path.points.foldl (fun gg p => gg.setCell p.1 p.2 0) g)) with
      paths := (pr1.points.foldl (fun gg p => gg.setCell p.1 p.2 path.id)
        (path.points.foldl (fun gg p => gg.setCell p.1 p.2 0) g)).paths.set
        i pr1 } ∧
    IdsSeq { (pr1.points.foldl (fun gg p => gg.setCell p.1 p.2 path.id)
        (path.points.foldl (fun gg p => gg.setCell p.1 p.2 0) g)) with
      paths := (pr1.points.foldl (fun gg p => gg.setCell p.1 p.2 path.id)
        (path.points.foldl (fun gg p => gg.setCell p.1 p.2 0) g)).paths.set
        i pr1 } := by
  have hpathmem : path ∈ g.paths := List.get?_mem hget
  have hG1c : ∀ p : Pt,
      (path.points.foldl (fun gg q => gg.setCell q.1 q.2 0) g).cells p =
      if p ∈ path.points ∧ g.isValid p.1 p.2 = true then 0 else g.cells p :=
    foldl_setCell_cells 0 path.points g
  have hG1v : ∀ r c,
      (path.points.foldl (fun gg q => gg.setCell q.1 q.2 0) g).isValid r c =
      g.isValid r c := foldl_setCell_isValid 0 path.points g
  have hG1p : (path.points.foldl (fun gg q => gg.setCell q.1 q.2 0) g).paths =
      g.paths := foldl_setCell_paths 0 path.points g
  have hG2c : ∀ p : Pt,
      (pr1.points.foldl (fun gg q => gg.setCell q.1 q.2 path.id)
        (path.points.foldl (fun gg q => gg.setCell q.1 q.2 0) g)).cells p =
      if p ∈ pr1.points ∧ g.isValid p.1 p.2 = true then path.id
      else (path.points.foldl (fun gg q => gg.setCell q.1 q.2 0) g).cells p := by
    intro p
    rw [foldl_setCell_cells]
    by_cases hc : p ∈ pr1.points ∧ g.isValid p.1 p.2 = true
    · rw [if_pos ⟨hc.1, by rw [hG1v]; exact hc.2⟩, if_pos hc]
    · rw [if_neg ?_, if_neg hc]
      intro h2
      exact hc ⟨h2.1, by rw [← hG1v p.1 p.2]; exact h2.2⟩
  have hG2v : ∀ r c,
      (pr1.points.foldl (fun gg q => gg.setCell q.1 q.2 path.id)
        (path.points.foldl (fun gg q => gg.setCell q.1 q.2 0) g)).isValid r c =
      g.isValid r c := by
    intro r c
    rw [foldl_setCell_isValid, hG1v]
  have hG2p : (pr1.points.foldl (fun gg q => gg.setCell q.1 q.2 path.id)
      (path.points.foldl (fun gg q => gg.setCell q.1 q.2 0) g)).paths =
      g.paths := by
    rw [foldl_setCell_paths, hG1p]
  have hcases := mem_set_strong g.paths i path pr1 inv.idsNodup hget
  have hothers : ∀ pp, pp ∈ g.paths → pp.id ≠ path.id → ∀ q ∈ pp.points,
      q ∉ pr1.points ∧ q ∉ path.points := by
    intro pp hpp hne q hq
    have how := inv.owner pp hpp q hq
    have hqv := inv.inb pp hpp q hq
    have hpos := inv.idsPos pp hpp
    have hqnotpath : q ∉ path.points := by
      intro hin
      have h2 := inv.owner path hpathmem q hin
      rw [how] at h2
      exact hne h2
    refine ⟨?_, hqnotpath⟩
    intro hin
    have h0 := (hnp q hin).2
    rw [hG1c, if_neg (fun h2 => hqnotpath h2.1), how] at h0
    omega
  have hmapeq :
      (((pr1.points.foldl (fun gg q => gg.setCell q.1 q.2 path.id)
        (path.points.foldl (fun gg q => gg.setCell q.1 q.2 0) g)).paths.set
        i pr1).map fun pa => pa.id) = g.paths.map fun pa => pa.id := by
    rw [hG2p, List.map_set, hid]
    refine set_same _ _ _ ?_
    rw [List.get?_map, hget]
    rfl
  have hmemconv : ∀ pp : Path,
      pp ∈ (pr1.points.foldl (fun gg q => gg.setCell q.1 q.2 path.id)
        (path.points.foldl (fun gg q => gg.setCell q.1 q.2 0) g)).paths.set
        i pr1 → pp = pr1 ∨ (pp ∈ g.paths ∧ pp.id ≠ path.id) := by
    intro pp hp
    refine hcases pp ?_
    rw [← hG2p]
    exact hp
  constructor
  · refine ⟨?_, ?_, ?_, ?_⟩
    · intro pp hp q hq
      show (pr1.points.foldl (fun gg q2 => gg.setCell q2.1 q2.2 path.id)
        (path.points.foldl (fun gg q2 => gg.setCell q2.1 q2.2 0) g)).isValid
        q.1 q.2 = true
      rw [hG2v]
      rcases hmemconv pp hp with rfl | ⟨hold, _⟩
      · exact (hnp q hq).1
      · exact inv.inb pp hold q hq
    · intro pp hp q hq
      show (pr1.points.foldl (fun gg q2 => gg.setCell q2.1 q2.2 path.id)
        (path.points.foldl (fun gg q2 => gg.setCell q2.1 q2.2 0) g)).cells
        q = pp.id
      rw [hG2c]
      rcases hmemconv pp hp with rfl | ⟨hold, hne⟩
      · rw [if_pos ⟨hq, (hnp q hq).1⟩, hid]
      · obtain ⟨hq1, hq2⟩ := hothers pp hold hne q hq
        rw [if_neg (fun h2 => hq1 h2.1), hG1c,
          if_neg (fun h2 => hq2 h2.1)]
        exact inv.owner pp hold q hq
    · intro pp hp
      rcases hmemconv pp hp with rfl | ⟨hold, _⟩
      · rw [hid]
        exact inv.idsPos path hpathmem
      · exact inv.idsPos pp hold
    · show ((((pr1.points.foldl (fun gg q => gg.setCell q.1 q.2 path.id)
        (path.points.foldl (fun gg q => gg.setCell q.1 q.2 0) g)).paths.set
        i pr1)).map fun pa => pa.id).Nodup
      rw [hmapeq]
      exact inv.idsNodup
  · show ((((pr1.points.foldl (fun gg q => gg.setCell q.1 q.2 path.id)
        (path.points.foldl (fun gg q => gg.setCell q.1 q.2 0) g)).paths.set
        i pr1)).map fun pa => pa.id).Perm
      ((List.range (((pr1.points.foldl (fun gg q => gg.setCell q.1 q.2 path.id)
        (path.points.foldl (fun gg q => gg.setCell q.1 q.2 0) g)).paths.set
        i pr1)).length).map fun (i : Nat) => ((i : Int) + 1))
    rw [hmapeq, List.length_set, hG2p]
    exact hseq

namespace Generator

/-- `tightenOne` preserves the invariant and the id sequence. -/
theorem tightenOne_inv (gen : Generator) (i : Nat)
    (inv : GridInv gen.grid) (hseq : IdsSeq gen.grid) :
    GridInv (tightenOne gen i).1.grid ∧ IdsSeq (tightenOne gen i).1.grid := by
  simp only [tightenOne]
  split
  next => exact ⟨inv, hseq⟩
  next path hget =>
    have hpathmem : path ∈ gen.grid.paths := List.get?_mem hget
    have hclear : ∀ q ∈ path.points,
        (path.points.foldl (fun gg p => gg.setCell p.1 p.2 0)
          gen.grid).cells q = 0 := by
      intro q hq
      rw [foldl_setCell_cells]
      rw [if_pos ⟨hq, inv.inb path hpathmem q hq⟩]
    split
    next np hfsp =>
      split
      next hlt =>
        refine gridInv_retighten gen.grid i path _ inv hseq hget rfl ?_
        show ∀ q ∈ np, _
        obtain ⟨hh, hl, hch, hnd2, hok, hmin⟩ :=
          findShortestPath_spec _ _ _ _ hfsp
        have hlen1 : 0 < path.points.length := by
          have hnp0 : 0 < np.length := by
            cases np with
            | nil => cases hh
            | cons a t => simp
          omega
        have hstartmem : path.points.getD 0 (0, 0) ∈ path.points :=
          getD_mem _ _ _ hlen1
        have hendmem : path.points.getD (path.points.length - 1) (0, 0) ∈
            path.points := getD_mem _ _ _ (by omega)
        intro q hq
        by_cases hqs : q = path.points.getD 0 (0, 0)
        · rw [hqs]
          exact ⟨inv.inb path hpathmem _ hstartmem, hclear _ hstartmem⟩
        · obtain ⟨hv2, hc2⟩ := hok q hq hqs
          have hv3 : gen.grid.isValid q.1 q.2 = true := by
            rw [← foldl_setCell_isValid 0 path.points gen.grid q.1 q.2]
            exact hv2
          refine ⟨hv3, ?_⟩
          rcases hc2 with h0 | hE
          · exact h0
          · rw [hE]
            exact hclear _ hendmem
      next =>
        refine gridInv_retighten gen.grid i path path inv hseq hget rfl ?_
        intro q hq
        exact ⟨inv.inb path hpathmem q hq, hclear q hq⟩
    next =>
      refine gridInv_retighten gen.grid i path path inv hseq hget rfl ?_
      intro q hq
      exact ⟨inv.inb path hpathmem q hq, hclear q hq⟩

/-- A `tightenPaths` sweep preserves the invariant and the id sequence. -/
theorem tightenPass_inv (gen : Generator)
    (inv : GridInv gen.grid) (hseq : IdsSeq gen.grid) :
    GridInv (tightenPass gen).1.grid ∧ IdsSeq (tightenPass gen).1.grid := by
  simp only [tightenPass]
  refine foldl_genBool_inv _ ?_ _ _ inv hseq
  intro st b hi hs
  exact tightenOne_inv st.1 b hi hs

/-- The `tightenPaths` loop preserves the invariant and the id
sequence. -/
theorem tightenGo_inv : ∀ (fuel : Nat) (gen : Generator),
    GridInv gen.grid → IdsSeq gen.grid →
    GridInv (tightenGo fuel gen).grid ∧ IdsSeq (tightenGo fuel gen).grid := by
  intro fuel
  induction fuel with
  | zero => intro gen inv hseq; exact ⟨inv, hseq⟩
  | succ f ih =>
    intro gen inv hseq
    simp only [tightenGo]
    obtain ⟨h1, h2⟩ := tightenPass_inv gen inv hseq
    split
    · exact ih _ h1 h2
    · exact ⟨h1, h2⟩

/-- `tightenPaths` preserves the invariant and the id sequence. -/
theorem tightenPaths_inv (gen : Generator)
    (inv : GridInv gen.grid) (hseq : IdsSeq gen.grid) :
    GridInv (tightenPaths gen).grid ∧ IdsSeq (tightenPaths gen).grid :=
  tightenGo_inv _ gen inv hseq

/-- `lCheck` preserves the invariant and the id sequence. -/
theorem lCheck_inv (gen : Generator) (r c : Int)
    (inv : GridInv gen.grid) (hseq : IdsSeq gen.grid) :
    GridInv (lCheck gen r c).grid ∧ IdsSeq (lCheck gen r c).grid := by
  simp only [lCheck]
  split
  · exact addTargetedPath_inv gen _ inv hseq
  · split
    · exact addTargetedPath_inv gen _ inv hseq
    · split
      · exact addTargetedPath_inv gen _ inv hseq
      · split
        · exact addTargetedPath_inv gen _ inv hseq
        · exact ⟨inv, hseq⟩

/-- Fold steps over bare generators that preserve the invariant keep it
through the fold. -/
theorem foldl_gen_inv {β : Type} (f : Generator → β → Generator)
    (hf : ∀ st b, GridInv st.grid → IdsSeq st.grid →
      GridInv (f st b).grid ∧ IdsSeq (f st b).grid) :
    ∀ (l : List β) (st : Generator), GridInv st.grid → IdsSeq st.grid →
      GridInv (l.foldl f st).grid ∧ IdsSeq (l.foldl f st).grid := by
  intro l
  induction l with
  | nil => intro st hi hs; exact ⟨hi, hs⟩
  | cons b t ih =>
    intro st hi hs
    rw [List.foldl_cons]
    obtain ⟨hi2, hs2⟩ := hf st b hi hs
    exact ih (f st b) hi2 hs2

/-- `fillSmallVoids` preserves the invariant and the id sequence. -/
theorem fillSmallVoids_inv (gen : Generator)
    (inv : GridInv gen.grid) (hseq : IdsSeq gen.grid) :
    GridInv (fillSmallVoids gen).grid ∧ IdsSeq (fillSmallVoids gen).grid := by
  simp only [fillSmallVoids]
  refine foldl_gen_inv _ ?_ _ _ ?_ ?_
  · intro st b hi hs
    refine foldl_gen_inv _ ?_ _ _ hi hs
    intro st2 b2 hi2 hs2
    exact lCheck_inv st2 _ _ hi2 hs2
  · refine (foldl_gen_inv _ ?_ _ _ inv hseq).1
    · intro st b hi hs
      refine foldl_gen_inv _ ?_ _ _ hi hs
      intro st2 b2 hi2 hs2
      split
      · split
        · exact addTargetedPath_inv st2 _ hi2 hs2
        · exact ⟨hi2, hs2⟩
      · exact ⟨hi2, hs2⟩
  · refine (foldl_gen_inv _ ?_ _ _ inv hseq).2
    · intro st b hi hs
      refine foldl_gen_inv _ ?_ _ _ hi hs
      intro st2 b2 hi2 hs2
      split
      · split
        · exact addTargetedPath_inv st2 _ hi2 hs2
        · exact ⟨hi2, hs2⟩
      · exact ⟨hi2, hs2⟩

/-- `fillGreedy` and its loop preserve the invariant and the id
sequence. -/
theorem fillGreedyGo_inv : ∀ (fuel failures : Nat) (gen : Generator),
    GridInv gen.grid → IdsSeq gen.grid →
    GridInv (fillGreedyGo fuel failures gen).grid ∧
    IdsSeq (fillGreedyGo fuel failures gen).grid := by
  intro fuel
  induction fuel with
  | zero => intro failures gen inv hseq; exact ⟨inv, hseq⟩
  | succ f ih =>
    intro failures gen inv hseq
    simp only [fillGreedyGo]
    split
    · obtain ⟨h1, h2⟩ := addPair_inv gen inv hseq
      split
      · exact ih 0 _ h1 h2
      · exact ih (failures + 1) _ h1 h2
    · exact ⟨inv, hseq⟩

/-- `fillGreedy` preserves the invariant and the id sequence. -/
theorem fillGreedy_inv (gen : Generator)
    (inv : GridInv gen.grid) (hseq : IdsSeq gen.grid) :
    GridInv (fillGreedy gen).1.grid ∧ IdsSeq (fillGreedy gen).1.grid :=
  fillGreedyGo_inv 1000 0 gen inv hseq

end Generator

/-- Positional view of `eraseIdx`. -/
theorem get?_eraseIdx {α : Type} : ∀ (l : List α) (j k : Nat),
    (l.eraseIdx j).get? k = if k < j then l.get? k else l.get? (k + 1) := by
  intro l
  induction l with
  | nil =>
    intro j k
    rw [List.eraseIdx_nil]
    split <;> rfl
  | cons a t ih =>
    intro j k
    cases j with
    | zero =>
      rw [if_neg (by omega)]
      rfl
    | succ m =>
      cases k with
      | zero => rw [if_pos (by omega)]; rfl
      | succ n =>
        show (t.eraseIdx m).get? n = _
        rw [ih m n]
        by_cases hnm : n < m
        · rw [if_pos hnm, if_pos (by omega)]
          rfl
        · rw [if_neg hnm, if_neg (by omega)]
          rfl

/-- `eraseIdx` commutes with `map`. -/
theorem map_eraseIdx {α β : Type} (f : α → β) :
    ∀ (l : List α) (j : Nat), (l.eraseIdx j).map f = (l.map f).eraseIdx j := by
  intro l
  induction l with
  | nil => intro j; rfl
  | cons a t ih =>
    intro j
    cases j with
    | zero => rfl
    | succ m =>
      show f a :: (t.eraseIdx m).map f = f a :: (t.map f).eraseIdx m
      rw [ih m]

/-- With pairwise-distinct ids, a member of the merged path list is
either the survivor or an untouched path whose id differs from both
merged paths' ids. -/
theorem mem_set_erase_strong (l : List Path) (i j : Nat) (p1 p2 p1' : Path)
    (hnd : (l.map fun pa => pa.id).Nodup)
    (hget1 : l.get? i = some p1) (hget2 : l.get? j = some p2) (hij : i ≠ j) :
    ∀ pp ∈ (l.set i p1').eraseIdx j,
      pp = p1' ∨ (pp ∈ l ∧ pp.id ≠ p1.id ∧ pp.id ≠ p2.id) := by
  have hilt : i < l.length := by
    by_contra hx
    rw [List.get?_eq_none.mpr (by omega)] at hget1
    cases hget1
  have hpw : (l.map fun pa => pa.id).Pairwise (fun a b => a ≠ b) :=
    List.Nodup.pairwise_of_forall_ne hnd (fun a _ b _ h2 => h2)
  have hiddiff : ∀ (m n : Nat) (pa pb : Path), m ≠ n →
      l.get? m = some pa → l.get? n = some pb → pa.id ≠ pb.id := by
    intro m n pa pb hmn hma hnb
    have hm2 : (l.map fun pa => pa.id).get? m = some pa.id := by
      rw [List.get?_map, hma]
      rfl
    have hn2 : (l.map fun pa => pa.id).get? n = some pb.id := by
      rw [List.get?_map, hnb]
      rfl
    rcases Nat.lt_or_ge m n with hlt | hge
    · exact pairwise_get_rel _ hpw m n _ _ hlt hm2 hn2
    · have hlt2 : n < m := by omega
      exact (pairwise_get_rel _ hpw n m _ _ hlt2 hn2 hm2).symm
  have main : ∀ (m : Nat) (pp : Path), m ≠ j →
      (l.set i p1').get? m = some pp →
      pp = p1' ∨ (pp ∈ l ∧ pp.id ≠ p1.id ∧ pp.id ≠ p2.id) := by
    intro m pp hmj hm
    by_cases hmi : m = i
    · subst hmi
      rw [List.get?_set_eq_of_lt] at hm
      · exact Or.inl (Option.some.inj hm).symm
      · exact hilt
    · rw [List.get?_set_ne _ _ (fun h2 => hmi h2.symm)] at hm
      exact Or.inr ⟨List.get?_mem hm, hiddiff m i pp p1 hmi hm hget1,
        hiddiff m j pp p2 hmj hm hget2⟩
  intro pp hp
  obtain ⟨k, hk⟩ := get?_of_mem _ _ hp
  rw [get?_eraseIdx] at hk
  by_cases hkj : k < j
  · rw [if_pos hkj] at hk
    exact main k pp (by omega) hk
  · rw [if_neg hkj] at hk
    exact main (k + 1) pp (by omega) hk

/-- Absorbing one path into another at a distinct position — re-marking
the absorbed path's cells with the survivor's id, replacing the
survivor's record and deleting the absorbed record — preserves the
invariant. -/
theorem gridInv_merge (g : Grid) (i j : Nat) (p1 p2 p1' : Path)
    (inv : GridInv g)
    (hget1 : g.paths.get? i = some p1)
    (hget2 : g.paths.get? j = some p2)
    (hij : i ≠ j)
    (hid : p1'.id = p1.id)
    (hpts : ∀ q ∈ p1'.points, q ∈ p1.points ∨ q ∈ p2.points) :
    GridInv { (p2.points.foldl (fun gg q => gg.setCell q.1 q.2 p1.id) g) with
      paths := ((p2.points.foldl (fun gg q => gg.setCell q.1 q.2 p1.id)
        g).paths.set i p1').eraseIdx j } := by
  have hmem1 : p1 ∈ g.paths := List.get?_mem hget1
  have hmem2 : p2 ∈ g.paths := List.get?_mem hget2
  have hGc : ∀ p : Pt,
      (p2.points.foldl (fun gg q => gg.setCell q.1 q.2 p1.id) g).cells p =
      if p ∈ p2.points ∧ g.isValid p.1 p.2 = true then p1.id else g.cells p :=
    foldl_setCell_cells p1.id p2.points g
  have hGv : ∀ r c,
      (p2.points.foldl (fun gg q => gg.setCell q.1 q.2 p1.id) g).isValid r c =
      g.isValid r c := foldl_setCell_isValid p1.id p2.points g
  have hGp : (p2.points.foldl (fun gg q => gg.setCell q.1 q.2 p1.id) g).paths =
      g.paths := foldl_setCell_paths p1.id p2.points g
  have hmemconv : ∀ pp : Path,
      pp ∈ ((p2.points.foldl (fun gg q => gg.setCell q.1 q.2 p1.id)
        g).paths.set i p1').eraseIdx j →
      pp = p1' ∨ (pp ∈ g.paths ∧ pp.id ≠ p1.id ∧ pp.id ≠ p2.id) := by
    intro pp hp
    refine mem_set_erase_strong g.paths i j p1 p2 p1' inv.idsNodup hget1
      hget2 hij pp ?_
    rw [← hGp]
    exact hp
  have hother2 : ∀ pp, pp ∈ g.paths → pp.id ≠ p2.id → ∀ q ∈ pp.points,
      q ∉ p2.points := by
    intro pp hpp hne q hq hin
    have h1 := inv.owner pp hpp q hq
    have h2 := inv.owner p2 hmem2 q hin
    rw [h1] at h2
    exact hne h2
  refine ⟨?_, ?_, ?_, ?_⟩
  · intro pp hp q hq
    show (p2.points.foldl (fun gg q2 => gg.setCell q2.1 q2.2 p1.id)
      g).isValid q.1 q.2 = true
    rw [hGv]
    rcases hmemconv pp hp with rfl | ⟨hold, _, _⟩
    · rcases hpts q hq with h1 | h2
      · exact inv.inb p1 hmem1 q h1
      · exact inv.inb p2 hmem2 q h2
    · exact inv.inb pp hold q hq
  · intro pp hp q hq
    show (p2.points.foldl (fun gg q2 => gg.setCell q2.1 q2.2 p1.id)
      g).cells q = pp.id
    rw [hGc]
    rcases hmemconv pp hp with rfl | ⟨hold, hne1, hne2⟩
    · by_cases hq2 : q ∈ p2.points
      · rw [if_pos ⟨hq2, inv.inb p2 hmem2 q hq2⟩, hid]
      · have hq1 : q ∈ p1.points := by
          rcases hpts q hq with h1 | h2
          · exact h1
          · exact absurd h2 hq2
        rw [if_neg (fun h2 => hq2 h2.1), hid]
        exact inv.owner p1 hmem1 q hq1
    · rw [if_neg (fun h2 => hother2 pp hold hne2 q hq h2.1)]
      exact inv.owner pp hold q hq
  · intro pp hp
    rcases hmemconv pp hp with rfl | ⟨hold, _, _⟩
    · rw [hid]
      exact inv.idsPos p1 hmem1
    · exact inv.idsPos pp hold
  · show ((((p2.points.foldl (fun gg q => gg.setCell q.1 q.2 p1.id)
      g).paths.set i p1').eraseIdx j).map fun pa => pa.id).Nodup
    rw [map_eraseIdx, hGp, List.map_set, hid, set_same _ _ _ (by
      rw [List.get?_map, hget1]
      rfl)]
    exact inv.idsNodup.sublist (List.eraseIdx_sublist _ j)

namespace Generator

/-- `mergeApply` at distinct positions preserves the invariant. -/
theorem mergeApply_inv (gen : Generator) (i j : Nat) (gen2 : Generator)
    (hij : i ≠ j) (inv : GridInv gen.grid)
    (h : mergeApply gen i j = some gen2) : GridInv gen2.grid := by
  simp only [mergeApply] at h
  split at h
  next p1 p2 hget1 hget2 =>
    split at h
    · split at h
      · rw [Option.some.injEq] at h
        subst h
        simp only [applyMerge]
        refine gridInv_merge gen.grid i j p1 p2 _ inv hget1 hget2 hij rfl ?_
        intro q hq
        exact List.mem_append.mp hq
      · cases h
    · split at h
      · split at h
        · rw [Option.some.injEq] at h
          subst h
          simp only [applyMerge]
          refine gridInv_merge gen.grid i j p1 p2 _ inv hget1 hget2 hij rfl ?_
          intro q hq
          rcases List.mem_append.mp hq with h1 | h2
          · exact Or.inl h1
          · exact Or.inr (List.mem_reverse.mp h2)
        · cases h
      · cases h
  next => cases h

/-- The merge pair scan preserves the invariant. -/
theorem mergeScanFrom_inv (gen : Generator) :
    ∀ (l : List (Nat × Nat)) (gen2 : Generator), GridInv gen.grid →
      mergeScanFrom gen l = some gen2 → GridInv gen2.grid := by
  intro l
  induction l with
  | nil =>
    intro gen2 _ h
    cases h
  | cons pr rest ih =>
    intro gen2 inv h
    obtain ⟨i, j⟩ := pr
    simp only [mergeScanFrom] at h
    split at h
    · exact ih gen2 inv h
    next hne =>
      split at h
      next g2 happ =>
        rw [Option.some.injEq] at h
        subst h
        refine mergeApply_inv gen i j g2 ?_ inv happ
        intro hcontra
        subst hcontra
        simp at hne
      next => exact ih gen2 inv h

/-- One merge scan restart preserves the invariant. -/
theorem mergeScan_inv (gen gen2 : Generator) (inv : GridInv gen.grid)
    (h : mergeScan gen = some gen2) : GridInv gen2.grid :=
  mergeScanFrom_inv gen _ gen2 inv h

/-- The merge loop preserves the invariant. -/
theorem mergeGo_inv : ∀ (fuel : Nat) (gen : Generator),
    GridInv gen.grid → GridInv (mergeGo fuel gen).grid := by
  intro fuel
  induction fuel with
  | zero => intro gen inv; exact inv
  | succ f ih =>
    intro gen inv
    simp only [mergeGo]
    split
    next g2 hscan => exact ih g2 (mergeScan_inv gen g2 inv hscan)
    next => exact inv

/-- `mergeCollinearPaths` preserves the invariant. -/
theorem mergeCollinearPaths_inv (gen : Generator) (inv : GridInv gen.grid) :
    GridInv (mergeCollinearPaths gen).grid :=
  mergeGo_inv _ gen inv

end Generator

/-- Bounds checks only read the size. -/
theorem isValid_congr (g1 g2 : Grid) (h : g1.size = g2.size) (r c : Int) :
    g1.isValid r c = g2.isValid r c := by
  unfold Grid.isValid
  rw [h]

/-- `isValid` unpacked into coordinate bounds. -/
theorem isValid_bounds (g : Grid) (p : Pt) (h : g.isValid p.1 p.2 = true) :
    0 ≤ p.1 ∧ p.1.toNat < g.size ∧ 0 ≤ p.2 ∧ p.2.toNat < g.size := by
  unfold Grid.isValid at h
  simp only [Bool.and_eq_true, decide_eq_true_eq] at h
  omega

/-- In-bounds coordinates lie in the coerced index range. -/
theorem mem_intRange (n : Nat) (x : Int) (h0 : 0 ≤ x) (hlt : x.toNat < n) :
    x ∈ (do let a ← List.range n; pure ((a : Int)) : List Int) := by
  show x ∈ (List.range n).bind fun a => pure ((a : Int))
  rw [List.mem_bind]
  refine ⟨x.toNat, List.mem_range.mpr hlt, ?_⟩
  show x ∈ [((x.toNat : Nat) : Int)]
  rw [Int.toNat_of_nonneg h0]
  exact List.mem_singleton.mpr rfl

/-- One row of the matrix-zeroing sweep of `shufflePathIds`. -/
theorem zeroRow_cells (r : Int) : ∀ (cs : List Int) (g : Grid),
    (cs.foldl (fun gr c => gr.setCell r c 0) g).paths = g.paths ∧
    (cs.foldl (fun gr c => gr.setCell r c 0) g).size = g.size ∧
    (∀ p : Pt, (cs.foldl (fun gr c => gr.setCell r c 0) g).cells p = 0 ∨
      (cs.foldl (fun gr c => gr.setCell r c 0) g).cells p = g.cells p) ∧
    (∀ p : Pt, ∀ c ∈ cs, p = (r, c) → g.isValid p.1 p.2 = true →
      (cs.foldl (fun gr c => gr.setCell r c 0) g).cells p = 0) := by
  intro cs
  induction cs with
  | nil =>
    intro g
    exact ⟨rfl, rfl, fun p => Or.inr rfl,
      fun p c hc => absurd hc (List.not_mem_nil c)⟩
  | cons c0 rest ih =>
    intro g
    obtain ⟨ihp, ihs, ihall, ihcov⟩ := ih (g.setCell r c0 0)
    rw [List.foldl_cons]
    refine ⟨by rw [ihp, setCell_paths], by rw [ihs, setCell_size], ?_, ?_⟩
    · intro p
      rcases ihall p with h0 | hkeep
      · exact Or.inl h0
      · rw [hkeep, setCell_cells]
        split
        · exact Or.inl rfl
        · exact Or.inr rfl
    · intro p c hc hpc hval
      rcases List.mem_cons.mp hc with rfl | hc2
      · have hvrc : g.isValid r c = true := by
          rw [hpc] at hval
          exact hval
        have h0 : (g.setCell r c 0).cells p = 0 := by
          rw [setCell_cells, if_pos ⟨hvrc, hpc⟩]
        rcases ihall p with hz | hkeep
        · exact hz
        · rw [hkeep, h0]
      · refine ihcov p c hc2 hpc ?_
        rw [isValid_congr _ g (setCell_size g r c0 0)]
        exact hval

/-- The full matrix-zeroing sweep of `shufflePathIds`: paths and size
are kept, every write is a zero, and every listed in-bounds cell is
cleared. -/
theorem zeroGrid_cells : ∀ (rs : List Int) (cs : List Int) (g : Grid),
    (rs.foldl (fun gr r => cs.foldl
      (fun gr c => gr.setCell r c 0) gr) g).paths = g.paths ∧
    (rs.foldl (fun gr r => cs.foldl
      (fun gr c => gr.setCell r c 0) gr) g).size = g.size ∧
    (∀ p : Pt, (rs.foldl (fun gr r => cs.foldl
        (fun gr c => gr.setCell r c 0) gr) g).cells p = 0 ∨
      (rs.foldl (fun gr r => cs.foldl
        (fun gr c => gr.setCell r c 0) gr) g).cells p = g.cells p) ∧
    (∀ p : Pt, p.1 ∈ rs → p.2 ∈ cs → g.isValid p.1 p.2 = true →
      (rs.foldl (fun gr r => cs.foldl
        (fun gr c => gr.setCell r c 0) gr) g).cells p = 0) := by
  intro rs cs
  induction rs with
  | nil =>
    intro g
    exact ⟨rfl, rfl, fun p => Or.inr rfl,
      fun p hr => absurd hr (List.not_mem_nil p.1)⟩
  | cons r0 rest ih =>
    intro g
    obtain ⟨rowp, rows, rowall, rowcov⟩ := zeroRow_cells r0 cs g
    obtain ⟨ihp, ihs, ihall, ihcov⟩ :=
      ih (cs.foldl (fun gr c => gr.setCell r0 c 0) g)
    rw [List.foldl_cons]
    refine ⟨by rw [ihp, rowp], by rw [ihs, rows], ?_, ?_⟩
    · intro p
      rcases ihall p with h0 | hkeep
      · exact Or.inl h0
      · rw [hkeep]
        rcases rowall p with h0 | hkeep2
        · exact Or.inl h0
        · rw [hkeep2]
          exact Or.inr rfl
    · intro p hr hcmem hval
      rcases List.mem_cons.mp hr with hre | hr2
      · have h0 : (cs.foldl (fun gr c => gr.setCell r0 c 0) g).cells p = 0 := by
          refine rowcov p p.2 hcmem ?_ hval
          calc p = (p.1, p.2) := Prod.mk.eta.symm
          _ = (r0, p.2) := by rw [hre]
        rcases ihall p with hz | hkeep
        · exact hz
        · rw [hkeep, h0]
      · refine ihcov p hr2 hcmem ?_
        rw [isValid_congr _ g rows]
        exact hval

namespace Generator

/-- One iteration of the id-reassignment loop of `shufflePathIds`. -/
def shuffleIdStep (gr : Grid) (idx : Nat) : Grid :=
  match gr.paths.get? idx with
  | some path =>
    let newId : Int := (idx : Int) + 1
    let path' := { path with id := newId, color := getDistinctColor newId }
    let gr' := { gr with paths := gr.paths.set idx path' }
    path'.points.foldl (fun g p => g.setCell p.1 p.2 newId) gr'
  | none => gr

/-- A missing position leaves the grid unchanged. -/
theorem shuffleIdStep_none (gr : Grid) (idx : Nat)
    (h : gr.paths.get? idx = none) : shuffleIdStep gr idx = gr := by
  unfold shuffleIdStep
  rw [h]

/-- What one id-reassignment iteration does to size, paths and cells. -/
theorem shuffleIdStep_facts (gr : Grid) (idx : Nat) (path : Path)
    (hget : gr.paths.get? idx = some path) :
    (shuffleIdStep gr idx).size = gr.size ∧
    (shuffleIdStep gr idx).paths = gr.paths.set idx
      { path with id := ((idx : Int) + 1)
                  color := getDistinctColor ((idx : Int) + 1) } ∧
    ∀ p : Pt, (shuffleIdStep gr idx).cells p =
      if p ∈ path.points ∧ gr.isValid p.1 p.2 = true then ((idx : Int) + 1)
      else gr.cells p := by
  unfold shuffleIdStep
  simp only [hget]
  refine ⟨?_, ?_, ?_⟩
  · rw [foldl_setCell_size]
  · rw [foldl_setCell_paths]
  · intro p
    rw [foldl_setCell_cells]
    rfl

/-- The id-reassignment loop of `shufflePathIds` over any duplicate-free
index list, for a grid with positionally disjoint, in-bounds path
points: sizes and lengths are kept, listed positions get id `k + 1`,
unlisted positions and untouched cells are unchanged, and each listed
path's cells carry its new id. -/
theorem shuffleIdLoop_spec :
    ∀ (is : List Nat) (gr : Grid), is.Nodup →
      (∀ (m n : Nat) (pa pb : Path), m ≠ n → gr.paths.get? m = some pa →
        gr.paths.get? n = some pb → ∀ q ∈ pa.points, q ∉ pb.points) →
      (∀ (k : Nat) (pa : Path), gr.paths.get? k = some pa →
        ∀ q ∈ pa.points, gr.isValid q.1 q.2 = true) →
      (is.foldl shuffleIdStep gr).size = gr.size ∧
      (is.foldl shuffleIdStep gr).paths.length = gr.paths.length ∧
      (∀ k, k ∉ is → (is.foldl shuffleIdStep gr).paths.get? k =
        gr.paths.get? k) ∧
      (∀ k, k ∈ is → ∀ pa, gr.paths.get? k = some pa →
        (is.foldl shuffleIdStep gr).paths.get? k =
          some { pa with id := ((k : Int) + 1)
                         color := getDistinctColor ((k : Int) + 1) }) ∧
      (∀ p : Pt, (∀ k, k ∈ is → ∀ pa, gr.paths.get? k = some pa →
        p ∉ pa.points) → (is.foldl shuffleIdStep gr).cells p = gr.cells p) ∧
      (∀ k, k ∈ is → ∀ pa, gr.paths.get? k = some pa → ∀ p ∈ pa.points,
        (is.foldl shuffleIdStep gr).cells p = (k : Int) + 1) := by
  intro is
  induction is with
  | nil =>
    intro gr _ _ _
    refine ⟨rfl, rfl, fun k _ => rfl, ?_, fun p _ => rfl, ?_⟩
    · intro k hk
      exact absurd hk (List.not_mem_nil k)
    · intro k hk
      exact absurd hk (List.not_mem_nil k)
  | cons idx rest ih =>
    intro gr hnd hdisj hval
    have hidxnr : idx ∉ rest := (List.nodup_cons.mp hnd).1
    have hndr : rest.Nodup := (List.nodup_cons.mp hnd).2
    rw [List.foldl_cons]
    cases hget : gr.paths.get? idx with
    | none =>
      rw [shuffleIdStep_none gr idx hget]
      obtain ⟨s1, s2, s3, s4, s5, s6⟩ := ih gr hndr hdisj hval
      refine ⟨s1, s2, ?_, ?_, ?_, ?_⟩
      · intro k hk
        exact s3 k (fun h => hk (List.mem_cons_of_mem _ h))
      · intro k hk pa hpa
        rcases List.mem_cons.mp hk with rfl | hk2
        · rw [hget] at hpa
          cases hpa
        · exact s4 k hk2 pa hpa
      · intro p hp
        refine s5 p ?_
        intro k hk pa hpa
        exact hp k (List.mem_cons_of_mem _ hk) pa hpa
      · intro k hk pa hpa p hp2
        rcases List.mem_cons.mp hk with rfl | hk2
        · rw [hget] at hpa
          cases hpa
        · exact s6 k hk2 pa hpa p hp2
    | some path =>
      obtain ⟨t1, t2, t3⟩ := shuffleIdStep_facts gr idx path hget
      have hidxlt : idx < gr.paths.length := by
        by_contra hx
        rw [List.get?_eq_none.mpr (by omega)] at hget
        cases hget
      have hTget_ne : ∀ k, k ≠ idx →
          (shuffleIdStep gr idx).paths.get? k = gr.paths.get? k := by
        intro k hk
        rw [t2]
        exact List.get?_set_ne _ _ (fun h => hk h.symm)
      have hTget_idx : (shuffleIdStep gr idx).paths.get? idx =
          some { path with id := ((idx : Int) + 1)
                           color := getDistinctColor ((idx : Int) + 1) } := by
        rw [t2]
        rw [List.get?_set_eq_of_lt]
        exact hidxlt
      have hpoints : ∀ (k : Nat) (pa2 : Path),
          (shuffleIdStep gr idx).paths.get? k = some pa2 →
          ∃ pb, gr.paths.get? k = some pb ∧ pa2.points = pb.points := by
        intro k pa2 h2
        by_cases hk : k = idx
        · subst hk
          rw [hTget_idx] at h2
          have heq := Option.some.inj h2
          exact ⟨path, hget, by rw [← heq]⟩
        · rw [hTget_ne k hk] at h2
          exact ⟨pa2, h2, rfl⟩
      have hdisjT : ∀ (m n : Nat) (pa pb : Path), m ≠ n →
          (shuffleIdStep gr idx).paths.get? m = some pa →
          (shuffleIdStep gr idx).paths.get? n = some pb →
          ∀ q ∈ pa.points, q ∉ pb.points := by
        intro m n pa pb hmn hma hnb q hq hq2
        obtain ⟨pa0, hma0, hpaeq⟩ := hpoints m pa hma
        obtain ⟨pb0, hnb0, hpbeq⟩ := hpoints n pb hnb
        rw [hpaeq] at hq
        rw [hpbeq] at hq2
        exact hdisj m n pa0 pb0 hmn hma0 hnb0 q hq hq2
      have hvalT : ∀ (k : Nat) (pa2 : Path),
          (shuffleIdStep gr idx).paths.get? k = some pa2 →
          ∀ q ∈ pa2.points,
          (shuffleIdStep gr idx).isValid q.1 q.2 = true := by
        intro k pa2 h2 q hq
        obtain ⟨pb, hb, heqp⟩ := hpoints k pa2 h2
        rw [isValid_congr _ gr t1]
        rw [heqp] at hq
        exact hval k pb hb q hq
      obtain ⟨s1, s2, s3, s4, s5, s6⟩ :=
        ih (shuffleIdStep gr idx) hndr hdisjT hvalT
      refine ⟨?_, ?_, ?_, ?_, ?_, ?_⟩
      · rw [s1, t1]
      · rw [s2, t2, List.length_set]
      · intro k hk
        have hk1 : k ∉ rest := fun h => hk (List.mem_cons_of_mem _ h)
        have hk2 : k ≠ idx := fun h => hk (by rw [h]; exact List.mem_cons_self _ _)
        rw [s3 k hk1, hTget_ne k hk2]
      · intro k hk pa hpa
        rcases List.mem_cons.mp hk with rfl | hk2
        · rw [hget] at hpa
          have hpae := Option.some.inj hpa
          subst hpae
          rw [s3 k hidxnr, hTget_idx]
        · have hki : k ≠ idx := fun h => hidxnr (by rw [← h]; exact hk2)
          have hpaT : (shuffleIdStep gr idx).paths.get? k = some pa := by
            rw [hTget_ne k hki]
            exact hpa
          exact s4 k hk2 pa hpaT
      · intro p hp
        have hcondT : ∀ k, k ∈ rest → ∀ pa2,
            (shuffleIdStep gr idx).paths.get? k = some pa2 →
            p ∉ pa2.points := by
          intro k hk pa2 hpa2
          obtain ⟨pb, hb, heqp⟩ := hpoints k pa2 hpa2
          rw [heqp]
          exact hp k (List.mem_cons_of_mem _ hk) pb hb
        rw [s5 p hcondT, t3, if_neg ?_]
        intro hcond
        exact hp idx (List.mem_cons_self _ _) path hget hcond.1
      · intro k hk pa hpa p hp2
        rcases List.mem_cons.mp hk with rfl | hk2
        · rw [hget] at hpa
          have hpae := Option.some.inj hpa
          subst hpae
          have hcondT : ∀ k2, k2 ∈ rest → ∀ pa2,
              (shuffleIdStep gr k).paths.get? k2 = some pa2 →
              p ∉ pa2.points := by
            intro k2 hk2 pa2 hpa2
            obtain ⟨pb, hb, heqp⟩ := hpoints k2 pa2 hpa2
            rw [heqp]
            have hk2i : k2 ≠ k := fun h => hidxnr (by rw [← h]; exact hk2)
            exact hdisj k k2 path pb (fun h => hk2i h.symm) hget hb p hp2
          rw [s5 p hcondT, t3, if_pos ⟨hp2, hval k path hget p hp2⟩]
        · have hki : k ≠ idx := fun h => hidxnr (by rw [← h]; exact hk2)
          have hpaT : (shuffleIdStep gr idx).paths.get? k = some pa := by
            rw [hTget_ne k hki]
            exact hpa
          exact s6 k hk2 pa hpaT p hp2

end Generator

/-- Pairwise point-set disjointness of a path list, positionally. -/
theorem pairwise_disjoint_get (l : List Path)
    (h : l.Pairwise (fun a b => ∀ p ∈ a.points, p ∉ b.points)) :
    ∀ (m n : Nat) (pa pb : Path), m ≠ n → l.get? m = some pa →
      l.get? n = some pb → ∀ q ∈ pa.points, q ∉ pb.points := by
  intro m n pa pb hmn hma hnb q hq hq2
  rcases Nat.lt_or_ge m n with hlt | hge
  · exact pairwise_get_rel _ h m n _ _ hlt hma hnb q hq hq2
  · have hlt2 : n < m := by omega
    exact pairwise_get_rel _ h n m _ _ hlt2 hnb hma q hq2 hq

/-- A permutation of the path list preserves the bare invariant. -/
theorem gridInv_perm_weak (g : Grid) (pl : List Path)
    (inv : GridInv g) (hperm : pl.Perm g.paths) :
    GridInv { g with paths := pl } := by
  refine ⟨?_, ?_, ?_, ?_⟩
  · intro path hp p hpt
    show g.isValid p.1 p.2 = true
    exact inv.inb path (hperm.mem_iff.mp hp) p hpt
  · intro path hp p hpt
    show g.cells p = path.id
    exact inv.owner path (hperm.mem_iff.mp hp) p hpt
  · intro path hp
    exact inv.idsPos path (hperm.mem_iff.mp hp)
  · show (pl.map fun path => path.id).Nodup
    exact ((hperm.map _).nodup_iff).mpr inv.idsNodup

namespace Generator

/-- The id-reassignment loop restores the full invariant, the dense id
sequence and positional density on any all-cleared grid with disjoint,
in-bounds path points. -/
theorem shuffleIds_final (g1 : Grid) (n : Nat) (hn : g1.paths.length = n)
    (hdisj0 : ∀ (m k : Nat) (pa pb : Path), m ≠ k → g1.paths.get? m = some pa →
      g1.paths.get? k = some pb → ∀ q ∈ pa.points, q ∉ pb.points)
    (hval0 : ∀ (k : Nat) (pa : Path), g1.paths.get? k = some pa →
      ∀ q ∈ pa.points, g1.isValid q.1 q.2 = true) :
    GridInv ((List.range n).foldl shuffleIdStep g1) ∧
    IdsSeq ((List.range n).foldl shuffleIdStep g1) ∧
    ∀ (k : Nat) (pp : Path),
      ((List.range n).foldl shuffleIdStep g1).paths.get? k = some pp →
      pp.id = (k : Int) + 1 := by
  obtain ⟨s1, s2, s3, s4, s5, s6⟩ := shuffleIdLoop_spec (List.range n) g1
    (List.nodup_range n) hdisj0 hval0
  have hlen : ((List.range n).foldl shuffleIdStep g1).paths.length = n := by
    rw [s2, hn]
  have hgetchar : ∀ (k : Nat) (pp : Path),
      ((List.range n).foldl shuffleIdStep g1).paths.get? k = some pp →
      ∃ pa, g1.paths.get? k = some pa ∧
        pp = { pa with id := ((k : Int) + 1)
                       color := getDistinctColor ((k : Int) + 1) } ∧
        k < n := by
    intro k pp h2
    by_cases hk : k < n
    · have hkm : k ∈ List.range n := List.mem_range.mpr hk
      have hk2 : k < g1.paths.length := by rw [hn]; exact hk
      obtain ⟨pa, hpa⟩ : ∃ pa, g1.paths.get? k = some pa := by
        cases hg : g1.paths.get? k with
        | none => rw [List.get?_eq_none] at hg; omega
        | some pa => exact ⟨pa, rfl⟩
      have h4 := s4 k hkm pa hpa
      rw [h4] at h2
      exact ⟨pa, hpa, (Option.some.inj h2).symm, hk⟩
    · exfalso
      have hnone : ((List.range n).foldl shuffleIdStep g1).paths.get? k =
          none := List.get?_eq_none.mpr (by omega)
      rw [hnone] at h2
      cases h2
  have hdens : ∀ (k : Nat) (pp : Path),
      ((List.range n).foldl shuffleIdStep g1).paths.get? k = some pp →
      pp.id = (k : Int) + 1 := by
    intro k pp h2
    obtain ⟨pa, _, rfl, _⟩ := hgetchar k pp h2
    rfl
  have hmap : ((List.range n).foldl shuffleIdStep g1).paths.map
      (fun pa => pa.id) = (List.range n).map fun (i : Nat) => ((i : Int) + 1) := by
    apply List.ext
    intro k
    rw [List.get?_map, List.get?_map]
    by_cases hk : k < n
    · obtain ⟨pp, hpp⟩ : ∃ pp,
          ((List.range n).foldl shuffleIdStep g1).paths.get? k = some pp := by
        cases hg : ((List.range n).foldl shuffleIdStep g1).paths.get? k with
        | none => rw [List.get?_eq_none] at hg; omega
        | some pp => exact ⟨pp, rfl⟩
      rw [hpp, List.get?_range hk]
      show some pp.id = some ((k : Int) + 1)
      rw [hdens k pp hpp]
    · rw [List.get?_eq_none.mpr (by omega),
        List.get?_eq_none.mpr (by rw [List.length_range]; omega)]
      rfl
  refine ⟨⟨?_, ?_, ?_, ?_⟩, ?_, hdens⟩
  · intro pp hp q hq
    obtain ⟨k, hk⟩ := get?_of_mem _ _ hp
    obtain ⟨pa, hpa, rfl, _⟩ := hgetchar k pp hk
    rw [isValid_congr _ g1 s1]
    exact hval0 k pa hpa q hq
  · intro pp hp q hq
    obtain ⟨k, hk⟩ := get?_of_mem _ _ hp
    obtain ⟨pa, hpa, rfl, hklt⟩ := hgetchar k pp hk
    exact s6 k (List.mem_range.mpr hklt) pa hpa q hq
  · intro pp hp
    obtain ⟨k, hk⟩ := get?_of_mem _ _ hp
    obtain ⟨pa, hpa, rfl, _⟩ := hgetchar k pp hk
    show 1 ≤ (k : Int) + 1
    omega
  · rw [hmap]
    refine List.Nodup.map ?_ (List.nodup_range n)
    intro i j hij
    have h2 : (i : Int) + 1 = (j : Int) + 1 := hij
    omega
  · show (((List.range n).foldl shuffleIdStep g1).paths.map
      fun path => path.id).Perm
      ((List.range ((List.range n).foldl shuffleIdStep g1).paths.length).map
        fun (i : Nat) => ((i : Int) + 1))
    rw [hmap, hlen]

end Generator

/-- The zeroing row fold keeps paths and size. -/
theorem zeroRow_paths_size (r : Int) : ∀ (cs : List Nat) (g : Grid),
    (cs.foldl (fun gr (c : Nat) => gr.setCell r (c : Int) 0) g).paths =
      g.paths ∧
    (cs.foldl (fun gr (c : Nat) => gr.setCell r (c : Int) 0) g).size =
      g.size := by
  intro cs
  induction cs with
  | nil => intro g; exact ⟨rfl, rfl⟩
  | cons c0 rest ih =>
    intro g
    obtain ⟨hp, hs⟩ := ih (g.setCell r (c0 : Int) 0)
    rw [List.foldl_cons]
    exact ⟨by rw [hp, setCell_paths], by rw [hs, setCell_size]⟩

/-- The matrix-zeroing sweep keeps paths and size. -/
theorem zeroGrid_paths_size : ∀ (rs : List Nat) (cs : List Nat) (g : Grid),
    (rs.foldl (fun gr (r : Nat) => cs.foldl
      (fun gr (c : Nat) => gr.setCell (r : Int) (c : Int) 0) gr) g).paths =
      g.paths ∧
    (rs.foldl (fun gr (r : Nat) => cs.foldl
      (fun gr (c : Nat) => gr.setCell (r : Int) (c : Int) 0) gr) g).size =
      g.size := by
  intro rs cs
  induction rs with
  | nil => intro g; exact ⟨rfl, rfl⟩
  | cons r0 rest ih =>
    intro g
    obtain ⟨rp, rs2⟩ := zeroRow_paths_size (r0 : Int) cs g
    obtain ⟨hp, hs⟩ := ih (cs.foldl
      (fun gr (c : Nat) => gr.setCell (r0 : Int) (c : Int) 0) g)
    rw [List.foldl_cons]
    exact ⟨by rw [hp, rp], by rw [hs, rs2]⟩

namespace Generator

/-- `shuffleIds_final` with the cleared grid given through its path-list
and size characterisation. -/
theorem shuffleIds_final2 (g0 G1 : Grid) (pl : List Path) (n : Nat)
    (inv0 : GridInv g0) (hperm : pl.Perm g0.paths)
    (hp : G1.paths = pl) (hs : G1.size = g0.size) (hn : pl.length = n) :
    GridInv ((List.range n).foldl shuffleIdStep G1) ∧
    IdsSeq ((List.range n).foldl shuffleIdStep G1) ∧
    ∀ (k : Nat) (pp : Path),
      ((List.range n).foldl shuffleIdStep G1).paths.get? k = some pp →
      pp.id = (k : Int) + 1 := by
  have hd0 : pl.Pairwise (fun a b => ∀ p ∈ a.points, p ∉ b.points) := by
    have h2 := GridInv.pathsDisjoint (gridInv_perm_weak g0 pl inv0 hperm)
    exact h2
  refine shuffleIds_final G1 n (by rw [hp, hn]) ?_ ?_
  · intro m k pa pb hmk hma hkb
    rw [hp] at hma hkb
    exact pairwise_disjoint_get pl hd0 m k pa pb hmk hma hkb
  · intro k pa hpa q hq
    rw [hp] at hpa
    have hmem : pa ∈ pl := List.get?_mem hpa
    rw [isValid_congr G1 g0 hs]
    exact inv0.inb pa (hperm.mem_iff.mp hmem) q hq

/-- `shufflePathIds` restores the full invariant and reassigns ids
densely: afterwards the path at position `k` carries id `k + 1`. -/
theorem shufflePathIds_inv (gen : Generator) (inv : GridInv gen.grid) :
    GridInv (shufflePathIds gen).grid ∧ IdsSeq (shufflePathIds gen).grid ∧
    ∀ (k : Nat) (pp : Path),
      (shufflePathIds gen).grid.paths.get? k = some pp →
      pp.id = (k : Int) + 1 := by
  simp only [shufflePathIds]
  split
  next hlen =>
    have hnil : gen.grid.paths = [] :=
      List.length_eq_zero.mp (by simpa using hlen)
    refine ⟨inv, ?_, ?_⟩
    · show (gen.grid.paths.map fun path => path.id).Perm
        ((List.range gen.grid.paths.length).map fun (i : Nat) => ((i : Int) + 1))
      rw [hnil]
      exact List.Perm.refl _
    · intro k pp h2
      rw [hnil] at h2
      simp at h2
  next hlen =>
    obtain ⟨z1, z2⟩ := zeroGrid_paths_size (List.range gen.grid.size)
      (List.range gen.grid.size)
      { gen.grid with paths := (Random.shuffle gen.random gen.grid.paths).1 }
    have hfin := shuffleIds_final2 gen.grid _
      ({ gen.grid with
          paths := (Random.shuffle gen.random gen.grid.paths).1 }).paths
      (Random.shuffle gen.random gen.grid.paths).1.length
      inv (shuffle_perm _ _) z1 z2 rfl
    exact ⟨hfin.1, hfin.2.1, hfin.2.2⟩

end Generator

/-- Both branches of a boolean-tagged conditional pair share the first
component. -/
theorem ite_pair_fst {α β : Type} (c : Prop) [i : Decidable c]
    (x : α) (b1 b2 : β) :
    (if c then (x, b1) else (x, b2)).1 = x := by
  split <;> rfl

namespace Generator

/-- Resetting the grid re-establishes the trivial invariant state. -/
theorem resetGen_inv (gen : Generator) :
    GridInv (resetGen gen).grid ∧ IdsSeq (resetGen gen).grid := by
  constructor
  · exact ⟨by simp [resetGen, Grid.reset], by simp [resetGen, Grid.reset],
      by simp [resetGen, Grid.reset], by simp [resetGen, Grid.reset]⟩
  · simp [IdsSeq, resetGen, Grid.reset]

/-- A successful attempt's final state satisfies the full invariant and
carries densely reassigned ids. -/
theorem generateAttempt_inv (gen0 : Generator)
    (h : (generateAttempt gen0).2 = true) :
    GridInv (generateAttempt gen0).1.grid ∧
    IdsSeq (generateAttempt gen0).1.grid ∧
    ∀ (k : Nat) (pp : Path),
      (generateAttempt gen0).1.grid.paths.get? k = some pp →
      pp.id = (k : Int) + 1 := by
  simp only [generateAttempt] at h ⊢
  by_cases hfg : (fillGreedy (resetGen gen0)).2
  · simp only [hfg, if_true] at h ⊢
    obtain ⟨i0, s0⟩ := resetGen_inv gen0
    obtain ⟨i1, s1⟩ := fillGreedy_inv (resetGen gen0) i0 s0
    obtain ⟨i2, s2⟩ := expandPathsRandom_inv _ false i1 s1
    obtain ⟨i3, s3⟩ := tightenPaths_inv _ i2 s2
    obtain ⟨i4, s4⟩ := expandPathsRandom_inv _ true i3 s3
    obtain ⟨i5, s5⟩ := fillSmallVoids_inv _ i4 s4
    obtain ⟨i6, s6⟩ := expandPathsRandom_inv _ true i5 s5
    obtain ⟨i7, s7⟩ := tightenPaths_inv _ i6 s6
    obtain ⟨i8, s8⟩ := expandPathsRandom_inv _ true i7 s7
    obtain ⟨i9, s9⟩ := fillSmallVoids_inv _ i8 s8
    have i10 := mergeCollinearPaths_inv _ i9
    have hfin := shufflePathIds_inv _ i10
    simp only [ite_pair_fst]
    exact hfin
  · simp [hfg] at h

/-- The invariant and the dense-id property of every successful run of
the retry loop. -/
theorem generateLoop_inv : ∀ (fuel : Nat) (gen : Generator),
    (generateLoop fuel gen).2 = true →
    GridInv (generateLoop fuel gen).1.grid ∧
    IdsSeq (generateLoop fuel gen).1.grid ∧
    ∀ (k : Nat) (pp : Path),
      (generateLoop fuel gen).1.grid.paths.get? k = some pp →
      pp.id = (k : Int) + 1 := by
  intro fuel
  induction fuel with
  | zero =>
    intro gen h
    simp [generateLoop] at h
  | succ n ih =>
    intro gen
    simp only [generateLoop]
    split
    next ha => intro h2; exact generateAttempt_inv gen ha
    next ha => exact ih _

/-- The invariant and the dense-id property of every successful
`generate()` run. -/
theorem generate_inv (gen : Generator) (h : (generate gen).2 = true) :
    GridInv (generate gen).1.grid ∧ IdsSeq (generate gen).1.grid ∧
    ∀ (k : Nat) (pp : Path),
      (generate gen).1.grid.paths.get? k = some pp →
      pp.id = (k : Int) + 1 :=
  generateLoop_inv 500 gen h

end Generator

/-! ## Claim C5 — cell exclusivity -/

/-- **C5.** Cell exclusivity throughout generation: every grid satisfying
the generation invariant has pairwise-disjoint live-path point sets,
in-bounds points, and at most `size²` distinct claimed cells; the
invariant is preserved by every phase of an attempt (greedy fill,
expansion, tightening, void filling, collinear merging, id shuffling);
and the grid of every successful `generate()` run satisfies cell
exclusivity. -/
theorem generation_cell_exclusivity :
    (∀ g : Grid, GridInv g → Excl g) ∧
    (∀ gen : Generator, GridInv gen.grid → IdsSeq gen.grid →
      (GridInv (Generator.fillGreedy gen).1.grid ∧
        IdsSeq (Generator.fillGreedy gen).1.grid) ∧
      (∀ b : Bool, GridInv (Generator.expandPathsRandom gen b).grid ∧
        IdsSeq (Generator.expandPathsRandom gen b).grid) ∧
      (GridInv (Generator.tightenPaths gen).grid ∧
        IdsSeq (Generator.tightenPaths gen).grid) ∧
      (GridInv (Generator.fillSmallVoids gen).grid ∧
        IdsSeq (Generator.fillSmallVoids gen).grid) ∧
      GridInv (Generator.mergeCollinearPaths gen).grid ∧
      GridInv (Generator.shufflePathIds gen).grid) ∧
    (∀ gen : Generator, (Generator.generate gen).2 = true →
      Excl (Generator.generate gen).1.grid) := by
  refine ⟨fun g h => h.excl, ?_, ?_⟩
  · intro gen inv hseq
    exact ⟨Generator.fillGreedy_inv gen inv hseq,
      fun b => Generator.expandPathsRandom_inv gen b inv hseq,
      Generator.tightenPaths_inv gen inv hseq,
      Generator.fillSmallVoids_inv gen inv hseq,
      Generator.mergeCollinearPaths_inv gen inv,
      (Generator.shufflePathIds_inv gen inv).1⟩
  · intro gen h
    exact (Generator.generate_inv gen h).1.excl

/-- The generator of the concrete C5 witness run. -/
def c5gen : Generator := Generator.new (Grid.new 3) false 1

/-- Witness for C5: the theorem applied to the empty 2×2 grid (which
satisfies the invariant outright) and to a concrete successful
`generate()` run. -/
theorem generation_cell_exclusivity_witness :
    GridInv (Grid.new 2) ∧ IdsSeq (Grid.new 2) ∧
    (Generator.generate c5gen).2 = true ∧
    Excl (Grid.new 2) ∧
    GridInv (Generator.shufflePathIds (Generator.new (Grid.new 2) false 1)).grid ∧
    Excl (Generator.generate c5gen).1.grid := by
  have hinv : GridInv (Grid.new 2) :=
    ⟨by simp [Grid.new], by simp [Grid.new], by simp [Grid.new],
      by simp [Grid.new]⟩
  have hseq : IdsSeq (Grid.new 2) := by simp [IdsSeq, Grid.new]
  have hgen : (Generator.generate c5gen).2 = true := of_decide_eq_true (by rfl)
  exact ⟨hinv, hseq, hgen,
    generation_cell_exclusivity.1 (Grid.new 2) hinv,
    ((generation_cell_exclusivity.2.1 (Generator.new (Grid.new 2) false 1)
      hinv hseq).2.2.2.2.2),
    generation_cell_exclusivity.2.2 c5gen hgen⟩

/-! ## Claim C6 — dense ids (amended theorem part) -/

/-- **C6 (amended).** `shufflePathIds` (not `mergeCollinearPaths`, see
the counterexample) is what makes ids dense: on any invariant-satisfying
state it leaves the path at index `k` carrying id `k + 1`, the id
multiset equal to `1..K`, and every claimed cell holding its owning
path's id; and the same three properties hold of the final grid of every
successful `generate()` run, whose last grid-mutating phase is
`shufflePathIds`. -/
theorem path_ids_dense_after_shuffle :
    (∀ gen : Generator, GridInv gen.grid →
      IdsSeq (Generator.shufflePathIds gen).grid ∧
      (∀ (k : Nat) (pp : Path),
        (Generator.shufflePathIds gen).grid.paths.get? k = some pp →
        pp.id = (k : Int) + 1) ∧
      ∀ path ∈ (Generator.shufflePathIds gen).grid.paths, ∀ p ∈ path.points,
        (Generator.shufflePathIds gen).grid.cells p = path.id) ∧
    (∀ gen : Generator, (Generator.generate gen).2 = true →
      IdsSeq (Generator.generate gen).1.grid ∧
      (∀ (k : Nat) (pp : Path),
        (Generator.generate gen).1.grid.paths.get? k = some pp →
        pp.id = (k : Int) + 1) ∧
      ∀ path ∈ (Generator.generate gen).1.grid.paths, ∀ p ∈ path.points,
        (Generator.generate gen).1.grid.cells p = path.id) := by
  constructor
  · intro gen inv
    obtain ⟨i, s, d⟩ := Generator.shufflePathIds_inv gen inv
    exact ⟨s, d, i.owner⟩
  · intro gen h
    obtain ⟨i, s, d⟩ := Generator.generate_inv gen h
    exact ⟨s, d, i.owner⟩

/-- The generator of the concrete C6 witness run. -/
def c6wgen : Generator := Generator.new (Grid.new 3) false 1

/-- Witness for C6: the theorem applied to the empty 2×2 grid and to a
concrete successful `generate()` run. -/
theorem path_ids_dense_after_shuffle_witness :
    GridInv (Grid.new 2) ∧
    (Generator.generate c6wgen).2 = true ∧
    IdsSeq (Generator.shufflePathIds (Generator.new (Grid.new 2) true 5)).grid ∧
    IdsSeq (Generator.generate c6wgen).1.grid ∧
    ∀ (k : Nat) (pp : Path),
      (Generator.generate c6wgen).1.grid.paths.get? k = some pp →
      pp.id = (k : Int) + 1 := by
  have hinv : GridInv (Grid.new 2) :=
    ⟨by simp [Grid.new], by simp [Grid.new], by simp [Grid.new],
      by simp [Grid.new]⟩
  have hgen : (Generator.generate c6wgen).2 = true := of_decide_eq_true (by rfl)
  obtain ⟨s2, d2, o2⟩ := path_ids_dense_after_shuffle.2 c6wgen hgen
  exact ⟨hinv, hgen,
    (path_ids_dense_after_shuffle.1 (Generator.new (Grid.new 2) true 5) hinv).1,
    s2, d2⟩

end ConnectDots
